import Mathlib

/-!
# dynamic-stack: a LIFO region allocator

Shallow embedding of `include/dynamic_stack.hpp` (namespace `veg`) and of the
counting element type `S` of `test/src/main.cpp`.

Modelling conventions

* An object pointer is its address, a natural number below `2 ^ ptrBits`;
  `nullptr` is address `0`.  Pointer arithmetic is arithmetic on addresses
  modulo `2 ^ ptrBits` (flat address space).
* `std::size_t` has the width of a pointer; `std::uintmax_t` has `umaxBits`
  bits, and the `static_assert` of `align_next` gives `ptrBits ≤ umaxBits`.
* `std::terminate()` is the outcome `Outcome.terminate`, tagged with the
  source site that called it.
* The array new-expressions `new (ptr) T[len]` and `new (ptr) T[len]{}` are
  erroneous when `len * sizeof(T)` is not representable in `std::size_t`:
  they throw `std::bad_array_new_length` before any element is constructed.
  The exception escapes the handle constructor, which is
  `noexcept(noexcept(T()))`: for `int` and every other type with a
  non-throwing default constructor that is `std::terminate()`.  The call
  returns no handle; it is the outcome `Outcome.terminate` tagged
  `Fatal.bad_array_new_length`.
* An element type `T` is described by `sizeof(T)`, `alignof(T)` and by whether
  its constructor and destructor maintain the instance counter
  `S::n_instances` of the test suite.  The counter is the mathematical number
  of constructor calls minus destructor calls.
-/

namespace DynStack

/-! ## Machine words -/

/-- Target description: width of `size_t` and of pointers, width of
`uintmax_t`, and the `static_assert(sizeof(uintmax_t) >= sizeof(void*))`. -/
structure Machine where
  ptrBits : Nat
  umaxBits : Nat
  umax_ge : ptrBits ≤ umaxBits

/-- Number of values of a `size_t` (and of a pointer). -/
def Machine.wordMod (M : Machine) : Nat := 2 ^ M.ptrBits

/-- Number of values of a `uintmax_t`. -/
def Machine.umaxMod (M : Machine) : Nat := 2 ^ M.umaxBits

/-- The usual 64-bit target: 64-bit pointers, `size_t` and `uintmax_t`. -/
def lp64 : Machine := ⟨64, 64, Nat.le_refl 64⟩

/-- The usual 32-bit target: 32-bit pointers and `size_t`, 64-bit `uintmax_t`. -/
def ilp32 : Machine := ⟨32, 64, by decide⟩

/-! ## Outcomes -/

/-- The three call sites of `std::terminate()` in the header, and the
exception of an erroneous array new-expression. -/
inductive Fatal where
  /-- In `align_next`: the alignment is zero or not a power of two. -/
  | bad_alignment
  /-- In `~dynamic_buffer`: first check, `m_parent.m_data != m_data + m_len`. -/
  | lifo_check
  /-- In `~dynamic_buffer`: second check, marked `// safety check`. -/
  | safety_check
  /-- In `default_init_fn::make` and `zero_init_fn::make`: the new-expression
  `new (ptr) T[len]` throws `std::bad_array_new_length` because
  `len * sizeof(T)` overflows `std::size_t`; the exception escapes the
  constructor `manually_managed_dynamic_buffer(parent, len, align, fn)`,
  declared `noexcept(noexcept(T()))`. -/
  | bad_array_new_length
  deriving DecidableEq

/-- Result of running a piece of code: it did not return (it called
`std::terminate()`, or an exception left it), or it returned a value. -/
inductive Outcome (α : Type) where
  | terminate : Fatal → Outcome α
  | ret : α → Outcome α
  deriving DecidableEq

/-! ## `_dynstack::align_next` -/

/-- What `align_next` leaves behind: the returned pointer and the values of
its two reference parameters `ptr` and `space` at return. -/
structure Carve where
  rv : Nat
  ptr : Nat
  space : Nat
  deriving DecidableEq

/-- The local `offset` of `align_next`:
`((intptr + alignment - 1) & hi_mask) - intptr` in `uintmax_t` arithmetic,
with `lo_mask = alignment - 1` and `hi_mask = ~lo_mask`. -/
def align_offset (M : Machine) (alignment ptr : Nat) : Nat :=
  let lo_mask := alignment - 1
  let hi_mask := M.umaxMod - 1 - lo_mask
  let intptr := ptr
  ((((intptr + alignment - 1) % M.umaxMod) &&& hi_mask) + M.umaxMod - intptr) % M.umaxMod

/-- Embedding of `_dynstack::align_next(alignment, size, ptr, space)`. -/
def align_next (M : Machine) (alignment size ptr space : Nat) : Outcome Carve :=
  if alignment = 0 ∨ (alignment &&& (alignment - 1)) ≠ 0 then
    Outcome.terminate Fatal.bad_alignment
  else if space < size then
    Outcome.ret ⟨0, ptr, space⟩
  else
    let offset := align_offset M alignment ptr
    if space - size < offset then
      Outcome.ret ⟨0, ptr, space⟩
    else
      Outcome.ret
        ⟨(ptr + offset) % M.wordMod,
         (ptr + (offset + size) % M.umaxMod) % M.wordMod,
         ((space + M.umaxMod - (offset + size) % M.umaxMod) % M.umaxMod) % M.wordMod⟩

/-! ## Element types and the observable world -/

/-- An element type `T`. -/
structure ElemType where
  /-- Value of `sizeof(T)`. -/
  size : Nat
  /-- Value of `alignof(T)`. -/
  align : Nat
  /-- Whether `T()` increments and `~T()` decrements the instance counter. -/
  counting : Bool
  deriving DecidableEq

/-- The type `S` of the test suite: an empty class with a counting
constructor and destructor. -/
def S : ElemType := ⟨1, 1, true⟩

/-- The type `int` on the usual targets. -/
def int : ElemType := ⟨4, 4, false⟩

/-- State of `dynamic_stack_view`. -/
structure dynamic_stack_view where
  m_data : Nat
  m_rem_bytes : Nat
  deriving DecidableEq

/-- Constructor `dynamic_stack_view(void* data, size_t n_bytes)`. -/
def dynamic_stack_view.mk_view (data n_bytes : Nat) : dynamic_stack_view :=
  ⟨data, n_bytes⟩

/-- Observer `remaining_bytes()`. -/
def dynamic_stack_view.remaining_bytes (v : dynamic_stack_view) : Nat :=
  v.m_rem_bytes

/-- Everything the operations can change: the view, the instance counter and
the sequence of element indices on which a destructor has been run by a
buffer release. -/
structure World where
  stack : dynamic_stack_view
  n_instances : Int
  dtor_log : List Nat
  deriving DecidableEq

/-- Effect of the array new-expressions `new (ptr) T[len]` and
`new (ptr) T[len]{}`: one constructor call per element. -/
def construct_array (T : ElemType) (len : Nat) (w : World) : World :=
  if T.counting then { w with n_instances := w.n_instances + (len : Int) } else w

/-- Effect of `(m_data + i)->~T()`. -/
def destruct_at (T : ElemType) (i : Nat) (w : World) : World :=
  { w with
    n_instances := if T.counting then w.n_instances - 1 else w.n_instances
    dtor_log := w.dtor_log ++ [i] }

/-- The three initialisation strategies. -/
inductive InitFn where
  | zero_init_fn
  | default_init_fn
  | no_init_fn
  deriving DecidableEq

/-- Whether the array new-expression `new (ptr) T[len]` is erroneous: the size
`len * sizeof(T)` of the array is not representable in `std::size_t`.  (A
compiler may set its limit lower, at half the address space; no array that
fits in a region of real memory lies between the two limits.) -/
def array_new_erroneous (M : Machine) (T : ElemType) (len : Nat) : Prop :=
  M.wordMod ≤ len * T.size

instance (M : Machine) (T : ElemType) (len : Nat) : Decidable (array_new_erroneous M T len) :=
  inferInstanceAs (Decidable (M.wordMod ≤ len * T.size))

/-- Member `make<T>(ptr, len)` of the three strategies: the returned typed
pointer and the effect of the new-expression.  `zero_init_fn` and
`default_init_fn` evaluate `new (ptr) T[len]{}` and `new (ptr) T[len]`, which
throw when the array size overflows; `no_init_fn` evaluates
`new (ptr) unsigned char[len * sizeof(T)]`, whose bound is the product already
reduced to a `size_t`. -/
def InitFn.make (M : Machine) (fn : InitFn) (T : ElemType) (ptr len : Nat) (w : World) :
    Outcome (Nat × World) :=
  match fn with
  | InitFn.zero_init_fn =>
    if array_new_erroneous M T len then Outcome.terminate Fatal.bad_array_new_length
    else Outcome.ret (ptr, construct_array T len w)
  | InitFn.default_init_fn =>
    if array_new_erroneous M T len then Outcome.terminate Fatal.bad_array_new_length
    else Outcome.ret (ptr, construct_array T len w)
  | InitFn.no_init_fn => Outcome.ret (ptr, w)

/-! ## Buffer handles -/

/-- Fields of `manually_managed_dynamic_buffer<T>`, which `dynamic_buffer<T>`
inherits.  `m_parent` is the view of the world the handle lives in. -/
structure manually_managed_dynamic_buffer where
  T : ElemType
  m_old_pos : Nat
  m_data : Nat
  m_len : Nat
  deriving DecidableEq

/-- The class `dynamic_buffer<T>` has the fields of its base class. -/
abbrev dynamic_buffer := manually_managed_dynamic_buffer

/-- Accessor `data()`. -/
def manually_managed_dynamic_buffer.data (b : manually_managed_dynamic_buffer) : Nat :=
  b.m_data

/-- Accessor `size()`. -/
def manually_managed_dynamic_buffer.size (b : manually_managed_dynamic_buffer) : Nat :=
  b.m_len

/-- The constructor
`manually_managed_dynamic_buffer(parent, len, align, fn)`. -/
def manually_managed_dynamic_buffer.ctor (M : Machine) (T : ElemType) (len align : Nat)
    (fn : InitFn) (w : World) : Outcome (manually_managed_dynamic_buffer × World) :=
  let m_old_pos := w.stack.m_data
  match align_next M align ((len * T.size) % M.wordMod) w.stack.m_data w.stack.m_rem_bytes with
  | Outcome.terminate f => Outcome.terminate f
  | Outcome.ret c =>
    let w1 : World := { w with stack := ⟨c.ptr, c.space⟩ }
    if c.rv ≠ 0 then
      match fn.make M T c.rv len w1 with
      | Outcome.terminate f => Outcome.terminate f
      | Outcome.ret r => Outcome.ret (⟨T, m_old_pos, r.1, len⟩, r.2)
    else
      Outcome.ret (⟨T, m_old_pos, 0, 0⟩, w1)

/-- The move constructor: the new handle and the state left in `other`. -/
def manually_managed_dynamic_buffer.move_ctor (other : manually_managed_dynamic_buffer) :
    manually_managed_dynamic_buffer × manually_managed_dynamic_buffer :=
  (⟨other.T, other.m_old_pos, other.m_data, other.m_len⟩,
   { other with m_len := 0, m_data := 0 })

/-- The implicit destructor of `manually_managed_dynamic_buffer<T>`. -/
def manually_managed_dynamic_buffer.dtor (_b : manually_managed_dynamic_buffer) (w : World) :
    Outcome World :=
  Outcome.ret w

/-- The loop `for (i = 0; i < m_len; ++i) (m_data + i)->~T();`. -/
def destruct_loop (T : ElemType) (m_len : Nat) (w : World) : World :=
  (List.range m_len).foldl (fun acc i => destruct_at T i acc) w

/-- The address `this->m_data + this->m_len` (arithmetic on `T*`). -/
def manually_managed_dynamic_buffer.top (M : Machine) (b : manually_managed_dynamic_buffer) :
    Nat :=
  (b.m_data + b.m_len * b.T.size) % M.wordMod

/-- The destructor `~dynamic_buffer()`. -/
def dynamic_buffer.dtor (M : Machine) (b : dynamic_buffer) (w : World) : Outcome World :=
  if b.m_len ≠ 0 then
    if w.stack.m_data ≠ b.top M then
      Outcome.terminate Fatal.lifo_check
    else if w.stack.m_data ≠ b.top M ∧ w.stack.m_data < b.m_old_pos then
      Outcome.terminate Fatal.safety_check
    else
      let w1 := destruct_loop b.T b.m_len w
      Outcome.ret
        { w1 with
          stack :=
            ⟨b.m_old_pos,
             (w.stack.m_rem_bytes + (w.stack.m_data + M.wordMod - b.m_old_pos) % M.wordMod)
               % M.wordMod⟩ }
  else
    Outcome.ret w

/-! ## Allocation entry points of `dynamic_stack_view` -/

/-- Entry point `make_new<T>(len, align)`. -/
def make_new (M : Machine) (T : ElemType) (len align : Nat) (w : World) :
    Outcome (dynamic_buffer × World) :=
  manually_managed_dynamic_buffer.ctor M T len align InitFn.zero_init_fn w

/-- Entry point `make_new_for_overwrite<T>(len, align)`. -/
def make_new_for_overwrite (M : Machine) (T : ElemType) (len align : Nat) (w : World) :
    Outcome (dynamic_buffer × World) :=
  manually_managed_dynamic_buffer.ctor M T len align InitFn.default_init_fn w

/-- Entry point `make_alloc<T>(len, align)`. -/
def make_alloc (M : Machine) (T : ElemType) (len align : Nat) (w : World) :
    Outcome (manually_managed_dynamic_buffer × World) :=
  manually_managed_dynamic_buffer.ctor M T len align InitFn.no_init_fn w

/-! ## Client programs

Nested scopes of scoped buffers, and arbitrary interleavings of the public
operations on one view. -/

/-- A call `make_new<T>(len, align)`, or `make_new_for_overwrite<T>(len, align)`
when `for_overwrite` is set. -/
structure Request where
  T : ElemType
  len : Nat
  align : Nat
  for_overwrite : Bool
  deriving DecidableEq

/-- Perform the call. -/
def Request.call (M : Machine) (r : Request) (w : World) : Outcome (dynamic_buffer × World) :=
  if r.for_overwrite then make_new_for_overwrite M r.T r.len r.align w
  else make_new M r.T r.len r.align w

/-- Run the requested allocations one after the other; the handles are
returned in order of acquisition. -/
def alloc_all (M : Machine) : List Request → World → Outcome (List dynamic_buffer × World)
  | [], w => Outcome.ret ([], w)
  | r :: rs, w =>
    match r.call M w with
    | Outcome.terminate f => Outcome.terminate f
    | Outcome.ret (b, w1) =>
      match alloc_all M rs w1 with
      | Outcome.terminate f => Outcome.terminate f
      | Outcome.ret (bs, w2) => Outcome.ret (b :: bs, w2)

/-- Run `~dynamic_buffer()` on the handles in the order of the list. -/
def release_all (M : Machine) : List dynamic_buffer → World → Outcome World
  | [], w => Outcome.ret w
  | b :: bs, w =>
    match dynamic_buffer.dtor M b w with
    | Outcome.terminate f => Outcome.terminate f
    | Outcome.ret w1 => release_all M bs w1

/-- A live handle object: a `dynamic_buffer<T>` (`managed = true`) or a
`manually_managed_dynamic_buffer<T>` (`managed = false`). -/
structure Handle where
  managed : Bool
  buf : manually_managed_dynamic_buffer
  deriving DecidableEq

/-- A view together with the handle objects that are alive, the most recently
created first. -/
structure Sys where
  world : World
  handles : List Handle
  deriving DecidableEq

/-- The operations a client can perform on a view and its handles. -/
inductive Op where
  | make_new (T : ElemType) (len align : Nat)
  | make_new_for_overwrite (T : ElemType) (len align : Nat)
  | make_alloc (T : ElemType) (len align : Nat)
  /-- The handle object number `i` reaches the end of its scope. -/
  | end_of_scope (i : Nat)
  /-- A new handle is move-constructed from handle object number `i`. -/
  | move (i : Nat)
  deriving DecidableEq

/-- State after `dynamic_stack_view stack(base, n_bytes)`. -/
def Sys.init (base n_bytes : Nat) : Sys :=
  ⟨⟨dynamic_stack_view.mk_view base n_bytes, 0, []⟩, []⟩

/-- Register the handle returned by an allocation entry point. -/
def Sys.push (s : Sys) (managed : Bool)
    (r : Outcome (manually_managed_dynamic_buffer × World)) : Outcome Sys :=
  match r with
  | Outcome.terminate f => Outcome.terminate f
  | Outcome.ret (b, w) => Outcome.ret ⟨w, ⟨managed, b⟩ :: s.handles⟩

/-- One operation.  An index that names no live handle leaves the state as it
is. -/
def Sys.step (M : Machine) (s : Sys) : Op → Outcome Sys
  | Op.make_new T len align => s.push true (make_new M T len align s.world)
  | Op.make_new_for_overwrite T len align =>
    s.push true (make_new_for_overwrite M T len align s.world)
  | Op.make_alloc T len align => s.push false (make_alloc M T len align s.world)
  | Op.end_of_scope i =>
    match s.handles[i]? with
    | none => Outcome.ret s
    | some h =>
      match (if h.managed then dynamic_buffer.dtor M h.buf s.world
             else manually_managed_dynamic_buffer.dtor h.buf s.world) with
      | Outcome.terminate f => Outcome.terminate f
      | Outcome.ret w => Outcome.ret ⟨w, s.handles.eraseIdx i⟩
  | Op.move i =>
    match s.handles[i]? with
    | none => Outcome.ret s
    | some h =>
      let r := manually_managed_dynamic_buffer.move_ctor h.buf
      Outcome.ret ⟨s.world, ⟨h.managed, r.2⟩ :: s.handles.set i ⟨h.managed, r.1⟩⟩

/-- A sequence of operations. -/
def Sys.run (M : Machine) : List Op → Sys → Outcome Sys
  | [], s => Outcome.ret s
  | op :: ops, s =>
    match s.step M op with
    | Outcome.terminate f => Outcome.terminate f
    | Outcome.ret s1 => Sys.run M ops s1

/-! ## Well-formedness predicates used in the statements -/

/-- Both fields of the view hold values of their machine types. -/
def World.words (M : Machine) (w : World) : Prop :=
  w.stack.m_data < M.wordMod ∧ w.stack.m_rem_bytes < M.wordMod

instance (M : Machine) (w : World) : Decidable (w.words M) := by
  unfold World.words
  infer_instance

/-- The `size_t` arguments of an operation hold values of that type. -/
def Op.words (M : Machine) : Op → Prop
  | Op.make_new _ len align => len < M.wordMod ∧ align < M.wordMod
  | Op.make_new_for_overwrite _ len align => len < M.wordMod ∧ align < M.wordMod
  | Op.make_alloc _ len align => len < M.wordMod ∧ align < M.wordMod
  | Op.end_of_scope _ => True
  | Op.move _ => True

instance (M : Machine) (op : Op) : Decidable (op.words M) := by
  cases op <;> unfold Op.words <;> infer_instance

/-- The handle was carved successfully and took at least one byte of the
region, padding included: its `m_old_pos` is below `m_data + m_len`. -/
def manually_managed_dynamic_buffer.consumed (M : Machine)
    (b : manually_managed_dynamic_buffer) : Prop :=
  b.m_data ≠ 0 ∧ b.m_old_pos < b.top M

instance (M : Machine) (b : manually_managed_dynamic_buffer) : Decidable (b.consumed M) := by
  unfold manually_managed_dynamic_buffer.consumed
  infer_instance

/-- Facts that hold of every state reached from a view over the region
`[base, base + n_bytes)`: the accounting of the view, the shape of each live
handle, and the order of the spans of the live handles. -/
structure Sys.Inv (M : Machine) (base n_bytes : Nat) (s : Sys) : Prop where
  sum_eq : s.world.stack.m_data + s.world.stack.m_rem_bytes = base + n_bytes
  base_le : base ≤ s.world.stack.m_data
  null_empty : ∀ h ∈ s.handles, h.buf.m_data = 0 → h.buf.m_len = 0
  span : ∀ h ∈ s.handles, h.buf.m_data ≠ 0 →
    base ≤ h.buf.m_old_pos ∧ h.buf.m_old_pos ≤ h.buf.m_data ∧
    h.buf.m_data + (h.buf.m_len * h.buf.T.size) % M.wordMod ≤ base + n_bytes
  below_cursor : ∀ h ∈ s.handles, h.buf.consumed M → h.buf.top M ≤ s.world.stack.m_data
  ordered : s.handles.Pairwise
    (fun newer older => older.buf.consumed M → newer.buf.m_data ≠ 0 →
      older.buf.top M ≤ newer.buf.m_old_pos)

/-- The cursor is at or above the address `floor`, and every live scoped
handle that spans bytes either ends below `floor` or was carved at or above
it. -/
def Sys.Floor (M : Machine) (floor : Nat) (s : Sys) : Prop :=
  floor ≤ s.world.stack.m_data ∧
  ∀ h ∈ s.handles, h.managed = true → h.buf.m_len ≠ 0 → h.buf.m_old_pos < h.buf.top M →
    h.buf.top M < floor ∨ floor ≤ h.buf.m_old_pos

/-! ## Bit-level facts about the alignment masks -/

theorem wordMod_pos (M : Machine) : 0 < M.wordMod := Nat.two_pow_pos _

theorem umaxMod_pos (M : Machine) : 0 < M.umaxMod := Nat.two_pow_pos _

theorem wordMod_le_umaxMod (M : Machine) : M.wordMod ≤ M.umaxMod :=
  Nat.pow_le_pow_right (by decide) M.umax_ge

/-- Masking with `~(2^k - 1)` in an `m`-bit word clears the low `k` bits. -/
theorem and_hi_mask (m k x : Nat) (hk : k ≤ m) (hx : x < 2 ^ m) :
    x &&& (2 ^ m - 1 - (2 ^ k - 1)) = x - x % 2 ^ k := by
  have hklt : 2 ^ k - 1 < 2 ^ m :=
    lt_of_lt_of_le (Nat.sub_lt (Nat.two_pow_pos k) Nat.one_pos)
      (Nat.pow_le_pow_right (by decide) hk)
  have hmask : 2 ^ m - 1 - (2 ^ k - 1) = 2 ^ m - ((2 ^ k - 1) + 1) := by omega
  have hdiv : x - x % 2 ^ k = 2 ^ k * (x / 2 ^ k) := by
    have := Nat.div_add_mod x (2 ^ k)
    omega
  rw [hmask, hdiv]
  apply Nat.eq_of_testBit_eq
  intro i
  rw [Nat.testBit_and, Nat.testBit_two_pow_sub_succ hklt, Nat.testBit_two_pow_sub_one,
    Nat.testBit_mul_pow_two, ← Nat.shiftRight_eq_div_pow, Nat.testBit_shiftRight]
  by_cases hik : i < k
  · have : ¬ (i ≥ k) := by omega
    simp [hik, this]
  · have hge : i ≥ k := by omega
    have hki : k + (i - k) = i := by omega
    by_cases him : i < m
    · simp [hik, hge, him, hki]
    · have hxi : x.testBit i = false := by
        apply Nat.testBit_lt_two_pow
        exact lt_of_lt_of_le hx (Nat.pow_le_pow_right (by decide) (by omega))
      simp [hik, hge, him, hki, hxi]

/-- Rounding `p` up to a multiple of `a`, written with the quantities of
`align_next`. -/
theorem round_up_eq (a p : Nat) (ha : 0 < a) :
    (p + a - 1) - (p + a - 1) % a = p + (a - p % a) % a := by
  have hdm := Nat.div_add_mod p a
  have hr := Nat.mod_lt p ha
  by_cases h0 : p % a = 0
  · have h1 : (p + a - 1) % a = a - 1 := by
      have : p + a - 1 = a * (p / a) + (a - 1) := by omega
      rw [this, Nat.mul_add_mod, Nat.mod_eq_of_lt (by omega)]
    rw [h1, h0, Nat.sub_zero, Nat.mod_self]
    omega
  · have h1 : (p + a - 1) % a = p % a - 1 := by
      have : p + a - 1 = a * (p / a + 1) + (p % a - 1) := by
        rw [Nat.mul_add, Nat.mul_one]; omega
      rw [this, Nat.mul_add_mod, Nat.mod_eq_of_lt (by omega)]
    rw [h1, Nat.mod_eq_of_lt (by omega : a - p % a < a)]
    omega

theorem pad_lt (a p : Nat) (ha : 0 < a) : (a - p % a) % a < a := Nat.mod_lt _ ha

theorem pad_dvd (a p : Nat) (ha : 0 < a) : a ∣ p + (a - p % a) % a := by
  rw [← round_up_eq a p ha]
  exact Nat.dvd_sub_mod _

/-- The offset computed by `align_next` for a power-of-two alignment is the
distance from `ptr` to the next multiple of the alignment. -/
theorem align_offset_eq (M : Machine) (k p : Nat) (hk : k < M.ptrBits) (hp : p < M.wordMod) :
    align_offset M (2 ^ k) p = (2 ^ k - p % 2 ^ k) % 2 ^ k := by
  have ha : 0 < 2 ^ k := Nat.two_pow_pos k
  have hkm : k ≤ M.umaxBits := le_trans (Nat.le_of_lt hk) M.umax_ge
  have hU : M.umaxMod = 2 ^ k * 2 ^ (M.umaxBits - k) := by
    unfold Machine.umaxMod
    rw [← Nat.pow_add]; congr 1; omega
  have hPU := wordMod_le_umaxMod M
  have haU : 2 ^ k ≤ M.umaxMod := Nat.pow_le_pow_right (by decide) hkm
  have hru := round_up_eq (2 ^ k) p ha
  have hpl := pad_lt (2 ^ k) p ha
  obtain ⟨t, ht⟩ := pad_dvd (2 ^ k) p ha
  unfold align_offset
  simp only []
  unfold Machine.umaxMod at *
  have hxlt : (p + 2 ^ k - 1) % 2 ^ M.umaxBits < 2 ^ M.umaxBits :=
    Nat.mod_lt _ (Nat.two_pow_pos _)
  rw [and_hi_mask M.umaxBits k _ hkm hxlt]
  clear hxlt
  generalize hd : 2 ^ (M.umaxBits - k) = d at hU
  generalize 2 ^ M.umaxBits = U at *
  generalize 2 ^ k = a at *
  generalize hodef : (a - p % a) % a = o at *
  by_cases hc : p + a - 1 < U
  · rw [Nat.mod_eq_of_lt hc, hru]
    have : p + o + U - p = o + U := by omega
    rw [this, Nat.add_mod_right, Nat.mod_eq_of_lt (by omega)]
  · have hx : (p + a - 1) % U = p + a - 1 - U := by
      rw [Nat.mod_eq_sub_mod (by omega), Nat.mod_eq_of_lt (by omega)]
    have hxa : (p + a - 1 - U) % a = (p + a - 1) % a := by
      have h := Nat.add_mul_mod_self_left (p + a - 1 - U) a d
      have e : p + a - 1 - U + a * d = p + a - 1 := by omega
      rw [e] at h
      exact h.symm
    have hmle := Nat.mod_le (p + a - 1 - U) a
    have htd : t ≤ d := by
      have : a * t < a * (d + 1) := by rw [Nat.mul_add, Nat.mul_one]; omega
      have := Nat.lt_of_mul_lt_mul_left this
      omega
    have hle : a * t ≤ a * d := Nat.mul_le_mul_left a htd
    rw [hx, hxa] at *
    have hz : p + a - 1 - U - (p + a - 1) % a = 0 := by omega
    rw [hz]
    have hp1 : 0 < p := by
      rcases Nat.eq_zero_or_pos p with h | h
      · subst h; omega
      · exact h
    rw [Nat.mod_eq_of_lt (by omega)]
    omega

/-- A power of two passes the alignment test of `align_next`. -/
theorem pow2_passes_check (k : Nat) :
    ¬ (2 ^ k = 0 ∨ (2 ^ k &&& (2 ^ k - 1)) ≠ 0) := by
  have h0 : 2 ^ k ≠ 0 := Nat.pos_iff_ne_zero.mp (Nat.two_pow_pos k)
  have h1 : (2 ^ k &&& (2 ^ k - 1)) = 0 := by
    rw [Nat.and_pow_two_sub_one_eq_mod, Nat.mod_self]
  simp [h0, h1]

/-- Closed form of `align_next` for a power-of-two alignment and word-sized
arguments. -/
theorem align_next_pow2 (M : Machine) (k size p space : Nat)
    (hs : space < M.wordMod) :
    align_next M (2 ^ k) size p space =
      if space < size ∨ space - size < align_offset M (2 ^ k) p then
        Outcome.ret ⟨0, p, space⟩
      else
        Outcome.ret
          ⟨(p + align_offset M (2 ^ k) p) % M.wordMod,
           (p + align_offset M (2 ^ k) p + size) % M.wordMod,
           space - (align_offset M (2 ^ k) p + size)⟩ := by
  have hPU := wordMod_le_umaxMod M
  unfold align_next
  rw [if_neg (pow2_passes_check k)]
  by_cases h1 : space < size
  · simp [h1]
  · simp only [h1, if_false, false_or]
    by_cases h2 : space - size < align_offset M (2 ^ k) p
    · simp [h2]
    · simp only [h2, if_false]
      have hle : align_offset M (2 ^ k) p + size ≤ space := by omega
      have hsum : align_offset M (2 ^ k) p + size < M.umaxMod := by omega
      have e1 : space + M.umaxMod - (align_offset M (2 ^ k) p + size)
          = (space - (align_offset M (2 ^ k) p + size)) + M.umaxMod := by omega
      have e2 : (space - (align_offset M (2 ^ k) p + size)) % M.umaxMod
          = space - (align_offset M (2 ^ k) p + size) := Nat.mod_eq_of_lt (by omega)
      have e3 : (space - (align_offset M (2 ^ k) p + size)) % M.wordMod
          = space - (align_offset M (2 ^ k) p + size) := Nat.mod_eq_of_lt (by omega)
      rw [Nat.mod_eq_of_lt hsum, e1, Nat.add_mod_right, e2, e3, Nat.add_assoc]

/-- The computed offset is below the alignment, reaches a multiple of the
alignment that is still at most `2 ^ ptrBits`, and no smaller offset reaches a
multiple. -/
theorem align_offset_spec (M : Machine) (k p : Nat) (hk : k < M.ptrBits)
    (hp : p < M.wordMod) :
    align_offset M (2 ^ k) p < 2 ^ k ∧
    2 ^ k ∣ p + align_offset M (2 ^ k) p ∧
    p + align_offset M (2 ^ k) p ≤ M.wordMod ∧
    (∀ o, 2 ^ k ∣ p + o → align_offset M (2 ^ k) p ≤ o) := by
  have ha : 0 < 2 ^ k := Nat.two_pow_pos k
  rw [align_offset_eq M k p hk hp]
  have hP : M.wordMod = 2 ^ k * 2 ^ (M.ptrBits - k) := by
    unfold Machine.wordMod
    rw [← Nat.pow_add]; congr 1; omega
  have hlt := pad_lt (2 ^ k) p ha
  have hdvd := pad_dvd (2 ^ k) p ha
  refine ⟨hlt, hdvd, ?_, ?_⟩
  · obtain ⟨t, ht⟩ := hdvd
    generalize 2 ^ (M.ptrBits - k) = d at hP
    generalize 2 ^ k = a at *
    have htd : t ≤ d := by
      have : a * t < a * (d + 1) := by rw [Nat.mul_add, Nat.mul_one]; omega
      have := Nat.lt_of_mul_lt_mul_left this
      omega
    have hle : a * t ≤ a * d := Nat.mul_le_mul_left a htd
    omega
  · intro o ho
    generalize 2 ^ k = a at *
    have hr := Nat.mod_lt p ha
    have hs := Nat.mod_lt o ha
    have hso := Nat.mod_le o a
    have hz : (p % a + o % a) % a = 0 := by
      rw [← Nat.add_mod]; exact Nat.mod_eq_zero_of_dvd ho
    by_cases h0 : p % a = 0
    · rw [h0, Nat.sub_zero, Nat.mod_self]; exact Nat.zero_le _
    · rw [Nat.mod_eq_of_lt (by omega : a - p % a < a)]
      by_cases hlt2 : p % a + o % a < a
      · rw [Nat.mod_eq_of_lt hlt2] at hz; omega
      · rw [Nat.mod_eq_sub_mod (by omega), Nat.mod_eq_of_lt (by omega)] at hz
        omega

/-- On a successful carve with a power-of-two alignment the three results of
`align_next` are given by the offset, without any wrap of the returned
address. -/
theorem align_next_success (M : Machine) (k size p space : Nat) (c : Carve)
    (hk : k < M.ptrBits) (hp : p < M.wordMod) (hs : space < M.wordMod)
    (hret : align_next M (2 ^ k) size p space = Outcome.ret c) (hok : c.rv ≠ 0) :
    align_offset M (2 ^ k) p + size ≤ space ∧
    c.rv = p + align_offset M (2 ^ k) p ∧
    c.ptr = (p + align_offset M (2 ^ k) p + size) % M.wordMod ∧
    c.space = space - (align_offset M (2 ^ k) p + size) := by
  obtain ⟨_, _, hle, _⟩ := align_offset_spec M k p hk hp
  rw [align_next_pow2 M k size p space hs] at hret
  by_cases hf : space < size ∨ space - size < align_offset M (2 ^ k) p
  · rw [if_pos hf] at hret
    cases hret
    exact absurd rfl hok
  · rw [if_neg hf] at hret
    cases hret
    have hrv : (p + align_offset M (2 ^ k) p) % M.wordMod = p + align_offset M (2 ^ k) p := by
      rcases Nat.lt_or_ge (p + align_offset M (2 ^ k) p) M.wordMod with h | h
      · exact Nat.mod_eq_of_lt h
      · have : p + align_offset M (2 ^ k) p = M.wordMod := le_antisymm hle h
        exact absurd (by rw [this, Nat.mod_self]) hok
    refine ⟨by omega, hrv, rfl, rfl⟩

/-- With a power-of-two alignment `align_next` returns; it does not terminate. -/
theorem align_next_returns (M : Machine) (k size p space : Nat) (hs : space < M.wordMod) :
    ∃ c, align_next M (2 ^ k) size p space = Outcome.ret c := by
  rw [align_next_pow2 M k size p space hs]
  by_cases hf : space < size ∨ space - size < align_offset M (2 ^ k) p
  · rw [if_pos hf]; exact ⟨_, rfl⟩
  · rw [if_neg hf]; exact ⟨_, rfl⟩

/-- C1 (as stated, refuted): a zero-size carve that needs one byte of padding
in a region with one byte left succeeds and returns the one-past-the-end
address `cursor + remaining`, which is outside the half-open interval
`[cursor, cursor + remaining)`. -/
theorem carve_zero_size_returns_region_end :
    ¬ (∀ c : Carve, align_next lp64 (2 ^ 1) 0 1001 1 = Outcome.ret c → c.rv ≠ 0 →
        2 ^ 1 ∣ c.rv ∧ (1001 ≤ c.rv ∧ c.rv < 1001 + 1) ∧
        c.space = 1 - (c.rv - 1001) - 0) := by
  intro h
  have h1 := h ⟨1002, 1002, 0⟩ (by decide) (by decide)
  exact absurd h1.2.1.2 (by decide)

/-- C1 (amended): for every power-of-two alignment and all word-sized size,
cursor and remaining, a successful carve returns a multiple of the alignment
that lies in the closed interval `[cursor, cursor + remaining - size]` (hence
in `[cursor, cursor + remaining)` whenever `size > 0`), and the new remaining
is `remaining - (returned - cursor) - size`. -/
theorem carve_correct (M : Machine) (k size cursor remaining : Nat) (c : Carve)
    (hk : k < M.ptrBits) (hcur : cursor < M.wordMod) (hrem : remaining < M.wordMod)
    (hret : align_next M (2 ^ k) size cursor remaining = Outcome.ret c) (hok : c.rv ≠ 0) :
    2 ^ k ∣ c.rv ∧
    cursor ≤ c.rv ∧
    c.rv + size ≤ cursor + remaining ∧
    (0 < size → c.rv < cursor + remaining) ∧
    c.space = remaining - (c.rv - cursor) - size := by
  obtain ⟨_, hdvd, _, _⟩ := align_offset_spec M k cursor hk hcur
  obtain ⟨hle, hrv, _, hsp⟩ := align_next_success M k size cursor remaining c hk hcur hrem hret hok
  rw [hrv, hsp]
  refine ⟨hdvd, by omega, by omega, fun _ => by omega, by omega⟩

theorem carve_correct_witness :
    2 ^ 2 ∣ 1008 ∧ 1007 ≤ 1008 ∧ 1008 + 1200 ≤ 1007 + 4089 ∧
    (0 < 1200 → 1008 < 1007 + 4089) ∧ 2888 = 4089 - (1008 - 1007) - 1200 :=
  carve_correct lp64 2 1200 1007 4089 ⟨1008, 2208, 2888⟩ (by decide) (by decide) (by decide)
    (by decide) (by decide)

/-- A carve that returns `nullptr` in a region of real memory (non-null
cursor unless the region is empty, one-past-the-end address representable)
is one of the two early returns, and leaves `ptr` and `space` as they were. -/
theorem align_next_null (M : Machine) (k size p space : Nat) (c : Carve)
    (hnull : p ≠ 0 ∨ space = 0) (hreg : p + space < M.wordMod)
    (hret : align_next M (2 ^ k) size p space = Outcome.ret c) (hz : c.rv = 0) :
    c.ptr = p ∧ c.space = space ∧
    (p ≠ 0 → space < size ∨ space - size < align_offset M (2 ^ k) p) := by
  rw [align_next_pow2 M k size p space (by omega)] at hret
  by_cases hf : space < size ∨ space - size < align_offset M (2 ^ k) p
  · rw [if_pos hf] at hret
    cases hret
    exact ⟨rfl, rfl, fun _ => hf⟩
  · rw [if_neg hf] at hret
    cases hret
    simp only at hz
    have hlt : p + align_offset M (2 ^ k) p < M.wordMod := by omega
    rw [Nat.mod_eq_of_lt hlt] at hz
    have hp0 : p = 0 := by omega
    have ho0 : align_offset M (2 ^ k) p = 0 := by omega
    have hs0 : space = 0 := by
      rcases hnull with h | h
      · exact absurd hp0 h
      · exact h
    have hsz : size = 0 := by omega
    subst hp0 hs0 hsz
    rw [ho0]
    refine ⟨?_, rfl, fun h => absurd rfl h⟩
    exact Nat.mod_eq_of_lt (wordMod_pos M)

/-- Closed form of the strategies: the two array new-expressions fail when
the array size overflows, and otherwise construct `len` elements at `ptr`;
the byte-array strategy returns `ptr` and constructs nothing. -/
theorem make_eq (M : Machine) (fn : InitFn) (T : ElemType) (p len : Nat) (w : World) :
    fn.make M T p len w =
      if fn ≠ InitFn.no_init_fn ∧ M.wordMod ≤ len * T.size then
        Outcome.terminate Fatal.bad_array_new_length
      else
        Outcome.ret (p, if fn = InitFn.no_init_fn then w else construct_array T len w) := by
  cases fn <;> simp [InitFn.make, array_new_erroneous]

/-- A strategy that returns has returned its argument pointer, left the view
and the destructor log alone, and (unless it is the byte-array strategy) was
given an array size that does not overflow. -/
theorem make_ret (M : Machine) (fn : InitFn) (T : ElemType) (p len : Nat) (w : World)
    (r : Nat × World) (h : fn.make M T p len w = Outcome.ret r) :
    r.1 = p ∧
    r.2 = (if fn = InitFn.no_init_fn then w else construct_array T len w) ∧
    r.2.stack = w.stack ∧ r.2.dtor_log = w.dtor_log ∧
    (fn ≠ InitFn.no_init_fn → len * T.size < M.wordMod) := by
  rw [make_eq] at h
  by_cases hc : fn ≠ InitFn.no_init_fn ∧ M.wordMod ≤ len * T.size
  · rw [if_pos hc] at h
    cases h
  · rw [if_neg hc] at h
    cases h
    refine ⟨rfl, rfl, ?_, ?_, fun hne => ?_⟩
    · by_cases hfn : fn = InitFn.no_init_fn
      · simp [hfn]
      · cases hT : T.counting <;> simp [hfn, construct_array, hT]
    · by_cases hfn : fn = InitFn.no_init_fn
      · simp [hfn]
      · cases hT : T.counting <;> simp [hfn, construct_array, hT]
    · by_contra hlt
      exact hc ⟨hne, by omega⟩

/-- A strategy returns when it is the byte-array strategy or the array size
does not overflow. -/
theorem make_returns (M : Machine) (fn : InitFn) (T : ElemType) (p len : Nat) (w : World)
    (h : fn = InitFn.no_init_fn ∨ len * T.size < M.wordMod) :
    fn.make M T p len w =
      Outcome.ret (p, if fn = InitFn.no_init_fn then w else construct_array T len w) := by
  rw [make_eq, if_neg]
  rintro ⟨hne, hle⟩
  rcases h with h | h
  · exact hne h
  · omega

/-- A constructor call that yields a null handle in a region of real memory
has changed nothing. -/
theorem ctor_null_unchanged (M : Machine) (T : ElemType) (len k : Nat) (fn : InitFn)
    (w w1 : World) (b : manually_managed_dynamic_buffer)
    (hnull : w.stack.m_data ≠ 0 ∨ w.stack.m_rem_bytes = 0)
    (hreg : w.stack.m_data + w.stack.m_rem_bytes < M.wordMod)
    (hret : manually_managed_dynamic_buffer.ctor M T len (2 ^ k) fn w = Outcome.ret (b, w1))
    (hz : b.m_data = 0) :
    w1 = w ∧ b.m_len = 0 := by
  unfold manually_managed_dynamic_buffer.ctor at hret
  obtain ⟨c, hc⟩ := align_next_returns M k ((len * T.size) % M.wordMod) w.stack.m_data
    w.stack.m_rem_bytes (by omega)
  rw [hc] at hret
  simp only at hret
  by_cases hrv : c.rv = 0
  · rw [if_neg (by simpa using hrv)] at hret
    cases hret
    obtain ⟨h1, h2, _⟩ := align_next_null M k _ _ _ c hnull hreg hc hrv
    rw [h1, h2]
    exact ⟨rfl, rfl⟩
  · rw [if_pos hrv] at hret
    cases hm : fn.make M T c.rv len { w with stack := ⟨c.ptr, c.space⟩ } with
    | terminate f =>
      rw [hm] at hret
      cases hret
    | ret r =>
      rw [hm] at hret
      cases hret
      exact absurd ((make_ret M fn T _ _ _ r hm).1.symm.trans hz) hrv

/-- C2: for every power-of-two alignment and every region of real memory
(non-null cursor, one-past-the-end address representable), `align_next`
returns, and it returns `nullptr` exactly when `remaining < size` or
`remaining - size < o`; in both cases `ptr` and `space` are unchanged.
Consequently a `make_new`, `make_new_for_overwrite` or `make_alloc` call that
returns a null handle leaves the view (and the rest of the world) unchanged. -/
theorem failed_carve_does_not_mutate (M : Machine) (k size cursor remaining : Nat)
    (hnull : cursor ≠ 0) (hreg : cursor + remaining < M.wordMod) :
    (∃ c, align_next M (2 ^ k) size cursor remaining = Outcome.ret c ∧
      (c.rv = 0 ↔ (remaining < size ∨ remaining - size < align_offset M (2 ^ k) cursor)) ∧
      (c.rv = 0 → c.ptr = cursor ∧ c.space = remaining)) ∧
    (∀ (T : ElemType) (len : Nat) (w w1 : World) (b : manually_managed_dynamic_buffer),
      w.stack = ⟨cursor, remaining⟩ →
      (make_new M T len (2 ^ k) w = Outcome.ret (b, w1) ∨
       make_new_for_overwrite M T len (2 ^ k) w = Outcome.ret (b, w1) ∨
       make_alloc M T len (2 ^ k) w = Outcome.ret (b, w1)) →
      b.data = 0 →
      w1.stack.m_data = cursor ∧ w1.stack.remaining_bytes = remaining ∧ w1 = w) := by
  constructor
  · obtain ⟨c, hc⟩ := align_next_returns M k size cursor remaining (by omega)
    refine ⟨c, hc, ⟨fun hz => ?_, fun hf => ?_⟩, fun hz => ?_⟩
    · exact (align_next_null M k size cursor remaining c (Or.inl hnull) hreg hc hz).2.2 hnull
    · rw [align_next_pow2 M k size cursor remaining (by omega), if_pos hf] at hc
      cases hc
      rfl
    · obtain ⟨h1, h2, _⟩ :=
        align_next_null M k size cursor remaining c (Or.inl hnull) hreg hc hz
      exact ⟨h1, h2⟩
  · intro T len w w1 b hw hcall hz
    have hnull2 : w.stack.m_data ≠ 0 ∨ w.stack.m_rem_bytes = 0 := by
      rw [hw]; exact Or.inl hnull
    have hreg2 : w.stack.m_data + w.stack.m_rem_bytes < M.wordMod := by
      rw [hw]; exact hreg
    have key : w1 = w := by
      rcases hcall with h | h | h
      · exact (ctor_null_unchanged M T len k _ w w1 b hnull2 hreg2 h hz).1
      · exact (ctor_null_unchanged M T len k _ w w1 b hnull2 hreg2 h hz).1
      · exact (ctor_null_unchanged M T len k _ w w1 b hnull2 hreg2 h hz).1
    subst key
    rw [hw]
    exact ⟨rfl, rfl, rfl⟩

theorem failed_carve_does_not_mutate_witness :
    (∃ c, align_next lp64 (2 ^ 2) 120000 1007 4089 = Outcome.ret c ∧
      (c.rv = 0 ↔ (4089 < 120000 ∨ 4089 - 120000 < align_offset lp64 (2 ^ 2) 1007)) ∧
      (c.rv = 0 → c.ptr = 1007 ∧ c.space = 4089)) ∧
    (make_new lp64 int 30000 (2 ^ 2) ⟨⟨1007, 4089⟩, 7, []⟩
        = Outcome.ret (⟨int, 1007, 0, 0⟩, ⟨⟨1007, 4089⟩, 7, []⟩) ∧
      (⟨⟨1007, 4089⟩, 7, []⟩ : World).stack.m_data = 1007 ∧
      (⟨⟨1007, 4089⟩, 7, []⟩ : World).stack.remaining_bytes = 4089 ∧
      (⟨⟨1007, 4089⟩, 7, []⟩ : World) = ⟨⟨1007, 4089⟩, 7, []⟩) :=
  ⟨(failed_carve_does_not_mutate lp64 2 120000 1007 4089 (by decide) (by decide)).1,
   by decide,
   (failed_carve_does_not_mutate lp64 2 120000 1007 4089 (by decide) (by decide)).2 int 30000
     ⟨⟨1007, 4089⟩, 7, []⟩ ⟨⟨1007, 4089⟩, 7, []⟩ ⟨int, 1007, 0, 0⟩ rfl (Or.inl (by decide))
     (by decide)⟩

/-- C3: for every power-of-two alignment the offset `o` computed by
`align_next` is the smallest `o ≥ 0` with `cursor + o` a multiple of the
alignment, so `o < alignment`; on success `align_next` returns `cursor + o`,
sets the cursor to `cursor + (o + size)` (as an address, and exactly so when
the region does not wrap around the address space) and lowers the remaining
space by exactly `o + size`. -/
theorem minimal_padding (M : Machine) (k size cursor remaining : Nat)
    (hk : k < M.ptrBits) (hcur : cursor < M.wordMod) (hrem : remaining < M.wordMod) :
    (2 ^ k ∣ cursor + align_offset M (2 ^ k) cursor ∧
      (∀ o, 2 ^ k ∣ cursor + o → align_offset M (2 ^ k) cursor ≤ o) ∧
      align_offset M (2 ^ k) cursor < 2 ^ k) ∧
    (∀ c, align_next M (2 ^ k) size cursor remaining = Outcome.ret c → c.rv ≠ 0 →
      c.rv = cursor + align_offset M (2 ^ k) cursor ∧
      c.ptr = (cursor + (align_offset M (2 ^ k) cursor + size)) % M.wordMod ∧
      (cursor + remaining < M.wordMod →
        c.ptr = cursor + (align_offset M (2 ^ k) cursor + size)) ∧
      align_offset M (2 ^ k) cursor + size ≤ remaining ∧
      c.space = remaining - (align_offset M (2 ^ k) cursor + size)) := by
  obtain ⟨hlt, hdvd, _, hmin⟩ := align_offset_spec M k cursor hk hcur
  refine ⟨⟨hdvd, hmin, hlt⟩, ?_⟩
  intro c hret hok
  obtain ⟨hle, hrv, hptr, hsp⟩ :=
    align_next_success M k size cursor remaining c hk hcur hrem hret hok
  rw [Nat.add_assoc] at hptr
  refine ⟨hrv, hptr, fun hreg => ?_, hle, hsp⟩
  rw [hptr]
  exact Nat.mod_eq_of_lt (by omega)

theorem minimal_padding_witness :
    (2 ^ 2 ∣ 1007 + align_offset lp64 (2 ^ 2) 1007 ∧
      (∀ o, 2 ^ 2 ∣ 1007 + o → align_offset lp64 (2 ^ 2) 1007 ≤ o) ∧
      align_offset lp64 (2 ^ 2) 1007 < 2 ^ 2) ∧
    (align_next lp64 (2 ^ 2) 1200 1007 4089 = Outcome.ret ⟨1008, 2208, 2888⟩ ∧
      1008 = 1007 + align_offset lp64 (2 ^ 2) 1007 ∧
      2208 = (1007 + (align_offset lp64 (2 ^ 2) 1007 + 1200)) % lp64.wordMod ∧
      (1007 + 4089 < lp64.wordMod →
        2208 = 1007 + (align_offset lp64 (2 ^ 2) 1007 + 1200)) ∧
      align_offset lp64 (2 ^ 2) 1007 + 1200 ≤ 4089 ∧
      2888 = 4089 - (align_offset lp64 (2 ^ 2) 1007 + 1200)) :=
  ⟨(minimal_padding lp64 2 1200 1007 4089 (by decide) (by decide) (by decide)).1,
   by decide,
   (minimal_padding lp64 2 1200 1007 4089 (by decide) (by decide) (by decide)).2
     ⟨1008, 2208, 2888⟩ (by decide) (by decide)⟩

/-- C4 (failing input): on a 64-bit target, in a view with 4096 bytes left,
a request for `2^62 + 1` elements of `int` needs far more than 4096 bytes, but
`len * sizeof(int)` wraps to 4 in `size_t`, so the carve is asked for 4 bytes
and succeeds.  `make_alloc` returns a handle with non-null `data()` and
`size() == 2^62 + 1`, and `remaining_bytes()` drops to 4092; `make_new` and
`make_new_for_overwrite` do not return: after the carve the array
new-expression fails on the overflowing size.  No entry point reports the
null, empty handle over an unchanged view. -/
theorem oversized_request_is_not_refused :
    4096 < (2 ^ 62 + 1) * int.size ∧
    make_alloc lp64 int (2 ^ 62 + 1) int.align ⟨⟨1000, 4096⟩, 0, []⟩
      = Outcome.ret (⟨int, 1000, 1000, 2 ^ 62 + 1⟩, ⟨⟨1004, 4092⟩, 0, []⟩) ∧
    make_new lp64 int (2 ^ 62 + 1) int.align ⟨⟨1000, 4096⟩, 0, []⟩
      = Outcome.terminate Fatal.bad_array_new_length ∧
    make_new_for_overwrite lp64 int (2 ^ 62 + 1) int.align ⟨⟨1000, 4096⟩, 0, []⟩
      = Outcome.terminate Fatal.bad_array_new_length ∧
    make_alloc lp64 int (2 ^ 62 + 1) int.align ⟨⟨1000, 4096⟩, 0, []⟩
      ≠ Outcome.ret (⟨int, 1000, 0, 0⟩, ⟨⟨1000, 4096⟩, 0, []⟩) ∧
    make_new lp64 int (2 ^ 62 + 1) int.align ⟨⟨1000, 4096⟩, 0, []⟩
      ≠ Outcome.ret (⟨int, 1000, 0, 0⟩, ⟨⟨1000, 4096⟩, 0, []⟩) ∧
    make_new_for_overwrite lp64 int (2 ^ 62 + 1) int.align ⟨⟨1000, 4096⟩, 0, []⟩
      ≠ Outcome.ret (⟨int, 1000, 0, 0⟩, ⟨⟨1000, 4096⟩, 0, []⟩) := by
  decide

/-- Companion of C4: when `len * sizeof(T)` does not wrap in `size_t`, a
request whose bytes plus padding exceed `remaining_bytes()` is refused by all
three entry points with a null, empty handle and an unchanged world. -/
theorem capacity_exhaustion_without_wrap (M : Machine) (k : Nat) (T : ElemType) (len : Nat)
    (fn : InitFn) (w : World)
    (hw : w.stack.m_rem_bytes < M.wordMod)
    (hnowrap : len * T.size < M.wordMod)
    (hbig : w.stack.m_rem_bytes < len * T.size + align_offset M (2 ^ k) w.stack.m_data) :
    manually_managed_dynamic_buffer.ctor M T len (2 ^ k) fn w
      = Outcome.ret (⟨T, w.stack.m_data, 0, 0⟩, w) := by
  unfold manually_managed_dynamic_buffer.ctor
  rw [Nat.mod_eq_of_lt hnowrap, align_next_pow2 M k _ _ _ hw, if_pos (by omega)]
  simp

theorem capacity_exhaustion_without_wrap_witness :
    manually_managed_dynamic_buffer.ctor lp64 int 30000 (2 ^ 2) InitFn.zero_init_fn
        ⟨⟨1007, 4089⟩, 7, []⟩
      = Outcome.ret (⟨int, 1007, 0, 0⟩, ⟨⟨1007, 4089⟩, 7, []⟩) :=
  capacity_exhaustion_without_wrap lp64 2 int 30000 InitFn.zero_init_fn ⟨⟨1007, 4089⟩, 7, []⟩
    (by decide) (by decide) (by decide)

/-! ## Release -/

/-- The destructor loop lowers the counter by the number of elements of a
counting type, leaves it alone otherwise, and logs the indices in ascending
order. -/
theorem destruct_loop_spec (T : ElemType) (n : Nat) (w : World) :
    destruct_loop T n w =
      { w with
        n_instances := if T.counting then w.n_instances - (n : Int) else w.n_instances
        dtor_log := w.dtor_log ++ List.range n } := by
  unfold destruct_loop
  induction n with
  | zero => cases hT : T.counting <;> simp
  | succ n ih =>
    rw [List.range_succ, List.foldl_append, ih]
    cases hT : T.counting
    · simp [destruct_at, hT, List.range_succ]
    · simp [destruct_at, hT, List.range_succ]
      omega

/-- Closed form of `~dynamic_buffer()`. -/
theorem dtor_eq (M : Machine) (b : dynamic_buffer) (w : World) :
    dynamic_buffer.dtor M b w =
      if b.m_len = 0 then Outcome.ret w
      else if w.stack.m_data ≠ b.top M then Outcome.terminate Fatal.lifo_check
      else
        Outcome.ret
          ⟨⟨b.m_old_pos,
            (w.stack.m_rem_bytes + (w.stack.m_data + M.wordMod - b.m_old_pos) % M.wordMod)
              % M.wordMod⟩,
           if b.T.counting then w.n_instances - (b.m_len : Int) else w.n_instances,
           w.dtor_log ++ List.range b.m_len⟩ := by
  unfold dynamic_buffer.dtor
  by_cases h0 : b.m_len = 0
  · simp [h0]
  · by_cases h1 : w.stack.m_data = b.top M
    · simp [h0, h1, destruct_loop_spec]
    · simp [h0, h1]

/-- What the constructor of a handle does, in terms of the carve. -/
theorem ctor_cases (M : Machine) (T : ElemType) (len k : Nat) (fn : InitFn) (w : World)
    (hs : w.stack.m_rem_bytes < M.wordMod) :
    ∃ c, align_next M (2 ^ k) ((len * T.size) % M.wordMod) w.stack.m_data w.stack.m_rem_bytes
        = Outcome.ret c ∧
      manually_managed_dynamic_buffer.ctor M T len (2 ^ k) fn w =
        if c.rv = 0 then
          Outcome.ret (⟨T, w.stack.m_data, 0, 0⟩, { w with stack := ⟨c.ptr, c.space⟩ })
        else if fn ≠ InitFn.no_init_fn ∧ M.wordMod ≤ len * T.size then
          Outcome.terminate Fatal.bad_array_new_length
        else
          Outcome.ret (⟨T, w.stack.m_data, c.rv, len⟩,
            if fn = InitFn.no_init_fn then { w with stack := ⟨c.ptr, c.space⟩ }
            else construct_array T len { w with stack := ⟨c.ptr, c.space⟩ }) := by
  obtain ⟨c, hc⟩ := align_next_returns M k ((len * T.size) % M.wordMod) w.stack.m_data
    w.stack.m_rem_bytes hs
  refine ⟨c, hc, ?_⟩
  unfold manually_managed_dynamic_buffer.ctor
  rw [hc]
  by_cases hrv : c.rv = 0
  · simp [hrv]
  · simp only [ne_eq, hrv, not_false_eq_true, if_true, if_false, make_eq]
    by_cases hov : fn ≠ InitFn.no_init_fn ∧ M.wordMod ≤ len * T.size
    · rw [if_pos hov, if_pos hov]
    · rw [if_neg hov, if_neg hov]

/-- The array new-expressions leave the view and the destructor log alone. -/
theorem make_frame (fn : InitFn) (T : ElemType) (len : Nat) (w : World) :
    (if fn = InitFn.no_init_fn then w else construct_array T len w).stack = w.stack ∧
    (if fn = InitFn.no_init_fn then w else construct_array T len w).dtor_log = w.dtor_log := by
  cases fn <;> cases hT : T.counting <;> simp [construct_array, hT]

/-- A constructor call that returned: either the carve failed and the handle
is null and empty, or the carve succeeded, the array size did not overflow
(unless nothing is constructed) and the elements were constructed. -/
theorem ctor_ret (M : Machine) (T : ElemType) (len k : Nat) (fn : InitFn) (w w1 : World)
    (b : manually_managed_dynamic_buffer)
    (hs : w.stack.m_rem_bytes < M.wordMod)
    (hret : manually_managed_dynamic_buffer.ctor M T len (2 ^ k) fn w = Outcome.ret (b, w1)) :
    ∃ c, align_next M (2 ^ k) ((len * T.size) % M.wordMod) w.stack.m_data w.stack.m_rem_bytes
        = Outcome.ret c ∧
      ((c.rv = 0 ∧ b = ⟨T, w.stack.m_data, 0, 0⟩ ∧ w1 = { w with stack := ⟨c.ptr, c.space⟩ }) ∨
       (c.rv ≠ 0 ∧ b = ⟨T, w.stack.m_data, c.rv, len⟩ ∧
         w1 = (if fn = InitFn.no_init_fn then { w with stack := ⟨c.ptr, c.space⟩ }
               else construct_array T len { w with stack := ⟨c.ptr, c.space⟩ }) ∧
         (fn ≠ InitFn.no_init_fn → len * T.size < M.wordMod))) := by
  obtain ⟨c, hc, hctor⟩ := ctor_cases M T len k fn w hs
  refine ⟨c, hc, ?_⟩
  rw [hctor] at hret
  by_cases hrv : c.rv = 0
  · rw [if_pos hrv] at hret
    cases hret
    exact Or.inl ⟨hrv, rfl, rfl⟩
  · rw [if_neg hrv] at hret
    by_cases hov : fn ≠ InitFn.no_init_fn ∧ M.wordMod ≤ len * T.size
    · rw [if_pos hov] at hret
      cases hret
    · rw [if_neg hov] at hret
      cases hret
      refine Or.inr ⟨hrv, rfl, rfl, fun hne => ?_⟩
      by_contra hlt
      exact hov ⟨hne, by omega⟩

/-- A successful constructor call with a power-of-two alignment: the handle
and the view it leaves. -/
theorem ctor_success (M : Machine) (T : ElemType) (len k : Nat) (fn : InitFn) (w w1 : World)
    (b : manually_managed_dynamic_buffer)
    (hk : k < M.ptrBits) (hcur : w.stack.m_data < M.wordMod)
    (hrem : w.stack.m_rem_bytes < M.wordMod)
    (hret : manually_managed_dynamic_buffer.ctor M T len (2 ^ k) fn w = Outcome.ret (b, w1))
    (hok : b.m_data ≠ 0) :
    align_offset M (2 ^ k) w.stack.m_data + (len * T.size) % M.wordMod ≤ w.stack.m_rem_bytes ∧
    b = ⟨T, w.stack.m_data, w.stack.m_data + align_offset M (2 ^ k) w.stack.m_data, len⟩ ∧
    w1.stack =
      ⟨(w.stack.m_data + align_offset M (2 ^ k) w.stack.m_data + (len * T.size) % M.wordMod)
          % M.wordMod,
       w.stack.m_rem_bytes
         - (align_offset M (2 ^ k) w.stack.m_data + (len * T.size) % M.wordMod)⟩ ∧
    w1.dtor_log = w.dtor_log := by
  obtain ⟨c, hc, hcase⟩ := ctor_ret M T len k fn w w1 b hrem hret
  rcases hcase with ⟨_, hb, _⟩ | ⟨hrv, hb, hw1, _⟩
  · subst hb
    exact absurd rfl hok
  · subst hb hw1
    obtain ⟨hle, h1, h2, h3⟩ := align_next_success M k _ _ _ c hk hcur hrem hc hrv
    obtain ⟨hf1, hf2⟩ := make_frame fn T len { w with stack := ⟨c.ptr, c.space⟩ }
    refine ⟨hle, ?_, ?_, ?_⟩
    · rw [h1]
    · rw [hf1, h2, h3]
    · rw [hf2]

/-- The top address of a freshly built handle is the cursor its constructor
left in the view. -/
theorem ctor_top (M : Machine) (T : ElemType) (len k : Nat) (fn : InitFn) (w w1 : World)
    (b : manually_managed_dynamic_buffer)
    (hk : k < M.ptrBits) (hcur : w.stack.m_data < M.wordMod)
    (hrem : w.stack.m_rem_bytes < M.wordMod)
    (hret : manually_managed_dynamic_buffer.ctor M T len (2 ^ k) fn w = Outcome.ret (b, w1))
    (hok : b.m_data ≠ 0) :
    b.top M = w1.stack.m_data := by
  obtain ⟨_, hb, hst, _⟩ := ctor_success M T len k fn w w1 b hk hcur hrem hret hok
  rw [hst, hb]
  simp [manually_managed_dynamic_buffer.top, Nat.add_mod]

/-- Releasing a non-empty handle in the very state its constructor produced
returns and restores the view that preceded the allocation. -/
theorem dtor_after_ctor (M : Machine) (T : ElemType) (len k : Nat) (fn : InitFn)
    (w w1 w1' : World) (b : manually_managed_dynamic_buffer)
    (hk : k < M.ptrBits) (hcur : w.stack.m_data < M.wordMod)
    (hrem : w.stack.m_rem_bytes < M.wordMod)
    (hret : manually_managed_dynamic_buffer.ctor M T len (2 ^ k) fn w = Outcome.ret (b, w1))
    (hok : b.m_data ≠ 0) (hlen : b.m_len ≠ 0) (hsame : w1'.stack = w1.stack) :
    dynamic_buffer.dtor M b w1' =
      Outcome.ret
        ⟨w.stack,
         if b.T.counting then w1'.n_instances - (b.m_len : Int) else w1'.n_instances,
         w1'.dtor_log ++ List.range b.m_len⟩ := by
  rcases w with ⟨⟨p, r⟩, n0, l0⟩
  have htop := ctor_top M T len k fn _ w1 b hk hcur hrem hret hok
  obtain ⟨hle, hb, hst, _⟩ := ctor_success M T len k fn _ w1 b hk hcur hrem hret hok
  obtain ⟨holt, _, hole, _⟩ := align_offset_spec M k p hk hcur
  simp only at hle hb hst hcur hrem hole
  rw [dtor_eq, if_neg hlen, hsame, if_neg (by rw [htop]; exact fun h => h rfl)]
  have hold : b.m_old_pos = p := by rw [hb]
  rw [hold, hst]
  simp only
  generalize align_offset M (2 ^ k) p = o at *
  generalize len * T.size % M.wordMod = sz at *
  have hP := wordMod_pos M
  generalize M.wordMod = P at *
  have hdiff : ((p + o + sz) % P + P - p) % P = o + sz := by
    rcases Nat.lt_or_ge (p + o + sz) P with h | h
    · rw [Nat.mod_eq_of_lt h]
      have e : p + o + sz + P - p = o + sz + P := by omega
      have e2 : o + sz < P := by omega
      rw [e, Nat.add_mod_right, Nat.mod_eq_of_lt e2]
    · have e0 : p + o + sz - P < P := by omega
      have e : p + o + sz - P + P - p = o + sz := by omega
      have e2 : o + sz < P := by omega
      rw [Nat.mod_eq_sub_mod h, Nat.mod_eq_of_lt e0, e, Nat.mod_eq_of_lt e2]
  have e3 : r - (o + sz) + (o + sz) = r := by omega
  rw [hdiff, e3, Nat.mod_eq_of_lt hrem]

/-- C7: releasing a scoped handle with `length != 0` terminates if and only
if the view's cursor differs from `data + length` (in elements of `T`); the
second check of the destructor never fires; otherwise the release sets
`cursor = prior_cursor` and `remaining += cursor - prior_cursor` (in `size_t`
arithmetic, which is the exact sum whenever it does not wrap); and releasing
the handle in the state its allocation produced restores the view that
preceded the allocation, padding included. -/
theorem release_protocol (M : Machine) (b : dynamic_buffer) (hlen : b.m_len ≠ 0) :
    (∀ w, (∃ f, dynamic_buffer.dtor M b w = Outcome.terminate f) ↔
      w.stack.m_data ≠ (b.m_data + b.m_len * b.T.size) % M.wordMod) ∧
    (∀ w, dynamic_buffer.dtor M b w ≠ Outcome.terminate Fatal.safety_check) ∧
    (∀ w, w.stack.m_data = (b.m_data + b.m_len * b.T.size) % M.wordMod →
      ∃ w1, dynamic_buffer.dtor M b w = Outcome.ret w1 ∧
        w1.stack.m_data = b.m_old_pos ∧
        w1.stack.m_rem_bytes =
          (w.stack.m_rem_bytes + (w.stack.m_data + M.wordMod - b.m_old_pos) % M.wordMod)
            % M.wordMod ∧
        (b.m_old_pos ≤ w.stack.m_data →
          w.stack.m_rem_bytes + (w.stack.m_data - b.m_old_pos) < M.wordMod →
          w1.stack.m_rem_bytes = w.stack.m_rem_bytes + (w.stack.m_data - b.m_old_pos))) ∧
    (∀ (k : Nat) (T : ElemType) (len : Nat) (w0 w1 : World),
      k < M.ptrBits → w0.stack.m_data < M.wordMod → w0.stack.m_rem_bytes < M.wordMod →
      (make_new M T len (2 ^ k) w0 = Outcome.ret (b, w1) ∨
        make_new_for_overwrite M T len (2 ^ k) w0 = Outcome.ret (b, w1)) →
      b.m_data ≠ 0 →
      ∃ w2, dynamic_buffer.dtor M b w1 = Outcome.ret w2 ∧ w2.stack = w0.stack) := by
  refine ⟨fun w => ?_, fun w => ?_, fun w htop => ?_, ?_⟩
  · rw [dtor_eq, if_neg hlen]
    by_cases h : w.stack.m_data = b.top M
    · rw [if_neg (fun hne => hne h)]
      constructor
      · rintro ⟨f, hf⟩
        cases hf
      · intro hne
        exact absurd h hne
    · rw [if_pos h]
      exact ⟨fun _ => h, fun _ => ⟨_, rfl⟩⟩
  · rw [dtor_eq, if_neg hlen]
    by_cases h : w.stack.m_data = b.top M
    · rw [if_neg (fun hne => hne h)]
      intro hc
      cases hc
    · rw [if_pos h]
      intro hc
      cases hc
  · have htop2 : ¬ w.stack.m_data ≠ b.top M := fun hne => hne htop
    rw [dtor_eq, if_neg hlen, if_neg htop2]
    refine ⟨_, rfl, rfl, rfl, fun hle hlt => ?_⟩
    simp only
    have e : w.stack.m_data + M.wordMod - b.m_old_pos
        = (w.stack.m_data - b.m_old_pos) + M.wordMod := by omega
    have e1 : w.stack.m_data - b.m_old_pos < M.wordMod := by omega
    rw [e, Nat.add_mod_right, Nat.mod_eq_of_lt e1, Nat.mod_eq_of_lt hlt]
  · intro k T len w0 w1 hk hcur hrem hcall hok
    rcases hcall with h | h
    · exact ⟨_, dtor_after_ctor M T len k _ w0 w1 w1 b hk hcur hrem h hok hlen rfl, rfl⟩
    · exact ⟨_, dtor_after_ctor M T len k _ w0 w1 w1 b hk hcur hrem h hok hlen rfl, rfl⟩

theorem release_protocol_witness :
    ∃ w2, dynamic_buffer.dtor lp64 ⟨int, 1007, 1008, 300⟩ ⟨⟨2208, 2888⟩, 7, []⟩
        = Outcome.ret w2 ∧
      w2.stack = (⟨⟨1007, 4089⟩, 7, []⟩ : World).stack :=
  (release_protocol lp64 ⟨int, 1007, 1008, 300⟩ (by decide)).2.2.2 2 int 300
    ⟨⟨1007, 4089⟩, 7, []⟩ ⟨⟨2208, 2888⟩, 7, []⟩ (by decide) (by decide) (by decide)
    (Or.inl (by decide)) (by decide)

/-- C9 (as stated, refuted): releasing a live buffer of two elements runs the
destructors on index 0 and then on index 1, not on 1 and then 0. -/
theorem release_destructs_first_to_last :
    dynamic_buffer.dtor lp64 ⟨S, 1000, 1000, 2⟩ ⟨⟨1002, 4094⟩, 2, []⟩
      = Outcome.ret ⟨⟨1000, 4096⟩, 0, [0, 1]⟩ ∧
    ¬ (∀ w1, dynamic_buffer.dtor lp64 ⟨S, 1000, 1000, 2⟩ ⟨⟨1002, 4094⟩, 2, []⟩
        = Outcome.ret w1 → w1.dtor_log = (List.range 2).reverse) := by
  refine ⟨by decide, fun h => ?_⟩
  have h1 := h ⟨⟨1000, 4096⟩, 0, [0, 1]⟩ (by decide)
  exact absurd h1 (by decide)

/-- C9 (amended): releasing a live scoped buffer of length `n` that is on top
of the stack runs the destructor of its elements from the first index to the
last: the calls are on indices `0, 1, ..., n-1`, each index exactly once. -/
theorem release_destruct_order (M : Machine) (b : dynamic_buffer) (w : World)
    (htop : b.m_len ≠ 0 → w.stack.m_data = b.top M) :
    ∃ w1, dynamic_buffer.dtor M b w = Outcome.ret w1 ∧
      w1.dtor_log = w.dtor_log ++ List.range b.m_len ∧
      (List.range b.m_len).Nodup ∧
      (∀ i, i ∈ List.range b.m_len ↔ i < b.m_len) ∧
      (List.range b.m_len).Sorted (· < ·) := by
  have hrest : (List.range b.m_len).Nodup ∧ (∀ i, i ∈ List.range b.m_len ↔ i < b.m_len) ∧
      (List.range b.m_len).Sorted (· < ·) :=
    ⟨List.nodup_range _, fun i => List.mem_range, List.sorted_lt_range _⟩
  rw [dtor_eq]
  by_cases h0 : b.m_len = 0
  · rw [if_pos h0]
    refine ⟨w, rfl, ?_, hrest⟩
    rw [h0]; simp
  · have h1 : ¬ w.stack.m_data ≠ b.top M := fun hne => hne (htop h0)
    rw [if_neg h0, if_neg h1]
    exact ⟨_, rfl, rfl, hrest⟩

theorem release_destruct_order_witness :
    ∃ w1, dynamic_buffer.dtor lp64 ⟨S, 1000, 1000, 3⟩ ⟨⟨1003, 4093⟩, 3, [7]⟩ = Outcome.ret w1 ∧
      w1.dtor_log = [7] ++ List.range 3 ∧
      (List.range 3).Nodup ∧
      (∀ i, i ∈ List.range 3 ↔ i < 3) ∧
      (List.range 3).Sorted (· < ·) :=
  release_destruct_order lp64 ⟨S, 1000, 1000, 3⟩ ⟨⟨1003, 4093⟩, 3, [7]⟩ (fun _ => by decide)

/-- A value that passes the alignment test of `align_next` is a power of two. -/
theorem passes_check_pow2 (a : Nat) (h : ¬ (a = 0 ∨ (a &&& (a - 1)) ≠ 0)) :
    ∃ k, a = 2 ^ k := by
  have ha : a ≠ 0 := fun h0 => h (Or.inl h0)
  have hand : a &&& (a - 1) = 0 := by
    by_contra hne
    exact h (Or.inr hne)
  refine ⟨Nat.log 2 a, ?_⟩
  by_contra hne
  have hle : 2 ^ Nat.log 2 a ≤ a := Nat.pow_log_le_self 2 ha
  have hlt : a < 2 ^ (Nat.log 2 a + 1) := Nat.lt_pow_succ_log_self (by decide) a
  generalize Nat.log 2 a = k at *
  have hbit : ∀ x, 2 ^ k ≤ x → x < 2 ^ (k + 1) → x.testBit k = true := by
    intro x h1 h2
    rw [Nat.testBit_to_div_mod]
    have : x / 2 ^ k = 1 := by
      apply Nat.div_eq_of_lt_le
      · simpa using h1
      · rw [Nat.pow_succ] at h2; omega
    simp [this]
  have h1 := hbit a hle hlt
  have h2 := hbit (a - 1) (by omega) (by omega)
  have h3 : (a &&& (a - 1)).testBit k = true := by
    rw [Nat.testBit_and, h1, h2]; rfl
  rw [hand] at h3
  simp at h3

/-- A constructor call that returns, in a region that does not wrap around
the address space: it took `d` bytes from the front of the free space, and the
handle, when not null, spans the end of those bytes. -/
theorem ctor_in_region (M : Machine) (T : ElemType) (len a : Nat) (fn : InitFn)
    (w w1 : World) (b : manually_managed_dynamic_buffer)
    (ha : a < M.wordMod) (hreg : w.stack.m_data + w.stack.m_rem_bytes < M.wordMod)
    (hret : manually_managed_dynamic_buffer.ctor M T len a fn w = Outcome.ret (b, w1)) :
    ∃ d, d ≤ w.stack.m_rem_bytes ∧
      w1.stack = ⟨w.stack.m_data + d, w.stack.m_rem_bytes - d⟩ ∧
      b.m_old_pos = w.stack.m_data ∧ b.T = T ∧
      (b.m_data = 0 → b.m_len = 0) ∧
      (b.m_data ≠ 0 → w.stack.m_data ≤ b.m_data ∧
        b.m_data + (b.m_len * b.T.size) % M.wordMod = w.stack.m_data + d ∧
        b.top M = w.stack.m_data + d) := by
  by_cases hchk : a = 0 ∨ (a &&& (a - 1)) ≠ 0
  · exfalso
    unfold manually_managed_dynamic_buffer.ctor align_next at hret
    rw [if_pos hchk] at hret
    cases hret
  · obtain ⟨k, rfl⟩ := passes_check_pow2 a hchk
    have hk : k < M.ptrBits := (Nat.pow_lt_pow_iff_right (by decide : 1 < 2)).mp ha
    rcases w with ⟨⟨p, r⟩, n0, l0⟩
    simp only at hreg ⊢
    obtain ⟨c, hc, hctor⟩ := ctor_cases M T len k fn ⟨⟨p, r⟩, n0, l0⟩ (by simp only; omega)
    simp only at hc hctor
    rw [hctor] at hret
    rw [align_next_pow2 M k _ p r (by omega)] at hc
    obtain ⟨holt, _, _, _⟩ := align_offset_spec M k p hk (by omega)
    generalize align_offset M (2 ^ k) p = o at *
    generalize hsz : len * T.size % M.wordMod = sz at *
    by_cases hf : r < sz ∨ r - sz < o
    · rw [if_pos hf] at hc
      cases hc
      rw [if_pos rfl] at hret
      cases hret
      exact ⟨0, Nat.zero_le _, rfl, rfl, rfl, fun _ => rfl, fun h => absurd rfl h⟩
    · rw [if_neg hf] at hc
      cases hc
      have e1 : (p + o) % M.wordMod = p + o := Nat.mod_eq_of_lt (by omega)
      have e2 : (p + o + sz) % M.wordMod = p + o + sz := Nat.mod_eq_of_lt (by omega)
      simp only [e1, e2] at hret
      by_cases hrv : p + o = 0
      · rw [if_pos hrv] at hret
        cases hret
        refine ⟨o + sz, by omega, ?_, rfl, rfl, fun _ => rfl, fun h => absurd rfl h⟩
        rw [Nat.add_assoc]
      · rw [if_neg hrv] at hret
        by_cases hov : fn ≠ InitFn.no_init_fn ∧ M.wordMod ≤ len * T.size
        · rw [if_pos hov] at hret
          cases hret
        rw [if_neg hov] at hret
        cases hret
        obtain ⟨hf1, _⟩ := make_frame fn T len
          ⟨⟨p + o + sz, r - (o + sz)⟩, n0, l0⟩
        refine ⟨o + sz, by omega, ?_, rfl, rfl, fun h => absurd h hrv, fun _ => ?_⟩
        · rw [hf1, Nat.add_assoc]
        · refine ⟨Nat.le_add_right p o, ?_, ?_⟩
          · simp only [hsz]
            exact Nat.add_assoc p o sz
          · simp only [manually_managed_dynamic_buffer.top]
            rw [Nat.add_mod, Nat.mod_eq_of_lt (by omega : p + o < M.wordMod), hsz,
              Nat.mod_eq_of_lt (by omega : p + o + sz < M.wordMod)]
            omega

/-! ## Facts about every reachable state -/

theorem list_set_same {α : Type} : ∀ (l : List α) (i : Nat) (a : α),
    l[i]? = some a → l.set i a = l
  | [], _, _, h => by simp at h
  | x :: xs, 0, a, h => by
    simp at h
    simp [h]
  | x :: xs, i + 1, a, h => by
    simp at h
    simp [list_set_same xs i a h]

theorem list_split_at {α : Type} : ∀ (l : List α) (i : Nat) (a : α),
    l[i]? = some a → ∃ l1 l2, l = l1 ++ a :: l2 ∧ l.eraseIdx i = l1 ++ l2 ∧ l1.length = i
  | [], _, _, h => by simp at h
  | x :: xs, 0, a, h => by
    simp at h
    exact ⟨[], xs, by simp [h], by simp, rfl⟩
  | x :: xs, i + 1, a, h => by
    simp at h
    obtain ⟨l1, l2, h1, h2, h3⟩ := list_split_at xs i a h
    exact ⟨x :: l1, l2, by simp [h1], by simp [h2], by simp [h3]⟩

/-- Inside the region the top address of a non-null handle is computed
without wrapping. -/
theorem top_eq_of_span (M : Machine) (b : manually_managed_dynamic_buffer)
    (h : b.m_data + (b.m_len * b.T.size) % M.wordMod < M.wordMod) :
    b.top M = b.m_data + (b.m_len * b.T.size) % M.wordMod := by
  unfold manually_managed_dynamic_buffer.top
  have e : b.m_data % M.wordMod = b.m_data := Nat.mod_eq_of_lt (by omega)
  rw [Nat.add_mod, e, Nat.mod_eq_of_lt h]

theorem inv_init (M : Machine) (base n_bytes : Nat) :
    Sys.Inv M base n_bytes (Sys.init base n_bytes) :=
  ⟨rfl, Nat.le_refl _, by simp [Sys.init], by simp [Sys.init], by simp [Sys.init],
    by simp [Sys.init]⟩

theorem inv_push (M : Machine) (base n_bytes : Nat) (s : Sys) (T : ElemType) (len a : Nat)
    (fn : InitFn) (m : Bool) (b : manually_managed_dynamic_buffer) (w1 : World)
    (hreg : base + n_bytes < M.wordMod) (ha : a < M.wordMod) (hinv : Sys.Inv M base n_bytes s)
    (hret : manually_managed_dynamic_buffer.ctor M T len a fn s.world = Outcome.ret (b, w1)) :
    Sys.Inv M base n_bytes ⟨w1, ⟨m, b⟩ :: s.handles⟩ := by
  obtain ⟨hsum, hbase, hnull, hspan, hbelow, hord⟩ := hinv
  obtain ⟨d, hd, hst, hold, _, hbnull, hbspan⟩ :=
    ctor_in_region M T len a fn s.world w1 b ha (by omega) hret
  refine ⟨?_, ?_, ?_, ?_, ?_, ?_⟩
  · simp only [hst]; omega
  · simp only [hst]; omega
  · intro h hh
    rcases List.mem_cons.mp hh with rfl | hh
    · exact hbnull
    · exact hnull h hh
  · intro h hh hne
    rcases List.mem_cons.mp hh with rfl | hh
    · obtain ⟨h1, h2, _⟩ := hbspan hne
      simp only
      omega
    · exact hspan h hh hne
  · intro h hh hc
    simp only [hst]
    rcases List.mem_cons.mp hh with rfl | hh
    · obtain ⟨_, _, h3⟩ := hbspan hc.1
      simp only
      omega
    · have := hbelow h hh hc
      omega
  · refine List.pairwise_cons.mpr ⟨fun older ho hc _ => ?_, hord⟩
    have := hbelow older ho hc
    simp only [hold]
    exact this

/-- Dropping a handle object without touching the world keeps the facts. -/
theorem inv_drop (M : Machine) (base n_bytes : Nat) (s : Sys) (i : Nat)
    (hinv : Sys.Inv M base n_bytes s) :
    Sys.Inv M base n_bytes ⟨s.world, s.handles.eraseIdx i⟩ := by
  obtain ⟨hsum, hbase, hnull, hspan, hbelow, hord⟩ := hinv
  exact ⟨hsum, hbase, fun h hh => hnull h (List.mem_of_mem_eraseIdx hh),
    fun h hh => hspan h (List.mem_of_mem_eraseIdx hh),
    fun h hh => hbelow h (List.mem_of_mem_eraseIdx hh),
    hord.sublist (List.eraseIdx_sublist _ _)⟩

/-- A release that returns keeps the facts. -/
theorem inv_release (M : Machine) (base n_bytes : Nat) (s : Sys) (i : Nat) (h : Handle)
    (w1 : World) (hreg : base + n_bytes < M.wordMod) (hinv : Sys.Inv M base n_bytes s)
    (hget : s.handles[i]? = some h)
    (hret : dynamic_buffer.dtor M h.buf s.world = Outcome.ret w1) :
    Sys.Inv M base n_bytes ⟨w1, s.handles.eraseIdx i⟩ := by
  rw [dtor_eq] at hret
  by_cases hlen : h.buf.m_len = 0
  · rw [if_pos hlen] at hret
    cases hret
    exact inv_drop M base n_bytes s i hinv
  · rw [if_neg hlen] at hret
    by_cases htop : s.world.stack.m_data = h.buf.top M
    · rw [if_neg (fun hne => hne htop)] at hret
      cases hret
      obtain ⟨hsum, hbase, hnull, hspan, hbelow, hord⟩ := hinv
      have hmem : h ∈ s.handles := List.getElem?_mem hget
      have hdata : h.buf.m_data ≠ 0 := fun h0 => hlen (hnull h hmem h0)
      obtain ⟨hs1, hs2, hs3⟩ := hspan h hmem hdata
      have htopeq := top_eq_of_span M h.buf (by omega)
      have hrem : (s.world.stack.m_rem_bytes
          + (s.world.stack.m_data + M.wordMod - h.buf.m_old_pos) % M.wordMod) % M.wordMod
          = s.world.stack.m_rem_bytes + (s.world.stack.m_data - h.buf.m_old_pos) := by
        have e : s.world.stack.m_data + M.wordMod - h.buf.m_old_pos
            = (s.world.stack.m_data - h.buf.m_old_pos) + M.wordMod := by omega
        have e1 : s.world.stack.m_data - h.buf.m_old_pos < M.wordMod := by omega
        have e2 : s.world.stack.m_rem_bytes + (s.world.stack.m_data - h.buf.m_old_pos)
            < M.wordMod := by omega
        rw [e, Nat.add_mod_right, Nat.mod_eq_of_lt e1, Nat.mod_eq_of_lt e2]
      obtain ⟨l1, l2, hsplit, herase, _⟩ := list_split_at s.handles i h hget
      rw [hsplit] at hord
      obtain ⟨_, hp2, hcross⟩ := List.pairwise_append.mp hord
      obtain ⟨hhead, _⟩ := List.pairwise_cons.mp hp2
      refine ⟨?_, ?_, fun g hg => hnull g (List.mem_of_mem_eraseIdx hg),
        fun g hg => hspan g (List.mem_of_mem_eraseIdx hg), ?_,
        hord.sublist ?_⟩
      · simp only [hrem]; omega
      · exact hs1
      · intro g hg hc
        simp only
        have hgmem : g ∈ s.handles := List.mem_of_mem_eraseIdx hg
        rw [herase] at hg
        rcases List.mem_append.mp hg with hg1 | hg2
        · have hcur := hbelow g hgmem hc
          have hR := hcross g hg1 h (List.mem_cons_self _ _)
          by_cases hch : h.buf.consumed M
          · have := hR hch hc.1
            have := hc.2
            omega
          · have : ¬ (h.buf.m_old_pos < h.buf.top M) := fun hlt => hch ⟨hdata, hlt⟩
            omega
        · exact hhead g hg2 hc hdata
      · rw [← hsplit]
        exact List.eraseIdx_sublist _ _
    · rw [if_pos htop] at hret
      cases hret

/-- A move keeps the facts. -/
theorem inv_move (M : Machine) (base n_bytes : Nat) (s : Sys) (i : Nat) (h : Handle)
    (hinv : Sys.Inv M base n_bytes s) (hget : s.handles[i]? = some h) :
    Sys.Inv M base n_bytes
      ⟨s.world,
       ⟨h.managed, (manually_managed_dynamic_buffer.move_ctor h.buf).2⟩ ::
         s.handles.set i ⟨h.managed, (manually_managed_dynamic_buffer.move_ctor h.buf).1⟩⟩ := by
  have hdest : (⟨h.managed, (manually_managed_dynamic_buffer.move_ctor h.buf).1⟩ : Handle) = h :=
    rfl
  rw [hdest, list_set_same s.handles i h hget]
  obtain ⟨hsum, hbase, hnull, hspan, hbelow, hord⟩ := hinv
  refine ⟨hsum, hbase, ?_, ?_, ?_, ?_⟩
  · intro g hg
    rcases List.mem_cons.mp hg with rfl | hg
    · intro _; rfl
    · exact hnull g hg
  · intro g hg
    rcases List.mem_cons.mp hg with rfl | hg
    · intro hne; exact absurd rfl hne
    · exact hspan g hg
  · intro g hg
    rcases List.mem_cons.mp hg with rfl | hg
    · intro hc; exact absurd rfl hc.1
    · exact hbelow g hg
  · exact List.pairwise_cons.mpr ⟨fun older _ _ hne => absurd rfl hne, hord⟩

theorem inv_step (M : Machine) (base n_bytes : Nat) (s s1 : Sys) (op : Op)
    (hreg : base + n_bytes < M.wordMod) (hop : op.words M) (hinv : Sys.Inv M base n_bytes s)
    (hstep : s.step M op = Outcome.ret s1) : Sys.Inv M base n_bytes s1 := by
  cases op with
  | make_new T len align =>
    simp only [Sys.step, Sys.push, make_new] at hstep
    split at hstep
    · cases hstep
    · next b w heq =>
      cases hstep
      exact inv_push M base n_bytes s T len align _ true b w hreg hop.2 hinv heq
  | make_new_for_overwrite T len align =>
    simp only [Sys.step, Sys.push, make_new_for_overwrite] at hstep
    split at hstep
    · cases hstep
    · next b w heq =>
      cases hstep
      exact inv_push M base n_bytes s T len align _ true b w hreg hop.2 hinv heq
  | make_alloc T len align =>
    simp only [Sys.step, Sys.push, make_alloc] at hstep
    split at hstep
    · cases hstep
    · next b w heq =>
      cases hstep
      exact inv_push M base n_bytes s T len align _ false b w hreg hop.2 hinv heq
  | end_of_scope i =>
    simp only [Sys.step] at hstep
    split at hstep
    · cases hstep
      exact hinv
    · next h hget =>
      by_cases hm : h.managed = true
      · rw [if_pos hm] at hstep
        split at hstep
        · cases hstep
        · next w heq =>
          cases hstep
          exact inv_release M base n_bytes s i h w hreg hinv hget heq
      · rw [if_neg hm] at hstep
        simp only [manually_managed_dynamic_buffer.dtor] at hstep
        cases hstep
        exact inv_drop M base n_bytes s i hinv
  | move i =>
    simp only [Sys.step] at hstep
    split at hstep
    · cases hstep
      exact hinv
    · next h hget =>
      cases hstep
      exact inv_move M base n_bytes s i h hinv hget

theorem inv_run (M : Machine) (base n_bytes : Nat) (hreg : base + n_bytes < M.wordMod) :
    ∀ (ops : List Op) (s s1 : Sys), (∀ op ∈ ops, op.words M) → Sys.Inv M base n_bytes s →
      Sys.run M ops s = Outcome.ret s1 → Sys.Inv M base n_bytes s1
  | [], s, s1, _, hinv, hrun => by
    simp only [Sys.run] at hrun
    cases hrun
    exact hinv
  | op :: ops, s, s1, hops, hinv, hrun => by
    simp only [Sys.run] at hrun
    split at hrun
    · cases hrun
    · next s2 heq =>
      exact inv_run M base n_bytes hreg ops s2 s1
        (fun o ho => hops o (List.mem_cons_of_mem _ ho))
        (inv_step M base n_bytes s s2 op hreg (hops op (List.mem_cons_self _ _)) hinv heq) hrun

/-- C6: for a view constructed over `(base, n_bytes)`, a region that does not
wrap around the address space, `cursor + remaining == base + n_bytes` holds
initially and in every state reached by any sequence of the operations:
successful and failed allocations through the three entry points, releases of
scoped handles that do not terminate, ends of scope of manually-managed
handles, and handle moves.  The cursor never falls below `base`. -/
theorem region_invariant (M : Machine) (base n_bytes : Nat) (ops : List Op) (s : Sys)
    (hreg : base + n_bytes < M.wordMod) (hops : ∀ op ∈ ops, op.words M)
    (hrun : Sys.run M ops (Sys.init base n_bytes) = Outcome.ret s) :
    (Sys.init base n_bytes).world.stack.m_data
        + (Sys.init base n_bytes).world.stack.remaining_bytes = base + n_bytes ∧
    s.world.stack.m_data + s.world.stack.remaining_bytes = base + n_bytes ∧
    base ≤ s.world.stack.m_data := by
  have hinv := inv_run M base n_bytes hreg ops _ s hops (inv_init M base n_bytes) hrun
  exact ⟨rfl, hinv.sum_eq, hinv.base_le⟩

theorem region_invariant_witness :
    (Sys.init 1000 4096).world.stack.m_data
        + (Sys.init 1000 4096).world.stack.remaining_bytes = 1000 + 4096 ∧
    (1012 : Nat) + (4084 : Nat) = 1000 + 4096 ∧ 1000 ≤ 1012 :=
  region_invariant lp64 1000 4096
    [Op.make_new S 3 1, Op.make_new int 30000 4, Op.make_alloc int 2 4,
      Op.make_new_for_overwrite S 2 1, Op.move 0, Op.end_of_scope 0, Op.end_of_scope 0,
      Op.end_of_scope 0]
    ⟨⟨⟨1012, 4084⟩, 3, [0, 1]⟩, [⟨true, ⟨int, 1003, 0, 0⟩⟩, ⟨true, ⟨S, 1000, 1000, 3⟩⟩]⟩
    (by decide) (by decide) (by decide)

/-- C8 (as stated, refuted): `A = make_new<S>(3)` and then `B = make_new<S>(0)`
both succeed (`B` has non-null data and takes no byte); releasing `A` while `B`
is still alive does not terminate: the three elements are destructed and the
view is rewound to `A`'s prior cursor, below `B`'s data. -/
theorem release_under_empty_handle_accepted :
    Sys.run lp64 [Op.make_new S 3 1, Op.make_new S 0 1] (Sys.init 1000 4096)
      = Outcome.ret
          ⟨⟨⟨1003, 4093⟩, 3, []⟩, [⟨true, ⟨S, 1003, 1003, 0⟩⟩, ⟨true, ⟨S, 1000, 1000, 3⟩⟩]⟩ ∧
    Sys.run lp64 [Op.make_new S 3 1, Op.make_new S 0 1, Op.end_of_scope 1] (Sys.init 1000 4096)
      = Outcome.ret ⟨⟨⟨1000, 4096⟩, 0, [0, 1, 2]⟩, [⟨true, ⟨S, 1003, 1003, 0⟩⟩]⟩ := by
  decide

/-- C8 (amended): in every state reached from a view over a region that does
not wrap around the address space, if a scoped handle `A` with `length != 0`
and a handle `B` created after it are both alive, and each of them took at
least one byte of the region (padding included), then releasing `A`
terminates the program at the first check of the destructor. -/
theorem lifo_violation_terminates (M : Machine) (base n_bytes : Nat) (ops : List Op) (s : Sys)
    (i j : Nat) (A B : Handle)
    (hreg : base + n_bytes < M.wordMod) (hops : ∀ op ∈ ops, op.words M)
    (hrun : Sys.run M ops (Sys.init base n_bytes) = Outcome.ret s)
    (hB : s.handles[i]? = some B) (hA : s.handles[j]? = some A) (hij : i < j)
    (hmanaged : A.managed = true) (hlen : A.buf.m_len ≠ 0)
    (hAbytes : A.buf.consumed M) (hBbytes : B.buf.consumed M) :
    dynamic_buffer.dtor M A.buf s.world = Outcome.terminate Fatal.lifo_check ∧
    s.step M (Op.end_of_scope j) = Outcome.terminate Fatal.lifo_check := by
  have hinv := inv_run M base n_bytes hreg ops _ s hops (inv_init M base n_bytes) hrun
  obtain ⟨hi, hBi⟩ := List.getElem?_eq_some.mp hB
  obtain ⟨hj, hAj⟩ := List.getElem?_eq_some.mp hA
  have hR := List.pairwise_iff_getElem.mp hinv.ordered i j hi hj hij
  rw [hBi, hAj] at hR
  have h1 := hR hAbytes hBbytes.1
  have h2 := hinv.below_cursor B (List.getElem?_mem hB) hBbytes
  have h3 := hBbytes.2
  have hne : s.world.stack.m_data ≠ A.buf.top M := by omega
  have hd : dynamic_buffer.dtor M A.buf s.world = Outcome.terminate Fatal.lifo_check := by
    rw [dtor_eq, if_neg hlen, if_pos hne]
  refine ⟨hd, ?_⟩
  simp only [Sys.step, hA, hmanaged, if_true, hd]

theorem lifo_violation_terminates_witness :
    dynamic_buffer.dtor lp64 ⟨S, 1000, 1000, 3⟩ ⟨⟨1007, 4089⟩, 7, [0, 1]⟩
      = Outcome.terminate Fatal.lifo_check ∧
    Sys.step lp64
        ⟨⟨⟨1007, 4089⟩, 7, [0, 1]⟩, [⟨true, ⟨S, 1003, 1003, 4⟩⟩, ⟨true, ⟨S, 1000, 1000, 3⟩⟩]⟩
        (Op.end_of_scope 1)
      = Outcome.terminate Fatal.lifo_check :=
  lifo_violation_terminates lp64 1000 4096
    [Op.make_new S 3 1, Op.make_new S 4 1, Op.make_new int 2 4, Op.end_of_scope 0]
    ⟨⟨⟨1007, 4089⟩, 7, [0, 1]⟩, [⟨true, ⟨S, 1003, 1003, 4⟩⟩, ⟨true, ⟨S, 1000, 1000, 3⟩⟩]⟩
    0 1 ⟨true, ⟨S, 1000, 1000, 3⟩⟩ ⟨true, ⟨S, 1003, 1003, 4⟩⟩
    (by decide) (by decide) (by decide) (by decide) (by decide) (by decide) (by decide)
    (by decide) (by decide) (by decide)

/-! ## Nested scopes -/

theorem release_all_append (M : Machine) : ∀ (xs ys : List dynamic_buffer) (w : World),
    release_all M (xs ++ ys) w =
      match release_all M xs w with
      | Outcome.terminate f => Outcome.terminate f
      | Outcome.ret w1 => release_all M ys w1
  | [], ys, w => by simp [release_all]
  | x :: xs, ys, w => by
    simp only [List.cons_append, release_all]
    cases dynamic_buffer.dtor M x w with
    | terminate f => rfl
    | ret w1 => exact release_all_append M xs ys w1

theorem alloc_all_append (M : Machine) : ∀ (xs ys : List Request) (w w1 : World)
    (bs : List dynamic_buffer), alloc_all M (xs ++ ys) w = Outcome.ret (bs, w1) →
    ∃ b1 wa b2, alloc_all M xs w = Outcome.ret (b1, wa) ∧
      alloc_all M ys wa = Outcome.ret (b2, w1) ∧ bs = b1 ++ b2 ∧ b1.length = xs.length
  | [], ys, w, w1, bs, h => ⟨[], w, bs, rfl, h, rfl, rfl⟩
  | x :: xs, ys, w, w1, bs, h => by
    have h : alloc_all M (x :: (xs ++ ys)) w = Outcome.ret (bs, w1) := h
    simp only [alloc_all] at h ⊢
    cases hx : x.call M w with
    | terminate f => rw [hx] at h; cases h
    | ret p =>
      obtain ⟨b, wa⟩ := p
      rw [hx] at h
      simp only at h ⊢
      cases hr : alloc_all M (xs ++ ys) wa with
      | terminate f => rw [hr] at h; cases h
      | ret q =>
        obtain ⟨bs', w2⟩ := q
        rw [hr] at h
        cases h
        obtain ⟨b1, wb, b2, h1, h2, h3, h4⟩ := alloc_all_append M xs ys wa w1 bs' hr
        rw [h1]
        exact ⟨b :: b1, wb, b2, rfl, h2, by rw [h3]; rfl, by simp [h4]⟩

/-- A successful scoped allocation call: the handle, the view and the value of
the instance counter it leaves. -/
theorem call_success (M : Machine) (r : Request) (k : Nat) (w w1 : World) (b : dynamic_buffer)
    (hk : k < M.ptrBits) (ha : r.align = 2 ^ k) (hw : w.words M)
    (hret : r.call M w = Outcome.ret (b, w1)) (hok : b.m_data ≠ 0) :
    align_offset M (2 ^ k) w.stack.m_data + (r.len * r.T.size) % M.wordMod
      ≤ w.stack.m_rem_bytes ∧
    b = ⟨r.T, w.stack.m_data, w.stack.m_data + align_offset M (2 ^ k) w.stack.m_data, r.len⟩ ∧
    w1.stack =
      ⟨(w.stack.m_data + align_offset M (2 ^ k) w.stack.m_data
          + (r.len * r.T.size) % M.wordMod) % M.wordMod,
       w.stack.m_rem_bytes
         - (align_offset M (2 ^ k) w.stack.m_data + (r.len * r.T.size) % M.wordMod)⟩ ∧
    w1.n_instances = (if r.T.counting then w.n_instances + (r.len : Int) else w.n_instances) ∧
    w1.dtor_log = w.dtor_log ∧
    w1.words M ∧
    ∃ fn, manually_managed_dynamic_buffer.ctor M r.T r.len (2 ^ k) fn w = Outcome.ret (b, w1) := by
  have hctor : ∃ fn, (fn = InitFn.zero_init_fn ∨ fn = InitFn.default_init_fn) ∧
      manually_managed_dynamic_buffer.ctor M r.T r.len (2 ^ k) fn w = Outcome.ret (b, w1) := by
    unfold Request.call at hret
    rw [ha] at hret
    by_cases hfo : r.for_overwrite = true
    · rw [if_pos hfo] at hret
      exact ⟨_, Or.inr rfl, hret⟩
    · rw [if_neg hfo] at hret
      exact ⟨_, Or.inl rfl, hret⟩
  obtain ⟨fn, hfn, hc⟩ := hctor
  obtain ⟨h1, h2, h3, h4⟩ := ctor_success M r.T r.len k fn w w1 b hk hw.1 hw.2 hc hok
  refine ⟨h1, h2, h3, ?_, h4, ?_, fn, hc⟩
  · obtain ⟨c, hcv, hcase⟩ := ctor_ret M r.T r.len k fn w w1 b hw.2 hc
    rcases hcase with ⟨_, hb, _⟩ | ⟨hrv, hb, hw1, _⟩
    · subst hb
      exact absurd rfl hok
    · subst hw1
      rcases hfn with rfl | rfl <;>
        cases hT : r.T.counting <;> simp [construct_array, hT]
  · rw [World.words, h3]
    exact ⟨Nat.mod_lt _ (wordMod_pos M), lt_of_le_of_lt (Nat.sub_le _ _) hw.2⟩

/-- Handles acquired by successful calls and released in reverse order: when
every zero-length handle took no padding, no release terminates and the view
and the instance counter return to their values before the first call. -/
theorem nest_round_trip (M : Machine) : ∀ (reqs : List Request) (w w1 : World)
    (bs : List dynamic_buffer), w.words M →
    (∀ r ∈ reqs, ∃ k, k < M.ptrBits ∧ r.align = 2 ^ k) →
    alloc_all M reqs w = Outcome.ret (bs, w1) →
    (∀ b ∈ bs, b.m_data ≠ 0) →
    (∀ b ∈ bs, b.m_len = 0 → b.m_data = b.m_old_pos) →
    ∃ w2, release_all M bs.reverse w1 = Outcome.ret w2 ∧ w2.stack = w.stack ∧
      w2.n_instances = w.n_instances
  | [], w, w1, bs, _, _, halloc, _, _ => by
    simp only [alloc_all] at halloc
    cases halloc
    exact ⟨w, rfl, rfl, rfl⟩
  | r :: rs, w, w1, bs, hw, hal, halloc, hok, hsafe => by
    simp only [alloc_all] at halloc
    cases hx : r.call M w with
    | terminate f => rw [hx] at halloc; cases halloc
    | ret p =>
      obtain ⟨b, wa⟩ := p
      rw [hx] at halloc
      simp only at halloc
      cases hr : alloc_all M rs wa with
      | terminate f => rw [hr] at halloc; cases halloc
      | ret q =>
        obtain ⟨bs', w2⟩ := q
        rw [hr] at halloc
        cases halloc
        obtain ⟨k, hk, ha⟩ := hal r (List.mem_cons_self _ _)
        have hbok : b.m_data ≠ 0 := hok b (List.mem_cons_self _ _)
        obtain ⟨hle, hb, hst, hn, _, hwa, fn, hc⟩ := call_success M r k w wa b hk ha hw hx hbok
        obtain ⟨w3, hrel, hst3, hn3⟩ := nest_round_trip M rs wa w1 bs' hwa
          (fun q hq => hal q (List.mem_cons_of_mem _ hq)) hr
          (fun c hc => hok c (List.mem_cons_of_mem _ hc))
          (fun c hc => hsafe c (List.mem_cons_of_mem _ hc))
        rw [List.reverse_cons, release_all_append, hrel]
        simp only [release_all]
        by_cases hlen : b.m_len = 0
        · rw [dtor_eq, if_pos hlen]
          refine ⟨w3, rfl, ?_, ?_⟩
          · have hpad := hsafe b (List.mem_cons_self _ _) hlen
            rw [hb] at hpad hlen
            simp only at hpad hlen
            have ho : align_offset M (2 ^ k) w.stack.m_data = 0 := by omega
            rw [hst3, hst, ho, hlen]
            simp only [Nat.zero_mul, Nat.zero_mod, Nat.add_zero, Nat.sub_zero,
              Nat.mod_eq_of_lt hw.1]
          · rw [hn3, hn]
            rw [hb] at hlen
            simp only at hlen
            rw [hlen]
            cases r.T.counting <;> simp
        · rw [dtor_after_ctor M r.T r.len k fn w wa w3 b hk hw.1 hw.2 hc hbok hlen hst3]
          refine ⟨_, rfl, rfl, ?_⟩
          simp only
          rw [hn3, hn, hb]
          simp only
          cases r.T.counting <;> simp

/-- C5 (failing input): a successful zero-length allocation that needs
padding is not undone by its release.  In a view with cursor 1001 and 10 bytes
left, `make_new<int>(0)` succeeds and leaves 7 bytes, and releasing the handle
leaves 7 bytes, not 10.  Nested under `make_new<S>(3)` in a 4096-byte region at
address 1000, the reverse-order release of the two handles terminates the
program at the outer handle. -/
theorem zero_length_padding_not_returned :
    alloc_all lp64 [⟨int, 0, 4, false⟩] ⟨⟨1001, 10⟩, 0, []⟩
      = Outcome.ret ([⟨int, 1001, 1004, 0⟩], ⟨⟨1004, 7⟩, 0, []⟩) ∧
    release_all lp64 [⟨int, 1001, 1004, 0⟩].reverse ⟨⟨1004, 7⟩, 0, []⟩
      = Outcome.ret ⟨⟨1004, 7⟩, 0, []⟩ ∧
    alloc_all lp64 [⟨S, 3, 1, false⟩, ⟨int, 0, 4, false⟩] ⟨⟨1000, 4096⟩, 0, []⟩
      = Outcome.ret ([⟨S, 1000, 1000, 3⟩, ⟨int, 1003, 1004, 0⟩], ⟨⟨1004, 4092⟩, 3, []⟩) ∧
    release_all lp64 [⟨S, 1000, 1000, 3⟩, ⟨int, 1003, 1004, 0⟩].reverse ⟨⟨1004, 4092⟩, 3, []⟩
      = Outcome.terminate Fatal.lifo_check := by
  decide

/-- Companion of C5: for every view state and every sequence of successful
scoped allocations (any element sizes, valid alignments and lengths) in which
no zero-length allocation took padding, followed by the releases of the
returned handles in exact reverse order, no release terminates and
`remaining_bytes()` and the cursor end at their values before the first
allocation. -/
theorem round_trip_space_accounting (M : Machine) (reqs : List Request) (w w1 : World)
    (bs : List dynamic_buffer) (hw : w.words M)
    (hal : ∀ r ∈ reqs, ∃ k, k < M.ptrBits ∧ r.align = 2 ^ k)
    (halloc : alloc_all M reqs w = Outcome.ret (bs, w1))
    (hok : ∀ b ∈ bs, b.data ≠ 0)
    (hsafe : ∀ b ∈ bs, b.size = 0 → b.data = b.m_old_pos) :
    ∃ w2, release_all M bs.reverse w1 = Outcome.ret w2 ∧
      w2.stack.remaining_bytes = w.stack.remaining_bytes ∧
      w2.stack.m_data = w.stack.m_data := by
  obtain ⟨w2, h1, h2, _⟩ := nest_round_trip M reqs w w1 bs hw hal halloc hok hsafe
  exact ⟨w2, h1, by rw [h2], by rw [h2]⟩

theorem round_trip_space_accounting_witness :
    ∃ w2, release_all lp64
        [⟨S, 1000, 1000, 3⟩, ⟨S, 1003, 1003, 0⟩, ⟨int, 1003, 1004, 2⟩].reverse
        ⟨⟨1012, 4084⟩, 3, []⟩ = Outcome.ret w2 ∧
      w2.stack.remaining_bytes = (⟨⟨1000, 4096⟩, 0, []⟩ : World).stack.remaining_bytes ∧
      w2.stack.m_data = (⟨⟨1000, 4096⟩, 0, []⟩ : World).stack.m_data :=
  round_trip_space_accounting lp64
    [⟨S, 3, 1, false⟩, ⟨S, 0, 1, true⟩, ⟨int, 2, 4, true⟩] ⟨⟨1000, 4096⟩, 0, []⟩
    ⟨⟨1012, 4084⟩, 3, []⟩ [⟨S, 1000, 1000, 3⟩, ⟨S, 1003, 1003, 0⟩, ⟨int, 1003, 1004, 2⟩]
    (by decide)
    (by
      intro r hr
      simp only [List.mem_cons, List.mem_singleton, List.not_mem_nil, or_false] at hr
      rcases hr with rfl | rfl | rfl
      · exact ⟨0, by decide, rfl⟩
      · exact ⟨0, by decide, rfl⟩
      · exact ⟨2, by decide, rfl⟩)
    (by decide) (by decide) (by decide)

/-! ## Buffers of one element type at its natural alignment -/

theorem aligned_offset_zero (M : Machine) (k p : Nat) (hk : k < M.ptrBits)
    (hp : p < M.wordMod) (hal : 2 ^ k ∣ p) : align_offset M (2 ^ k) p = 0 := by
  have h := (align_offset_spec M k p hk hp).2.2.2 0 (by simpa using hal)
  omega

theorem pow2_dvd_wordMod (M : Machine) (k : Nat) (hk : k < M.ptrBits) : 2 ^ k ∣ M.wordMod :=
  pow_dvd_pow 2 (Nat.le_of_lt hk)

/-- After a successful allocation of `T` at its natural alignment the cursor
is a multiple of that alignment. -/
theorem call_aligned (M : Machine) (T : ElemType) (k : Nat) (r : Request) (w w1 : World)
    (b : dynamic_buffer) (hk : k < M.ptrBits) (halign : T.align = 2 ^ k)
    (hsize : T.align ∣ T.size) (hrT : r.T = T) (hra : r.align = T.align) (hw : w.words M)
    (hret : r.call M w = Outcome.ret (b, w1)) (hok : b.m_data ≠ 0) :
    2 ^ k ∣ w1.stack.m_data := by
  obtain ⟨_, _, hst, _⟩ := call_success M r k w w1 b hk (by rw [hra, halign]) hw hret hok
  obtain ⟨_, hdvd, _, _⟩ := align_offset_spec M k w.stack.m_data hk hw.1
  have hP := pow2_dvd_wordMod M k hk
  rw [hst]
  simp only
  rw [hrT]
  have hsz : 2 ^ k ∣ (r.len * T.size) % M.wordMod := by
    rw [Nat.dvd_mod_iff hP]
    rw [halign] at hsize
    exact Dvd.dvd.mul_left hsize _
  rw [Nat.dvd_mod_iff hP]
  exact Nat.dvd_add hdvd hsz

/-- From an aligned cursor, successful allocations of `T` at its natural
alignment take no padding. -/
theorem aligned_alloc_all_no_padding (M : Machine) (T : ElemType) (k : Nat)
    (hk : k < M.ptrBits) (halign : T.align = 2 ^ k) (hsize : T.align ∣ T.size) :
    ∀ (reqs : List Request) (w w1 : World) (bs : List dynamic_buffer), w.words M →
      2 ^ k ∣ w.stack.m_data → (∀ q ∈ reqs, q.T = T ∧ q.align = T.align) →
      alloc_all M reqs w = Outcome.ret (bs, w1) → (∀ b ∈ bs, b.m_data ≠ 0) →
      ∀ b ∈ bs, b.m_data = b.m_old_pos
  | [], w, w1, bs, _, _, _, halloc, _ => by
    simp only [alloc_all] at halloc
    cases halloc
    intro b hb
    cases hb
  | r :: rs, w, w1, bs, hw, hal, hreq, halloc, hok => by
    simp only [alloc_all] at halloc
    cases hx : r.call M w with
    | terminate f => rw [hx] at halloc; cases halloc
    | ret p =>
      obtain ⟨b, wa⟩ := p
      rw [hx] at halloc
      simp only at halloc
      cases hr : alloc_all M rs wa with
      | terminate f => rw [hr] at halloc; cases halloc
      | ret q =>
        obtain ⟨bs', w2⟩ := q
        rw [hr] at halloc
        cases halloc
        obtain ⟨hrT, hra⟩ := hreq r (List.mem_cons_self _ _)
        have hbok : b.m_data ≠ 0 := hok b (List.mem_cons_self _ _)
        obtain ⟨_, hb, _, _, _, hwa, _⟩ :=
          call_success M r k w wa b hk (by rw [hra, halign]) hw hx hbok
        have hwal := call_aligned M T k r w wa b hk halign hsize hrT hra hw hx hbok
        have ih := aligned_alloc_all_no_padding M T k hk halign hsize rs wa w1 bs' hwa hwal
          (fun q hq => hreq q (List.mem_cons_of_mem _ hq)) hr
          (fun c hc => hok c (List.mem_cons_of_mem _ hc))
        intro c hc
        rcases List.mem_cons.mp hc with rfl | hc
        · rw [hb]
          simp only
          rw [aligned_offset_zero M k _ hk hw.1 hal, Nat.add_zero]
        · exact ih c hc

/-- Counter after a sequence of successful allocations of a counting type. -/
theorem alloc_all_count (M : Machine) (T : ElemType) (k : Nat)
    (hcount : T.counting = true) (hk : k < M.ptrBits) (halign : T.align = 2 ^ k) :
    ∀ (reqs : List Request) (w w1 : World) (bs : List dynamic_buffer), w.words M →
      (∀ q ∈ reqs, q.T = T ∧ q.align = T.align) →
      alloc_all M reqs w = Outcome.ret (bs, w1) → (∀ b ∈ bs, b.m_data ≠ 0) →
      w1.n_instances = w.n_instances + ((reqs.map (fun q => q.len)).sum : Nat)
  | [], w, w1, bs, _, _, halloc, _ => by
    simp only [alloc_all] at halloc
    cases halloc
    simp
  | r :: rs, w, w1, bs, hw, hreq, halloc, hok => by
    simp only [alloc_all] at halloc
    cases hx : r.call M w with
    | terminate f => rw [hx] at halloc; cases halloc
    | ret p =>
      obtain ⟨b, wa⟩ := p
      rw [hx] at halloc
      simp only at halloc
      cases hr : alloc_all M rs wa with
      | terminate f => rw [hr] at halloc; cases halloc
      | ret q =>
        obtain ⟨bs', w2⟩ := q
        rw [hr] at halloc
        cases halloc
        obtain ⟨hrT, hra⟩ := hreq r (List.mem_cons_self _ _)
        have hbok : b.m_data ≠ 0 := hok b (List.mem_cons_self _ _)
        obtain ⟨_, _, _, hn, _, hwa, _⟩ :=
          call_success M r k w wa b hk (by rw [hra, halign]) hw hx hbok
        have ih := alloc_all_count M T k hcount hk halign rs wa w1 bs' hwa
          (fun q hq => hreq q (List.mem_cons_of_mem _ hq)) hr
          (fun c hc => hok c (List.mem_cons_of_mem _ hc))
        rw [ih, hn, hrT, hcount]
        simp only [if_true, List.map_cons, List.sum_cons]
        push_cast
        omega

theorem alloc_all_words (M : Machine) : ∀ (reqs : List Request) (w w1 : World)
    (bs : List dynamic_buffer), w.words M →
    (∀ r ∈ reqs, ∃ k, k < M.ptrBits ∧ r.align = 2 ^ k) →
    alloc_all M reqs w = Outcome.ret (bs, w1) → (∀ b ∈ bs, b.m_data ≠ 0) → w1.words M
  | [], w, w1, bs, hw, _, halloc, _ => by
    simp only [alloc_all] at halloc
    cases halloc
    exact hw
  | r :: rs, w, w1, bs, hw, hal, halloc, hok => by
    simp only [alloc_all] at halloc
    cases hx : r.call M w with
    | terminate f => rw [hx] at halloc; cases halloc
    | ret p =>
      obtain ⟨b, wa⟩ := p
      rw [hx] at halloc
      simp only at halloc
      cases hr : alloc_all M rs wa with
      | terminate f => rw [hr] at halloc; cases halloc
      | ret q =>
        obtain ⟨bs', w2⟩ := q
        rw [hr] at halloc
        cases halloc
        obtain ⟨k, hk, ha⟩ := hal r (List.mem_cons_self _ _)
        obtain ⟨_, _, _, _, _, hwa, _⟩ :=
          call_success M r k w wa b hk ha hw hx (hok b (List.mem_cons_self _ _))
        exact alloc_all_words M rs wa w1 bs' hwa
          (fun q hq => hal q (List.mem_cons_of_mem _ hq)) hr
          (fun c hc => hok c (List.mem_cons_of_mem _ hc))

/-- The outermost buffer of a nest of buffers of one counting type: once the
buffers acquired after it are released in reverse order, its own release
returns and lowers the counter by its length, back to the value before its
allocation. -/
theorem nest_head (M : Machine) (T : ElemType) (k : Nat) (hcount : T.counting = true)
    (hk : k < M.ptrBits) (halign : T.align = 2 ^ k) (hsize : T.align ∣ T.size)
    (r : Request) (post : List Request) (w w1 : World) (b : dynamic_buffer)
    (bpost : List dynamic_buffer) (hw : w.words M)
    (hreq : ∀ q ∈ r :: post, q.T = T ∧ q.align = T.align)
    (halloc : alloc_all M (r :: post) w = Outcome.ret (b :: bpost, w1))
    (hok : ∀ c ∈ b :: bpost, c.m_data ≠ 0) :
    ∃ w2 w3, release_all M bpost.reverse w1 = Outcome.ret w2 ∧
      dynamic_buffer.dtor M b w2 = Outcome.ret w3 ∧
      b.m_len = r.len ∧
      w2.n_instances = w.n_instances + (r.len : Int) ∧
      w3.n_instances = w2.n_instances - (r.len : Int) := by
  simp only [alloc_all] at halloc
  cases hx : r.call M w with
  | terminate f => rw [hx] at halloc; cases halloc
  | ret p =>
    obtain ⟨b0, wa⟩ := p
    rw [hx] at halloc
    simp only at halloc
    cases hr : alloc_all M post wa with
    | terminate f => rw [hr] at halloc; cases halloc
    | ret q =>
      obtain ⟨bs', w2⟩ := q
      rw [hr] at halloc
      cases halloc
      obtain ⟨hrT, hra⟩ := hreq r (List.mem_cons_self _ _)
      have hbok : b.m_data ≠ 0 := hok b (List.mem_cons_self _ _)
      have hreqk : ∀ q ∈ post, ∃ j, j < M.ptrBits ∧ q.align = 2 ^ j := fun q hq =>
        ⟨k, hk, by rw [(hreq q (List.mem_cons_of_mem _ hq)).2, halign]⟩
      obtain ⟨_, hb, _, hn, _, hwa, fn, hc⟩ :=
        call_success M r k w wa b hk (by rw [hra, halign]) hw hx hbok
      have hwal := call_aligned M T k r w wa b hk halign hsize hrT hra hw hx hbok
      have hnopad := aligned_alloc_all_no_padding M T k hk halign hsize post wa w1 bpost hwa
        hwal (fun q hq => hreq q (List.mem_cons_of_mem _ hq)) hr
        (fun c hc => hok c (List.mem_cons_of_mem _ hc))
      obtain ⟨w3, hrel, hst3, hn3⟩ := nest_round_trip M post wa w1 bpost hwa hreqk hr
        (fun c hc => hok c (List.mem_cons_of_mem _ hc)) (fun c hc _ => hnopad c hc)
      have hlenb : b.m_len = r.len := by rw [hb]
      have hcnt : b.T.counting = true := by rw [hb]; simp only; rw [hrT]; exact hcount
      have hn2 : w3.n_instances = w.n_instances + (r.len : Int) := by
        rw [hn3, hn, hrT, hcount]; simp
      refine ⟨w3, ?_⟩
      by_cases hlen : b.m_len = 0
      · refine ⟨w3, hrel, ?_, hlenb, hn2, ?_⟩
        · rw [dtor_eq, if_pos hlen]
        · rw [← hlenb, hlen]; simp
      · refine ⟨_, hrel,
          dtor_after_ctor M r.T r.len k fn w wa w3 b hk hw.1 hw.2 hc hbok hlen hst3,
          hlenb, hn2, ?_⟩
        simp only [hcnt, if_true, hlenb]

theorem alloc_all_cons_shape (M : Machine) (r : Request) (rs : List Request) (w w1 : World)
    (bs : List dynamic_buffer) (h : alloc_all M (r :: rs) w = Outcome.ret (bs, w1)) :
    ∃ b bs', bs = b :: bs' := by
  simp only [alloc_all] at h
  cases hx : r.call M w with
  | terminate f => rw [hx] at h; cases h
  | ret p =>
    obtain ⟨b, wa⟩ := p
    rw [hx] at h
    simp only at h
    cases hr : alloc_all M rs wa with
    | terminate f => rw [hr] at h; cases h
    | ret q =>
      obtain ⟨bs', w2⟩ := q
      rw [hr] at h
      cases h
      exact ⟨b, bs', rfl⟩

/-- C10: for an element type `T` that counts live instances (natural
alignment a power of two dividing `sizeof(T)`): a successful `make_new` or
`make_new_for_overwrite` of length `n` raises the live count by exactly `n`
and reports `size() == n`; a failed one constructs and destructs nothing; the
release of a buffer that is on top of the stack returns and lowers the count
by exactly its length; and in a nest of such buffers of any depth, released in
reverse order of acquisition, every buffer is on top when its turn comes:
every release returns and lowers the count by exactly the length of its
buffer, so that the whole nest leaves the count where it started. -/
theorem construction_destruction_balance (M : Machine) (T : ElemType) (k : Nat)
    (hcount : T.counting = true) (hk : k < M.ptrBits) (halign : T.align = 2 ^ k)
    (hsize : T.align ∣ T.size) :
    (∀ (len j : Nat) (w w1 : World) (b : dynamic_buffer), j < M.ptrBits → w.words M →
      (make_new M T len (2 ^ j) w = Outcome.ret (b, w1) ∨
        make_new_for_overwrite M T len (2 ^ j) w = Outcome.ret (b, w1)) →
      (b.data ≠ 0 →
        w1.n_instances = w.n_instances + (len : Int) ∧ b.size = len ∧
        w1.dtor_log = w.dtor_log) ∧
      (b.data = 0 →
        w1.n_instances = w.n_instances ∧ b.size = 0 ∧ w1.dtor_log = w.dtor_log)) ∧
    (∀ (b : dynamic_buffer) (w : World), b.T = T →
      (b.size ≠ 0 → w.stack.m_data = b.top M) →
      ∃ w1, dynamic_buffer.dtor M b w = Outcome.ret w1 ∧
        w1.n_instances = w.n_instances - (b.size : Int)) ∧
    (∀ (pre : List Request) (r : Request) (post : List Request) (w w1 : World)
      (bs : List dynamic_buffer), w.words M →
      (∀ q ∈ pre ++ r :: post, q.T = T ∧ q.align = T.align) →
      alloc_all M (pre ++ r :: post) w = Outcome.ret (bs, w1) →
      (∀ b ∈ bs, b.data ≠ 0) →
      ∃ b w2 w3, bs[pre.length]? = some b ∧ b.size = r.len ∧
        release_all M (bs.drop (pre.length + 1)).reverse w1 = Outcome.ret w2 ∧
        dynamic_buffer.dtor M b w2 = Outcome.ret w3 ∧
        w3.n_instances = w2.n_instances - (r.len : Int)) ∧
    (∀ (reqs : List Request) (w w1 : World) (bs : List dynamic_buffer), w.words M →
      (∀ q ∈ reqs, q.T = T ∧ q.align = T.align) →
      alloc_all M reqs w = Outcome.ret (bs, w1) →
      (∀ b ∈ bs, b.data ≠ 0) →
      w1.n_instances = w.n_instances + ((reqs.map (fun q => q.len)).sum : Nat) ∧
      ∃ w2, release_all M bs.reverse w1 = Outcome.ret w2 ∧
        w2.n_instances = w.n_instances) := by
  have hreqk : ∀ (l : List Request), (∀ q ∈ l, q.T = T ∧ q.align = T.align) →
      ∀ q ∈ l, ∃ j, j < M.ptrBits ∧ q.align = 2 ^ j := fun l hl q hq =>
    ⟨k, hk, by rw [(hl q hq).2, halign]⟩
  refine ⟨?_, ?_, ?_, ?_⟩
  · intro len j w w1 b hj hw hcall
    have hctor : ∃ fn, (fn = InitFn.zero_init_fn ∨ fn = InitFn.default_init_fn) ∧
        manually_managed_dynamic_buffer.ctor M T len (2 ^ j) fn w = Outcome.ret (b, w1) := by
      rcases hcall with h | h
      · exact ⟨_, Or.inl rfl, h⟩
      · exact ⟨_, Or.inr rfl, h⟩
    obtain ⟨fn, hfn, hc⟩ := hctor
    obtain ⟨c, _, hcase⟩ := ctor_ret M T len j fn w w1 b hw.2 hc
    rcases hcase with ⟨_, hb, hw1⟩ | ⟨hrv, hb, hw1, _⟩
    · subst hb hw1
      exact ⟨fun h => absurd rfl h, fun _ => ⟨rfl, rfl, rfl⟩⟩
    · subst hb hw1
      refine ⟨fun _ => ?_, fun h => absurd h hrv⟩
      rcases hfn with rfl | rfl <;>
        simp [construct_array, hcount, manually_managed_dynamic_buffer.size]
  · intro b w hbT htop
    rw [dtor_eq]
    by_cases h0 : b.m_len = 0
    · rw [if_pos h0]
      exact ⟨w, rfl, by simp [manually_managed_dynamic_buffer.size, h0]⟩
    · have h1 : ¬ w.stack.m_data ≠ b.top M := fun hne => hne (htop h0)
      rw [if_neg h0, if_neg h1]
      refine ⟨_, rfl, ?_⟩
      simp [manually_managed_dynamic_buffer.size, hbT, hcount]
  · intro pre r post w w1 bs hw hreq halloc hok
    obtain ⟨b1, wa, b2, h1, h2, h3, h4⟩ := alloc_all_append M pre (r :: post) w w1 bs halloc
    obtain ⟨b, bpost, rfl⟩ := alloc_all_cons_shape M r post wa w1 b2 h2
    subst h3
    have hwa := alloc_all_words M pre w wa b1 hw
      (hreqk pre (fun q hq => hreq q (List.mem_append_left _ hq))) h1
      (fun c hc => hok c (List.mem_append_left _ hc))
    obtain ⟨w2, w3, hrel, hd, hlen, _, hn⟩ := nest_head M T k hcount hk halign hsize r post wa
      w1 b bpost hwa (fun q hq => hreq q (List.mem_append_right _ hq)) h2
      (fun c hc => hok c (List.mem_append_right _ hc))
    refine ⟨b, w2, w3, ?_, hlen, ?_, hd, hn⟩
    · rw [← h4, List.getElem?_append_right (Nat.le_refl _), Nat.sub_self]
      exact List.getElem?_cons_zero
    · rw [← h4]; simpa using hrel
  · intro reqs w w1 bs hw hreq halloc hok
    refine ⟨alloc_all_count M T k hcount hk halign reqs w w1 bs hw hreq halloc hok, ?_⟩
    cases reqs with
    | nil =>
      simp only [alloc_all] at halloc
      cases halloc
      exact ⟨w, rfl, rfl⟩
    | cons r post =>
      obtain ⟨b, bpost, rfl⟩ := alloc_all_cons_shape M r post w w1 bs halloc
      obtain ⟨w2, w3, hrel, hd, _, hn2, hn3⟩ := nest_head M T k hcount hk halign hsize r post w
        w1 b bpost hw hreq halloc hok
      refine ⟨w3, ?_, by rw [hn3, hn2]; omega⟩
      rw [List.reverse_cons, release_all_append, hrel]
      simp only [release_all, hd]

theorem construction_destruction_balance_witness :
    ∃ w2, release_all lp64 [⟨S, 1000, 1000, 3⟩, ⟨S, 1003, 1003, 0⟩, ⟨S, 1003, 1003, 4⟩].reverse
        ⟨⟨1007, 4089⟩, 7, []⟩ = Outcome.ret w2 ∧
      w2.n_instances = (⟨⟨1000, 4096⟩, 0, []⟩ : World).n_instances :=
  ((construction_destruction_balance lp64 S 0 (by decide) (by decide) (by decide)
      (by decide)).2.2.2
    [⟨S, 3, 1, false⟩, ⟨S, 0, 1, true⟩, ⟨S, 4, 1, false⟩] ⟨⟨1000, 4096⟩, 0, []⟩
    ⟨⟨1007, 4089⟩, 7, []⟩ [⟨S, 1000, 1000, 3⟩, ⟨S, 1003, 1003, 0⟩, ⟨S, 1003, 1003, 4⟩]
    (by decide) (by decide) (by decide) (by decide)).2

/-! ## Alignment contract -/

/-- The alignment test is the only way `align_next` terminates, and it comes
first. -/
theorem align_next_terminate_iff (M : Machine) (alignment size ptr space : Nat) :
    (∃ f, align_next M alignment size ptr space = Outcome.terminate f) ↔
      (alignment = 0 ∨ (alignment &&& (alignment - 1)) ≠ 0) := by
  unfold align_next
  by_cases hchk : alignment = 0 ∨ (alignment &&& (alignment - 1)) ≠ 0
  · rw [if_pos hchk]
    exact ⟨fun _ => hchk, fun _ => ⟨_, rfl⟩⟩
  · rw [if_neg hchk]
    refine ⟨fun h => ?_, fun h => absurd h hchk⟩
    obtain ⟨f, hf⟩ := h
    simp only [] at hf
    split_ifs at hf

/-- The alignment test fails exactly on zero and on values that are not a
power of two. -/
theorem check_fails_iff (a : Nat) :
    (a = 0 ∨ (a &&& (a - 1)) ≠ 0) ↔ (a = 0 ∨ ¬ ∃ k, a = 2 ^ k) := by
  constructor
  · intro h
    right
    rintro ⟨k, rfl⟩
    exact pow2_passes_check k h
  · intro h
    by_contra hc
    obtain ⟨k, hk⟩ := passes_check_pow2 a hc
    rcases h with h | h
    · rw [hk] at h
      exact absurd h (Nat.pos_iff_ne_zero.mp (Nat.two_pow_pos k))
    · exact h ⟨k, hk⟩

/-- A handle constructor stops at the alignment test exactly when the
alignment fails it. -/
theorem ctor_bad_alignment_iff (M : Machine) (T : ElemType) (len align : Nat) (fn : InitFn)
    (w : World) :
    manually_managed_dynamic_buffer.ctor M T len align fn w
        = Outcome.terminate Fatal.bad_alignment ↔
      (align = 0 ∨ (align &&& (align - 1)) ≠ 0) := by
  constructor
  · intro h
    by_contra hchk
    unfold manually_managed_dynamic_buffer.ctor at h
    cases hc : align_next M align ((len * T.size) % M.wordMod) w.stack.m_data
        w.stack.m_rem_bytes with
    | terminate f => exact hchk ((align_next_terminate_iff M align _ _ _).mp ⟨f, hc⟩)
    | ret c =>
      rw [hc] at h
      simp only [make_eq] at h
      by_cases hrv : c.rv = 0
      · rw [if_neg (by simpa using hrv)] at h
        cases h
      · rw [if_pos hrv] at h
        by_cases hov : fn ≠ InitFn.no_init_fn ∧ M.wordMod ≤ len * T.size
        · rw [if_pos hov] at h
          cases h
        · rw [if_neg hov] at h
          cases h
  · intro hchk
    unfold manually_managed_dynamic_buffer.ctor align_next
    rw [if_pos hchk]

/-- A handle constructor does not return exactly when the alignment fails
the test, or the carve succeeded and the array new-expression is given a size
that overflows. -/
theorem ctor_terminate_iff (M : Machine) (T : ElemType) (len align : Nat) (fn : InitFn)
    (w : World) :
    (∃ f, manually_managed_dynamic_buffer.ctor M T len align fn w = Outcome.terminate f) ↔
      ((align = 0 ∨ (align &&& (align - 1)) ≠ 0) ∨
       (fn ≠ InitFn.no_init_fn ∧ M.wordMod ≤ len * T.size ∧
         ∃ c, align_next M align ((len * T.size) % M.wordMod) w.stack.m_data
             w.stack.m_rem_bytes = Outcome.ret c ∧ c.rv ≠ 0)) := by
  rw [← align_next_terminate_iff M align ((len * T.size) % M.wordMod) w.stack.m_data
    w.stack.m_rem_bytes]
  unfold manually_managed_dynamic_buffer.ctor
  cases hc : align_next M align ((len * T.size) % M.wordMod) w.stack.m_data
      w.stack.m_rem_bytes with
  | terminate f => exact ⟨fun _ => Or.inl ⟨f, rfl⟩, fun _ => ⟨f, rfl⟩⟩
  | ret c =>
    simp only [make_eq]
    constructor
    · rintro ⟨f, hf⟩
      right
      by_cases hrv : c.rv = 0
      · rw [if_neg (by simpa using hrv)] at hf
        cases hf
      · by_cases hov : fn ≠ InitFn.no_init_fn ∧ M.wordMod ≤ len * T.size
        · exact ⟨hov.1, hov.2, c, rfl, hrv⟩
        · rw [if_pos hrv, if_neg hov] at hf
          cases hf
    · rintro (⟨f, hf⟩ | ⟨hne, hle, c2, hc2, hrv⟩)
      · cases hf
      · cases hc2
        rw [if_pos hrv, if_pos ⟨hne, hle⟩]
        exact ⟨_, rfl⟩

/-- C12 (failing input): on a 64-bit target, in a view with 4096 bytes left,
`make_new<int>(2^62 + 1, 4)` and `make_new_for_overwrite<int>(2^62 + 1, 4)`
are given the power-of-two alignment 4 and still do not return: the wrapped
size 4 passes the carve, and the array new-expression then fails on the
overflowing size.  `make_alloc` with the same arguments returns. -/
theorem valid_alignment_still_fatal :
    (∃ k, int.align = 2 ^ k) ∧
    ¬ (int.align = 0 ∨ ¬ ∃ k, int.align = 2 ^ k) ∧
    make_new lp64 int (2 ^ 62 + 1) int.align ⟨⟨1000, 4096⟩, 0, []⟩
      = Outcome.terminate Fatal.bad_array_new_length ∧
    make_new_for_overwrite lp64 int (2 ^ 62 + 1) int.align ⟨⟨1000, 4096⟩, 0, []⟩
      = Outcome.terminate Fatal.bad_array_new_length ∧
    make_alloc lp64 int (2 ^ 62 + 1) int.align ⟨⟨1000, 4096⟩, 0, []⟩
      = Outcome.ret (⟨int, 1000, 1000, 2 ^ 62 + 1⟩, ⟨⟨1004, 4092⟩, 0, []⟩) := by
  have h2 : ∃ k, int.align = 2 ^ k := ⟨2, rfl⟩
  refine ⟨h2, ?_, by decide, by decide, by decide⟩
  rintro (h | h)
  · exact absurd h (by decide)
  · exact h h2

/-- Companion of C12: what holds of the alignment test.  `align_next`
terminates exactly when the alignment is zero or not a power of two, also
when `remaining < size`, and returns for every power of two; `make_alloc`
terminates exactly then; `make_new` and `make_new_for_overwrite` stop at the
alignment test exactly then, and whenever `len * sizeof(T)` does not overflow
`size_t` that is the only way they fail to return. -/
theorem alignment_test_is_fatal (M : Machine) (alignment : Nat) :
    (∀ size ptr space,
      (∃ f, align_next M alignment size ptr space = Outcome.terminate f) ↔
        (alignment = 0 ∨ ¬ ∃ k, alignment = 2 ^ k)) ∧
    (∀ size ptr space, (alignment = 0 ∨ ¬ ∃ k, alignment = 2 ^ k) → space < size →
      align_next M alignment size ptr space = Outcome.terminate Fatal.bad_alignment) ∧
    (∀ (T : ElemType) (len : Nat) (w : World),
      ((∃ f, make_alloc M T len alignment w = Outcome.terminate f) ↔
        (alignment = 0 ∨ ¬ ∃ k, alignment = 2 ^ k)) ∧
      (make_alloc M T len alignment w = Outcome.terminate Fatal.bad_alignment ↔
        (alignment = 0 ∨ ¬ ∃ k, alignment = 2 ^ k)) ∧
      (make_new M T len alignment w = Outcome.terminate Fatal.bad_alignment ↔
        (alignment = 0 ∨ ¬ ∃ k, alignment = 2 ^ k)) ∧
      (make_new_for_overwrite M T len alignment w = Outcome.terminate Fatal.bad_alignment ↔
        (alignment = 0 ∨ ¬ ∃ k, alignment = 2 ^ k)) ∧
      (len * T.size < M.wordMod →
        ((∃ f, make_new M T len alignment w = Outcome.terminate f) ↔
          (alignment = 0 ∨ ¬ ∃ k, alignment = 2 ^ k)) ∧
        ((∃ f, make_new_for_overwrite M T len alignment w = Outcome.terminate f) ↔
          (alignment = 0 ∨ ¬ ∃ k, alignment = 2 ^ k)))) ∧
    (∀ k size ptr space, ∃ c, align_next M (2 ^ k) size ptr space = Outcome.ret c) := by
  refine ⟨fun size ptr space => ?_, fun size ptr space hbad _ => ?_, fun T len w => ?_,
    fun k size ptr space => ?_⟩
  · rw [align_next_terminate_iff, check_fails_iff]
  · unfold align_next
    rw [if_pos ((check_fails_iff alignment).mpr hbad)]
  · refine ⟨?_, ?_, ?_, ?_, fun hlt => ⟨?_, ?_⟩⟩
    · rw [← check_fails_iff]
      unfold make_alloc
      rw [ctor_terminate_iff]
      exact ⟨fun h => h.elim id (fun h2 => absurd rfl h2.1), Or.inl⟩
    · rw [← check_fails_iff]; exact ctor_bad_alignment_iff M T len alignment _ w
    · rw [← check_fails_iff]; exact ctor_bad_alignment_iff M T len alignment _ w
    · rw [← check_fails_iff]; exact ctor_bad_alignment_iff M T len alignment _ w
    · rw [← check_fails_iff]
      unfold make_new
      rw [ctor_terminate_iff]
      exact ⟨fun h => h.elim id (fun h2 => absurd hlt (by omega)), Or.inl⟩
    · rw [← check_fails_iff]
      unfold make_new_for_overwrite
      rw [ctor_terminate_iff]
      exact ⟨fun h => h.elim id (fun h2 => absurd hlt (by omega)), Or.inl⟩
  · cases hc : align_next M (2 ^ k) size ptr space with
    | terminate f =>
      exact absurd ((align_next_terminate_iff M (2 ^ k) size ptr space).mp ⟨f, hc⟩)
        (pow2_passes_check k)
    | ret c => exact ⟨c, rfl⟩

/-- A carve that fits, in a region of real memory: the explicit result. -/
theorem align_next_fits (M : Machine) (k size p space : Nat)
    (hreg : p + space < M.wordMod)
    (hfit : align_offset M (2 ^ k) p + size ≤ space) :
    align_next M (2 ^ k) size p space =
      Outcome.ret ⟨p + align_offset M (2 ^ k) p, p + align_offset M (2 ^ k) p + size,
        space - (align_offset M (2 ^ k) p + size)⟩ := by
  rw [align_next_pow2 M k size p space (by omega), if_neg (by omega),
    Nat.mod_eq_of_lt (by omega : p + align_offset M (2 ^ k) p < M.wordMod),
    Nat.mod_eq_of_lt (by omega : p + align_offset M (2 ^ k) p + size < M.wordMod)]

/-- A handle constructor whose request fits, in a region of real memory with
a non-null cursor, and whose array new-expression is given a size that does
not overflow: the explicit handle and world. -/
theorem ctor_fits (M : Machine) (T : ElemType) (len k : Nat) (fn : InitFn) (w : World)
    (hnull : w.stack.m_data ≠ 0) (hreg : w.stack.m_data + w.stack.m_rem_bytes < M.wordMod)
    (hfit : align_offset M (2 ^ k) w.stack.m_data + (len * T.size) % M.wordMod
      ≤ w.stack.m_rem_bytes)
    (hov : fn = InitFn.no_init_fn ∨ len * T.size < M.wordMod) :
    manually_managed_dynamic_buffer.ctor M T len (2 ^ k) fn w =
      Outcome.ret
        (⟨T, w.stack.m_data, w.stack.m_data + align_offset M (2 ^ k) w.stack.m_data, len⟩,
         if fn = InitFn.no_init_fn then
           { w with
             stack :=
               ⟨w.stack.m_data + align_offset M (2 ^ k) w.stack.m_data
                  + (len * T.size) % M.wordMod,
                w.stack.m_rem_bytes
                  - (align_offset M (2 ^ k) w.stack.m_data + (len * T.size) % M.wordMod)⟩ }
         else
           construct_array T len
             { w with
               stack :=
                 ⟨w.stack.m_data + align_offset M (2 ^ k) w.stack.m_data
                    + (len * T.size) % M.wordMod,
                  w.stack.m_rem_bytes
                    - (align_offset M (2 ^ k) w.stack.m_data
                        + (len * T.size) % M.wordMod)⟩ }) := by
  unfold manually_managed_dynamic_buffer.ctor
  rw [align_next_fits M k _ _ _ hreg hfit]
  simp only
  rw [if_pos (by omega), make_returns M fn T _ len _ hov]

/-- C13 (as stated, refuted): `make_new<int>(2, 1)` (and likewise the other
two entry points) with the override alignment 1, weaker than `alignof(int)`,
does not terminate: in a view with cursor 1001 and 100 bytes left it returns a
buffer of two elements at address 1001, which is not a multiple of 4. -/
theorem under_aligned_request_is_served :
    1 < int.align ∧ ¬ (int.align ∣ 1001) ∧
    make_new lp64 int 2 1 ⟨⟨1001, 100⟩, 0, []⟩
      = Outcome.ret (⟨int, 1001, 1001, 2⟩, ⟨⟨1009, 92⟩, 0, []⟩) ∧
    make_new_for_overwrite lp64 int 2 1 ⟨⟨1001, 100⟩, 0, []⟩
      = Outcome.ret (⟨int, 1001, 1001, 2⟩, ⟨⟨1009, 92⟩, 0, []⟩) ∧
    make_alloc lp64 int 2 1 ⟨⟨1001, 100⟩, 0, []⟩
      = Outcome.ret (⟨int, 1001, 1001, 2⟩, ⟨⟨1009, 92⟩, 0, []⟩) := by
  decide

/-- C13 (amended): for every element type `T` and every allocation entry
point, a call whose alignment override is a power of two is never rejected
for being weaker than `alignof(T)`.  `make_alloc` returns, and so do `make_new`
and `make_new_for_overwrite` whenever `len * sizeof(T)` does not overflow
`size_t`; the outcome of the call, returned or not, does not depend on
`alignof(T)`; and when the request fits (in a region of real memory) the
handle a call returns is non-null, reports the requested length and is aligned
to the override only. -/
theorem under_alignment_not_checked (M : Machine) (T : ElemType) (k len : Nat) (w : World) :
    (len * T.size < M.wordMod →
      (∃ r, make_new M T len (2 ^ k) w = Outcome.ret r) ∧
      (∃ r, make_new_for_overwrite M T len (2 ^ k) w = Outcome.ret r)) ∧
    (∃ r, make_alloc M T len (2 ^ k) w = Outcome.ret r) ∧
    (∀ (a : Nat) (fn : InitFn) (b : manually_managed_dynamic_buffer) (w1 : World),
      manually_managed_dynamic_buffer.ctor M T len (2 ^ k) fn w = Outcome.ret (b, w1) →
      manually_managed_dynamic_buffer.ctor M { T with align := a } len (2 ^ k) fn w
        = Outcome.ret ({ b with T := { T with align := a } }, w1)) ∧
    (∀ (a : Nat) (fn : InitFn) (f : Fatal),
      manually_managed_dynamic_buffer.ctor M T len (2 ^ k) fn w = Outcome.terminate f →
      manually_managed_dynamic_buffer.ctor M { T with align := a } len (2 ^ k) fn w
        = Outcome.terminate f) ∧
    (k < M.ptrBits → w.stack.m_data ≠ 0 →
      w.stack.m_data + w.stack.m_rem_bytes < M.wordMod →
      align_offset M (2 ^ k) w.stack.m_data + (len * T.size) % M.wordMod
        ≤ w.stack.m_rem_bytes →
      ∀ fn b w1, manually_managed_dynamic_buffer.ctor M T len (2 ^ k) fn w
          = Outcome.ret (b, w1) →
        b.data ≠ 0 ∧ b.size = len ∧ 2 ^ k ∣ b.data ∧
        b.data = w.stack.m_data + align_offset M (2 ^ k) w.stack.m_data) := by
  have hret : ∀ fn, (fn = InitFn.no_init_fn ∨ len * T.size < M.wordMod) →
      ∃ r, manually_managed_dynamic_buffer.ctor M T len (2 ^ k) fn w = Outcome.ret r := by
    intro fn hov
    cases hc : manually_managed_dynamic_buffer.ctor M T len (2 ^ k) fn w with
    | terminate f =>
      exfalso
      rcases (ctor_terminate_iff M T len (2 ^ k) fn w).mp ⟨f, hc⟩ with h | ⟨hne, hle, _⟩
      · exact pow2_passes_check k h
      · rcases hov with h | h
        · exact hne h
        · omega
    | ret r => exact ⟨r, rfl⟩
  have hsame : ∀ (a : Nat) (fn : InitFn),
      manually_managed_dynamic_buffer.ctor M { T with align := a } len (2 ^ k) fn w =
        match manually_managed_dynamic_buffer.ctor M T len (2 ^ k) fn w with
        | Outcome.terminate f => Outcome.terminate f
        | Outcome.ret r => Outcome.ret ({ r.1 with T := { T with align := a } }, r.2) := by
    intro a fn
    unfold manually_managed_dynamic_buffer.ctor
    simp only [make_eq]
    cases hcv : align_next M (2 ^ k) ((len * T.size) % M.wordMod) w.stack.m_data
        w.stack.m_rem_bytes with
    | terminate f => rfl
    | ret c =>
      simp only
      by_cases hrv : c.rv = 0
      · rw [if_neg (by simpa using hrv), if_neg (by simpa using hrv)]
      · rw [if_pos hrv, if_pos hrv]
        by_cases hov : fn ≠ InitFn.no_init_fn ∧ M.wordMod ≤ len * T.size
        · rw [if_pos hov, if_pos hov]
        · rw [if_neg hov, if_neg hov]
          cases fn <;> rfl
  refine ⟨fun hlt => ⟨hret _ (Or.inr hlt), hret _ (Or.inr hlt)⟩, hret _ (Or.inl rfl), ?_, ?_, ?_⟩
  · intro a fn b w1 hc
    rw [hsame a fn, hc]
  · intro a fn f hc
    rw [hsame a fn, hc]
  intro hk hnull hreg hfit fn b w1 hc
  obtain ⟨c, hcv, hcase⟩ := ctor_ret M T len k fn w w1 b (by omega) hc
  rw [align_next_fits M k _ _ _ hreg hfit] at hcv
  cases hcv
  obtain ⟨_, hdvd, _, _⟩ := align_offset_spec M k w.stack.m_data hk (by omega)
  rcases hcase with ⟨hrv, _, _⟩ | ⟨_, hb, _, _⟩
  · exfalso
    simp only at hrv
    omega
  · subst hb
    refine ⟨?_, rfl, hdvd, rfl⟩
    show w.stack.m_data + align_offset M (2 ^ k) w.stack.m_data ≠ 0
    omega

theorem under_alignment_not_checked_witness :
    (2 * int.size < lp64.wordMod →
      (∃ r, make_new lp64 int 2 (2 ^ 0) ⟨⟨1001, 100⟩, 0, []⟩ = Outcome.ret r) ∧
      (∃ r, make_new_for_overwrite lp64 int 2 (2 ^ 0) ⟨⟨1001, 100⟩, 0, []⟩ = Outcome.ret r)) ∧
    2 * int.size < lp64.wordMod ∧
    (⟨int, 1001, 1001, 2⟩ : manually_managed_dynamic_buffer).data ≠ 0 ∧
    (⟨int, 1001, 1001, 2⟩ : manually_managed_dynamic_buffer).size = 2 ∧
    2 ^ 0 ∣ (⟨int, 1001, 1001, 2⟩ : manually_managed_dynamic_buffer).data ∧
    (⟨int, 1001, 1001, 2⟩ : manually_managed_dynamic_buffer).data
      = 1001 + align_offset lp64 (2 ^ 0) 1001 :=
  ⟨(under_alignment_not_checked lp64 int 0 2 ⟨⟨1001, 100⟩, 0, []⟩).1,
   by decide,
   (under_alignment_not_checked lp64 int 0 2 ⟨⟨1001, 100⟩, 0, []⟩).2.2.2.2
    (by decide) (by decide) (by decide) (by decide) InitFn.zero_init_fn
    ⟨int, 1001, 1001, 2⟩ ⟨⟨1009, 92⟩, 0, []⟩ (by decide)⟩

/-- C17: for every power-of-two alignment, size, cursor and remaining, with a
non-null cursor and a region that ends within the address space (strictly
within it for a zero-size request, so that the returned address is
representable), `remaining >= size + alignment - 1` makes `align_next`
return a non-null address whatever the alignment of the cursor; and whenever
`align_next` returns a non-null address the bytes it takes, `o + size`, are
at most `size + alignment - 1`. -/
theorem sufficient_capacity_succeeds (M : Machine) (k size cursor remaining : Nat)
    (hk : k < M.ptrBits) (hnull : cursor ≠ 0) (hcur : cursor < M.wordMod)
    (hreg : cursor + remaining ≤ M.wordMod)
    (hend : size = 0 → cursor + remaining < M.wordMod)
    (hcap : size + 2 ^ k - 1 ≤ remaining) :
    (∃ c, align_next M (2 ^ k) size cursor remaining = Outcome.ret c ∧ c.rv ≠ 0 ∧
      c.rv = cursor + align_offset M (2 ^ k) cursor) ∧
    (∀ space c, space < M.wordMod →
      align_next M (2 ^ k) size cursor space = Outcome.ret c → c.rv ≠ 0 →
      space - c.space = align_offset M (2 ^ k) cursor + size ∧
      align_offset M (2 ^ k) cursor + size ≤ size + 2 ^ k - 1) := by
  obtain ⟨hlt, _, _, _⟩ := align_offset_spec M k cursor hk hcur
  have hrem : remaining < M.wordMod := by omega
  constructor
  · rw [align_next_pow2 M k size cursor remaining hrem, if_neg (by omega)]
    have hlt2 : cursor + align_offset M (2 ^ k) cursor < M.wordMod := by
      rcases Nat.eq_zero_or_pos size with h0 | h0
      · have := hend h0
        omega
      · omega
    refine ⟨_, rfl, ?_, ?_⟩
    · simp only
      rw [Nat.mod_eq_of_lt hlt2]
      omega
    · simp only
      exact Nat.mod_eq_of_lt hlt2
  · intro space c hs hret hok
    obtain ⟨hle, _, _, hsp⟩ := align_next_success M k size cursor space c hk hcur hs hret hok
    rw [hsp]
    constructor <;> omega

theorem sufficient_capacity_succeeds_witness :
    (∃ c, align_next lp64 (2 ^ 2) 1200 1007 4089 = Outcome.ret c ∧ c.rv ≠ 0 ∧
      c.rv = 1007 + align_offset lp64 (2 ^ 2) 1007) ∧
    (4089 - (⟨1008, 2208, 2888⟩ : Carve).space = align_offset lp64 (2 ^ 2) 1007 + 1200 ∧
      align_offset lp64 (2 ^ 2) 1007 + 1200 ≤ 1200 + 2 ^ 2 - 1) :=
  ⟨(sufficient_capacity_succeeds lp64 2 1200 1007 4089 (by decide) (by decide) (by decide)
      (by decide) (by decide) (by decide)).1,
   (sufficient_capacity_succeeds lp64 2 1200 1007 4089 (by decide) (by decide) (by decide)
      (by decide) (by decide) (by decide)).2 4089 ⟨1008, 2208, 2888⟩ (by decide) (by decide)
      (by decide)⟩

/-- C18: for every view (in a region that does not wrap around the address
space) whose cursor is not a multiple of the requested power-of-two alignment
and whose `remaining_bytes()` is at least the padding `o`, the padding is
positive and `make_new` / `make_new_for_overwrite` with length 0 return a
handle with non-null data and `size() == 0`, lower `remaining_bytes()` by `o`
and advance the cursor by `o`; releasing that handle leaves the view as it
is, so the `o` bytes are not returned. -/
theorem zero_length_leaks_padding (M : Machine) (k : Nat) (T : ElemType) (w : World)
    (hk : k < M.ptrBits) (hmis : ¬ 2 ^ k ∣ w.stack.m_data)
    (hfit : align_offset M (2 ^ k) w.stack.m_data ≤ w.stack.remaining_bytes)
    (hreg : w.stack.m_data + w.stack.remaining_bytes < M.wordMod) :
    0 < align_offset M (2 ^ k) w.stack.m_data ∧
    ∃ (b : dynamic_buffer) (w1 : World),
      make_new M T 0 (2 ^ k) w = Outcome.ret (b, w1) ∧
      make_new_for_overwrite M T 0 (2 ^ k) w = Outcome.ret (b, w1) ∧
      b.data ≠ 0 ∧ b.size = 0 ∧
      w1.stack.remaining_bytes
        = w.stack.remaining_bytes - align_offset M (2 ^ k) w.stack.m_data ∧
      w1.stack.m_data = w.stack.m_data + align_offset M (2 ^ k) w.stack.m_data ∧
      dynamic_buffer.dtor M b w1 = Outcome.ret w1 := by
  have hreg2 : w.stack.m_data + w.stack.m_rem_bytes < M.wordMod := hreg
  have hfit2 : align_offset M (2 ^ k) w.stack.m_data ≤ w.stack.m_rem_bytes := hfit
  obtain ⟨_, hdvd, _, _⟩ := align_offset_spec M k w.stack.m_data hk (by omega)
  have hpos : 0 < align_offset M (2 ^ k) w.stack.m_data := by
    rcases Nat.eq_zero_or_pos (align_offset M (2 ^ k) w.stack.m_data) with h0 | h0
    · rw [h0, Nat.add_zero] at hdvd
      exact absurd hdvd hmis
    · exact h0
  have hnull : w.stack.m_data ≠ 0 := by
    intro h0
    apply hmis
    rw [h0]
    exact Nat.dvd_zero _
  have hsz : (0 * T.size) % M.wordMod = 0 := by simp
  have hctor : ∀ fn, manually_managed_dynamic_buffer.ctor M T 0 (2 ^ k) fn w
      = Outcome.ret
        (⟨T, w.stack.m_data, w.stack.m_data + align_offset M (2 ^ k) w.stack.m_data, 0⟩,
         ⟨⟨w.stack.m_data + align_offset M (2 ^ k) w.stack.m_data,
            w.stack.m_rem_bytes - align_offset M (2 ^ k) w.stack.m_data⟩,
          w.n_instances, w.dtor_log⟩) := by
    intro fn
    rw [ctor_fits M T 0 k fn w hnull hreg2 (by rw [hsz]; omega)
      (Or.inr (by rw [Nat.zero_mul]; exact wordMod_pos M)), hsz]
    cases fn <;> cases hT : T.counting <;> simp [construct_array, hT]
  refine ⟨hpos, _, _, hctor _, hctor _, ?_, rfl, rfl, rfl, ?_⟩
  · show w.stack.m_data + align_offset M (2 ^ k) w.stack.m_data ≠ 0
    omega
  · rw [dtor_eq, if_pos rfl]

theorem zero_length_leaks_padding_witness :
    0 < align_offset lp64 (2 ^ 2) 1001 ∧
    ∃ (b : dynamic_buffer) (w1 : World),
      make_new lp64 int 0 (2 ^ 2) ⟨⟨1001, 10⟩, 0, []⟩ = Outcome.ret (b, w1) ∧
      make_new_for_overwrite lp64 int 0 (2 ^ 2) ⟨⟨1001, 10⟩, 0, []⟩ = Outcome.ret (b, w1) ∧
      b.data ≠ 0 ∧ b.size = 0 ∧
      w1.stack.remaining_bytes
        = (⟨⟨1001, 10⟩, 0, []⟩ : World).stack.remaining_bytes
          - align_offset lp64 (2 ^ 2) 1001 ∧
      w1.stack.m_data = 1001 + align_offset lp64 (2 ^ 2) 1001 ∧
      dynamic_buffer.dtor lp64 b w1 = Outcome.ret w1 :=
  zero_length_leaks_padding lp64 2 int ⟨⟨1001, 10⟩, 0, []⟩ (by decide) (by decide) (by decide)
    (by decide)

/-! ## One-byte element types and the reference scenario -/

theorem lp64_wordMod : lp64.wordMod = 18446744073709551616 := by
  norm_num [Machine.wordMod, lp64]

/-- Allocation of `n ≤ remaining` elements of a one-byte type with alignment
1, in a region of real memory: no padding, `n` bytes taken. -/
theorem one_byte_ctor (M : Machine) (T : ElemType) (n : Nat) (fn : InitFn) (w : World)
    (hsize : T.size = 1) (hnull : w.stack.m_data ≠ 0)
    (hreg : w.stack.m_data + w.stack.m_rem_bytes < M.wordMod)
    (hn : n ≤ w.stack.m_rem_bytes) :
    manually_managed_dynamic_buffer.ctor M T n 1 fn w =
      Outcome.ret
        (⟨T, w.stack.m_data, w.stack.m_data, n⟩,
         if fn = InitFn.no_init_fn then
           { w with stack := ⟨w.stack.m_data + n, w.stack.m_rem_bytes - n⟩ }
         else
           construct_array T n
             { w with stack := ⟨w.stack.m_data + n, w.stack.m_rem_bytes - n⟩ }) := by
  have hbits : 0 < M.ptrBits := by
    rcases Nat.eq_zero_or_pos M.ptrBits with h0 | h0
    · have : M.wordMod = 1 := by unfold Machine.wordMod; rw [h0]; rfl
      omega
    · exact h0
  have ho : align_offset M (2 ^ 0) w.stack.m_data = 0 :=
    aligned_offset_zero M 0 _ hbits (by omega) (by simp)
  have hsz : (n * T.size) % M.wordMod = n := by
    rw [hsize, Nat.mul_one]
    exact Nat.mod_eq_of_lt (by omega)
  have h := ctor_fits M T n 0 fn w hnull hreg (by rw [ho, hsz]; omega)
    (Or.inr (by rw [hsize, Nat.mul_one]; omega))
  rw [ho, hsz] at h
  simpa using h

/-- The first two allocations of the reference scenario, at any base. -/
theorem reference_prefix (base : Nat) (c : Int) (l : List Nat) (hnull : base ≠ 0)
    (hreg : base + 4096 < lp64.wordMod) :
    make_new lp64 S 3 S.align ⟨⟨base, 4096⟩, c, l⟩
      = Outcome.ret (⟨S, base, base, 3⟩, ⟨⟨base + 3, 4093⟩, c + 3, l⟩) ∧
    make_new lp64 S 4 S.align ⟨⟨base + 3, 4093⟩, c + 3, l⟩
      = Outcome.ret (⟨S, base + 3, base + 3, 4⟩, ⟨⟨base + 7, 4089⟩, c + 7, l⟩) := by
  constructor
  · have h := one_byte_ctor lp64 S 3 InitFn.zero_init_fn ⟨⟨base, 4096⟩, c, l⟩ rfl hnull hreg
      (by show 3 ≤ 4096; decide)
    simpa [make_new, construct_array, S] using h
  · have h := one_byte_ctor lp64 S 4 InitFn.zero_init_fn ⟨⟨base + 3, 4093⟩, c + 3, l⟩ rfl
      (by simp) (by simp only; omega) (by show 4 ≤ 4093; decide)
    have e : c + 3 + 4 = c + 7 := by omega
    simpa [make_new, construct_array, S, Nat.add_assoc, e] using h

/-- Release of the two buffers of the reference scenario, at any base. -/
theorem reference_release (base : Nat) (c : Int) (l : List Nat)
    (hreg : base + 4096 < lp64.wordMod) :
    dynamic_buffer.dtor lp64 ⟨S, base + 3, base + 3, 4⟩ ⟨⟨base + 7, 4089⟩, c + 7, l⟩
      = Outcome.ret ⟨⟨base + 3, 4093⟩, c + 3, l ++ [0, 1, 2, 3]⟩ ∧
    dynamic_buffer.dtor lp64 ⟨S, base, base, 3⟩ ⟨⟨base + 3, 4093⟩, c + 3, l ++ [0, 1, 2, 3]⟩
      = Outcome.ret ⟨⟨base, 4096⟩, c, l ++ [0, 1, 2, 3] ++ [0, 1, 2]⟩ := by
  have hP := lp64_wordMod
  rw [hP] at hreg
  constructor
  · rw [dtor_eq]
    simp only [manually_managed_dynamic_buffer.top, S, hP]
    have e1 : (base + 3 + 4 * 1) % 18446744073709551616 = base + 7 := by omega
    have e2 : (4089 + (base + 7 + 18446744073709551616 - (base + 3)) % 18446744073709551616)
        % 18446744073709551616 = 4093 := by omega
    have e3 : c + 7 - ((4 : Nat) : Int) = c + 3 := by omega
    rw [e1, e2, e3]
    simp [List.range_succ]
  · rw [dtor_eq]
    simp only [manually_managed_dynamic_buffer.top, S, hP]
    have e1 : (base + 3 * 1) % 18446744073709551616 = base + 3 := by omega
    have e2 : (4093 + (base + 3 + 18446744073709551616 - base) % 18446744073709551616)
        % 18446744073709551616 = 4096 := by omega
    have e3 : c + 3 - ((3 : Nat) : Int) = c := by omega
    rw [e1, e2, e3]
    simp [List.range_succ]

/-- C15: for every view state in a region of real memory (non-null cursor,
one-past-the-end address representable) and every `n <= remaining_bytes()`,
allocating `n` elements of a type of size 1 and alignment 1 through any entry
point returns non-null data equal to the old cursor and `size() == n`, lowers
`remaining_bytes()` by exactly `n` and advances the cursor by `n`.  In a
4096-byte region, allocating 3 and then 4 elements of `S` leaves 4093 and
then 4089 bytes, a request for 30000 `int`s then fails and leaves 4089, and
the reverse-order releases return to 4093 and then 4096. -/
theorem byte_exact_accounting (M : Machine) (T : ElemType) (n : Nat) (w : World)
    (hsize : T.size = 1) (halign : T.align = 1) (hnull : w.stack.m_data ≠ 0)
    (hreg : w.stack.m_data + w.stack.remaining_bytes < M.wordMod)
    (hn : n ≤ w.stack.remaining_bytes) :
    (∀ call ∈ [make_new, make_new_for_overwrite, make_alloc],
      ∃ (b : manually_managed_dynamic_buffer) (w1 : World),
        call M T n T.align w = Outcome.ret (b, w1) ∧
        b.data ≠ 0 ∧ b.data = w.stack.m_data ∧ b.size = n ∧
        w1.stack.remaining_bytes = w.stack.remaining_bytes - n ∧
        w1.stack.m_data = w.stack.m_data + n) ∧
    (∀ (base : Nat) (c : Int) (l : List Nat), base ≠ 0 → base + 4096 < lp64.wordMod →
      make_new lp64 S 3 S.align ⟨⟨base, 4096⟩, c, l⟩
        = Outcome.ret (⟨S, base, base, 3⟩, ⟨⟨base + 3, 4093⟩, c + 3, l⟩) ∧
      make_new lp64 S 4 S.align ⟨⟨base + 3, 4093⟩, c + 3, l⟩
        = Outcome.ret (⟨S, base + 3, base + 3, 4⟩, ⟨⟨base + 7, 4089⟩, c + 7, l⟩) ∧
      make_new lp64 int 30000 int.align ⟨⟨base + 7, 4089⟩, c + 7, l⟩
        = Outcome.ret (⟨int, base + 7, 0, 0⟩, ⟨⟨base + 7, 4089⟩, c + 7, l⟩) ∧
      dynamic_buffer.dtor lp64 ⟨int, base + 7, 0, 0⟩ ⟨⟨base + 7, 4089⟩, c + 7, l⟩
        = Outcome.ret ⟨⟨base + 7, 4089⟩, c + 7, l⟩ ∧
      dynamic_buffer.dtor lp64 ⟨S, base + 3, base + 3, 4⟩ ⟨⟨base + 7, 4089⟩, c + 7, l⟩
        = Outcome.ret ⟨⟨base + 3, 4093⟩, c + 3, l ++ [0, 1, 2, 3]⟩ ∧
      dynamic_buffer.dtor lp64 ⟨S, base, base, 3⟩
          ⟨⟨base + 3, 4093⟩, c + 3, l ++ [0, 1, 2, 3]⟩
        = Outcome.ret ⟨⟨base, 4096⟩, c, l ++ [0, 1, 2, 3] ++ [0, 1, 2]⟩) := by
  constructor
  · have key : ∀ fn, ∃ (b : manually_managed_dynamic_buffer) (w1 : World),
        manually_managed_dynamic_buffer.ctor M T n T.align fn w = Outcome.ret (b, w1) ∧
        b.data ≠ 0 ∧ b.data = w.stack.m_data ∧ b.size = n ∧
        w1.stack.remaining_bytes = w.stack.remaining_bytes - n ∧
        w1.stack.m_data = w.stack.m_data + n := by
      intro fn
      rw [halign, one_byte_ctor M T n fn w hsize hnull hreg hn]
      obtain ⟨hf, _⟩ := make_frame fn T n
        { w with stack := ⟨w.stack.m_data + n, w.stack.m_rem_bytes - n⟩ }
      refine ⟨_, _, rfl, hnull, rfl, rfl, ?_, ?_⟩
      · rw [hf]; rfl
      · rw [hf]
    intro call hcall
    simp only [List.mem_cons, List.mem_singleton, List.not_mem_nil, or_false] at hcall
    rcases hcall with rfl | rfl | rfl
    · exact key _
    · exact key _
    · exact key _
  · intro base c l hb hr
    obtain ⟨h1, h2⟩ := reference_prefix base c l hb hr
    obtain ⟨h5, h6⟩ := reference_release base c l hr
    refine ⟨h1, h2, ?_, ?_, h5, h6⟩
    · have hP := lp64_wordMod
      exact capacity_exhaustion_without_wrap lp64 2 int 30000 InitFn.zero_init_fn
        ⟨⟨base + 7, 4089⟩, c + 7, l⟩ (by show 4089 < lp64.wordMod; rw [hP]; decide)
        (by rw [hP]; decide)
        (by simp only [int]; omega)
    · rw [dtor_eq, if_pos rfl]

theorem byte_exact_accounting_witness :
    ∃ (b : manually_managed_dynamic_buffer) (w1 : World),
      make_new lp64 S 3 S.align ⟨⟨1000, 4096⟩, 0, []⟩ = Outcome.ret (b, w1) ∧
      b.data ≠ 0 ∧ b.data = 1000 ∧ b.size = 3 ∧
      w1.stack.remaining_bytes
        = (⟨⟨1000, 4096⟩, 0, []⟩ : World).stack.remaining_bytes - 3 ∧
      w1.stack.m_data = 1000 + 3 :=
  (byte_exact_accounting lp64 S 3 ⟨⟨1000, 4096⟩, 0, []⟩ (by decide) (by decide) (by decide)
    (by decide) (by decide)).1 make_new (List.mem_cons_self _ _)

/-- C16 (as stated, refuted): with the 4096-byte region at address 1001,
after the allocations of 3 and 4 one-byte elements the cursor 1008 is a
multiple of 4, so the 300 `int`s take no padding and leave exactly
`4089 - 300*4 = 2889` bytes, which is not strictly less. -/
theorem aligned_cursor_leaves_exact_remainder :
    make_new lp64 S 3 S.align ⟨⟨1001, 4096⟩, 0, []⟩
      = Outcome.ret (⟨S, 1001, 1001, 3⟩, ⟨⟨1004, 4093⟩, 3, []⟩) ∧
    make_new lp64 S 4 S.align ⟨⟨1004, 4093⟩, 3, []⟩
      = Outcome.ret (⟨S, 1004, 1004, 4⟩, ⟨⟨1008, 4089⟩, 7, []⟩) ∧
    make_new lp64 int 300 int.align ⟨⟨1008, 4089⟩, 7, []⟩
      = Outcome.ret (⟨int, 1008, 1008, 300⟩, ⟨⟨2208, 2889⟩, 7, []⟩) ∧
    ¬ ((⟨2208, 2889⟩ : dynamic_stack_view).remaining_bytes < 4089 - 300 * int.size) := by
  decide

/-- C16 (amended): for a 4096-byte region at any base address (non-null, not
wrapping around the address space), after allocating 3 and then 4 elements
of a one-byte type (`remaining_bytes() == 4089`), allocating 300 `int`s
succeeds (non-null data, `size() == 300`) and leaves
`remaining_bytes() == 4089 - 300*4 - o`, where the padding `o < 4` is the
distance from `base + 7` to the next multiple of 4: at most `4089 - 300*4`,
and strictly less exactly when `base + 7` is not a multiple of 4. -/
theorem padded_allocation (base : Nat) (c : Int) (l : List Nat) (hnull : base ≠ 0)
    (hreg : base + 4096 < lp64.wordMod) :
    make_new lp64 S 3 S.align ⟨⟨base, 4096⟩, c, l⟩
      = Outcome.ret (⟨S, base, base, 3⟩, ⟨⟨base + 3, 4093⟩, c + 3, l⟩) ∧
    make_new lp64 S 4 S.align ⟨⟨base + 3, 4093⟩, c + 3, l⟩
      = Outcome.ret (⟨S, base + 3, base + 3, 4⟩, ⟨⟨base + 7, 4089⟩, c + 7, l⟩) ∧
    ∃ (b : dynamic_buffer) (w1 : World),
      make_new lp64 int 300 int.align ⟨⟨base + 7, 4089⟩, c + 7, l⟩ = Outcome.ret (b, w1) ∧
      b.data ≠ 0 ∧ b.size = 300 ∧
      align_offset lp64 4 (base + 7) < 4 ∧
      w1.stack.remaining_bytes = 4089 - 300 * int.size - align_offset lp64 4 (base + 7) ∧
      w1.stack.remaining_bytes ≤ 4089 - 300 * int.size ∧
      (w1.stack.remaining_bytes < 4089 - 300 * int.size ↔ ¬ 4 ∣ base + 7) := by
  have hP := lp64_wordMod
  obtain ⟨h1, h2⟩ := reference_prefix base c l hnull hreg
  refine ⟨h1, h2, ?_⟩
  have hk : 2 < lp64.ptrBits := by decide
  have hcur : base + 7 < lp64.wordMod := by omega
  obtain ⟨hlt, hdvd, _, hmin⟩ := align_offset_spec lp64 2 (base + 7) hk hcur
  have h4 : (2 : Nat) ^ 2 = 4 := by norm_num
  rw [h4] at hlt hdvd hmin
  have hsz : (300 * int.size) % lp64.wordMod = 1200 := by rw [hP]; rfl
  have hfit : align_offset lp64 (2 ^ 2) (base + 7) + (300 * int.size) % lp64.wordMod ≤ 4089 := by
    rw [h4, hsz]; omega
  have hctor := ctor_fits lp64 int 300 2 InitFn.zero_init_fn ⟨⟨base + 7, 4089⟩, c + 7, l⟩
    (by simp) (by simp only; omega) hfit (Or.inr (by rw [hP]; decide))
  rw [h4, hsz, if_neg (by decide)] at hctor
  simp only at hctor
  refine ⟨_, _, hctor, ?_, rfl, hlt, ?_, ?_, ?_⟩
  · show base + 7 + align_offset lp64 4 (base + 7) ≠ 0
    omega
  · show 4089 - (align_offset lp64 4 (base + 7) + 1200) = _
    simp only [int]
    omega
  · show 4089 - (align_offset lp64 4 (base + 7) + 1200) ≤ _
    simp only [int]
    omega
  · show 4089 - (align_offset lp64 4 (base + 7) + 1200) < _ ↔ _
    simp only [int]
    constructor
    · intro hlt2 hd
      have := hmin 0 (by simpa using hd)
      omega
    · intro hnd
      rcases Nat.eq_zero_or_pos (align_offset lp64 4 (base + 7)) with h0 | h0
      · rw [h0, Nat.add_zero] at hdvd
        exact absurd hdvd hnd
      · omega

theorem padded_allocation_witness :
    make_new lp64 S 3 S.align ⟨⟨1000, 4096⟩, 0, []⟩
      = Outcome.ret (⟨S, 1000, 1000, 3⟩, ⟨⟨1000 + 3, 4093⟩, 0 + 3, []⟩) ∧
    make_new lp64 S 4 S.align ⟨⟨1000 + 3, 4093⟩, 0 + 3, []⟩
      = Outcome.ret (⟨S, 1000 + 3, 1000 + 3, 4⟩, ⟨⟨1000 + 7, 4089⟩, 0 + 7, []⟩) ∧
    ∃ (b : dynamic_buffer) (w1 : World),
      make_new lp64 int 300 int.align ⟨⟨1000 + 7, 4089⟩, 0 + 7, []⟩ = Outcome.ret (b, w1) ∧
      b.data ≠ 0 ∧ b.size = 300 ∧
      align_offset lp64 4 (1000 + 7) < 4 ∧
      w1.stack.remaining_bytes = 4089 - 300 * int.size - align_offset lp64 4 (1000 + 7) ∧
      w1.stack.remaining_bytes ≤ 4089 - 300 * int.size ∧
      (w1.stack.remaining_bytes < 4089 - 300 * int.size ↔ ¬ 4 ∣ 1000 + 7) :=
  padded_allocation 1000 0 [] (by decide) (by decide)

/-! ## Moves -/

/-- Releasing a moved-from handle does nothing. -/
theorem dtor_moved_from (M : Machine) (other : manually_managed_dynamic_buffer) (w : World) :
    dynamic_buffer.dtor M (manually_managed_dynamic_buffer.move_ctor other).2 w
      = Outcome.ret w := by
  have hz : (manually_managed_dynamic_buffer.move_ctor other).2.m_len = 0 := rfl
  rw [dtor_eq, if_pos hz]

/-- Three successful scoped allocations, the first handle moved out, then the
releases of the third, the second and the moved-from first: when the second
and third took no padding for a zero length, the releases return and leave
the view and the counter as they were after the first allocation alone. -/
theorem move_out_first (M : Machine) (r1 r2 r3 : Request) (w w1 w3 : World)
    (b1 b2 b3 : dynamic_buffer) (hw : w.words M)
    (hal : ∀ r ∈ [r1, r2, r3], ∃ k, k < M.ptrBits ∧ r.align = 2 ^ k)
    (h1 : r1.call M w = Outcome.ret (b1, w1))
    (h23 : alloc_all M [r2, r3] w1 = Outcome.ret ([b2, b3], w3))
    (hok : ∀ b ∈ [b1, b2, b3], b.m_data ≠ 0)
    (hsafe : ∀ b ∈ [b2, b3], b.m_len = 0 → b.m_data = b.m_old_pos) :
    ∃ wf, release_all M [b3, b2, (manually_managed_dynamic_buffer.move_ctor b1).2] w3
        = Outcome.ret wf ∧
      wf.stack = w1.stack ∧ wf.n_instances = w1.n_instances := by
  obtain ⟨k1, hk1, ha1⟩ := hal r1 (by simp)
  obtain ⟨_, _, _, _, _, hw1, _⟩ :=
    call_success M r1 k1 w w1 b1 hk1 ha1 hw h1 (hok b1 (by simp))
  obtain ⟨w2, hrel, hst, hn⟩ := nest_round_trip M [r2, r3] w1 w3 [b2, b3] hw1
    (fun r hr => hal r (List.mem_cons_of_mem _ hr)) h23
    (fun b hb => hok b (List.mem_cons_of_mem _ hb)) hsafe
  have hsplit : [b3, b2, (manually_managed_dynamic_buffer.move_ctor b1).2]
      = [b2, b3].reverse ++ [(manually_managed_dynamic_buffer.move_ctor b1).2] := rfl
  rw [hsplit, release_all_append, hrel]
  simp only [release_all]
  rw [dtor_moved_from]
  exact ⟨w2, rfl, hst, hn⟩

/-- C14: the move constructor yields a destination with the source's element
type, prior cursor, data and length and leaves the source with
`data == nullptr` and `length == 0` (the parent is the one view of the
model); releasing a moved-from source, scoped or manually managed, changes
nothing; and for handles `s1, s2, s3` successfully allocated in that order,
of one element type at its natural alignment, moving `s1` out and releasing
`s3`, `s2` and the moved-from `s1` returns and leaves the view and the live
count as they were after `s1` alone, the destination still reporting `s1`'s
data and size.  The same holds for handles of any types and alignments when
neither `s2` nor `s3` is a zero-length allocation that took padding. -/
theorem move_leaves_source_empty (M : Machine) :
    (∀ other : manually_managed_dynamic_buffer,
      (manually_managed_dynamic_buffer.move_ctor other).1.T = other.T ∧
      (manually_managed_dynamic_buffer.move_ctor other).1.m_old_pos = other.m_old_pos ∧
      (manually_managed_dynamic_buffer.move_ctor other).1.data = other.data ∧
      (manually_managed_dynamic_buffer.move_ctor other).1.size = other.size ∧
      (manually_managed_dynamic_buffer.move_ctor other).2.data = 0 ∧
      (manually_managed_dynamic_buffer.move_ctor other).2.size = 0) ∧
    (∀ (other : manually_managed_dynamic_buffer) (w : World),
      dynamic_buffer.dtor M (manually_managed_dynamic_buffer.move_ctor other).2 w
        = Outcome.ret w ∧
      manually_managed_dynamic_buffer.dtor (manually_managed_dynamic_buffer.move_ctor other).2 w
        = Outcome.ret w) ∧
    (∀ (T : ElemType) (k : Nat) (r1 r2 r3 : Request) (w w1 w3 : World)
      (b1 b2 b3 : dynamic_buffer),
      k < M.ptrBits → T.align = 2 ^ k → T.align ∣ T.size → w.words M →
      (∀ r ∈ [r1, r2, r3], r.T = T ∧ r.align = T.align) →
      r1.call M w = Outcome.ret (b1, w1) →
      alloc_all M [r2, r3] w1 = Outcome.ret ([b2, b3], w3) →
      (∀ b ∈ [b1, b2, b3], b.data ≠ 0) →
      ∃ wf, release_all M [b3, b2, (manually_managed_dynamic_buffer.move_ctor b1).2] w3
          = Outcome.ret wf ∧
        wf.stack.remaining_bytes = w1.stack.remaining_bytes ∧
        wf.stack.m_data = w1.stack.m_data ∧
        wf.n_instances = w1.n_instances ∧
        (manually_managed_dynamic_buffer.move_ctor b1).1.data = b1.data ∧
        (manually_managed_dynamic_buffer.move_ctor b1).1.size = b1.size) ∧
    (∀ (r1 r2 r3 : Request) (w w1 w3 : World) (b1 b2 b3 : dynamic_buffer),
      w.words M →
      (∀ r ∈ [r1, r2, r3], ∃ k, k < M.ptrBits ∧ r.align = 2 ^ k) →
      r1.call M w = Outcome.ret (b1, w1) →
      alloc_all M [r2, r3] w1 = Outcome.ret ([b2, b3], w3) →
      (∀ b ∈ [b1, b2, b3], b.data ≠ 0) →
      (∀ b ∈ [b2, b3], b.size = 0 → b.data = b.m_old_pos) →
      ∃ wf, release_all M [b3, b2, (manually_managed_dynamic_buffer.move_ctor b1).2] w3
          = Outcome.ret wf ∧
        wf.stack.remaining_bytes = w1.stack.remaining_bytes ∧
        wf.stack.m_data = w1.stack.m_data ∧
        wf.n_instances = w1.n_instances ∧
        (manually_managed_dynamic_buffer.move_ctor b1).1.data = b1.data ∧
        (manually_managed_dynamic_buffer.move_ctor b1).1.size = b1.size) := by
  refine ⟨fun other => ⟨rfl, rfl, rfl, rfl, rfl, rfl⟩,
    fun other w => ⟨dtor_moved_from M other w, rfl⟩, ?_, ?_⟩
  · intro T k r1 r2 r3 w w1 w3 b1 b2 b3 hk halign hsize hw hreq h1 h23 hok
    have hal : ∀ r ∈ [r1, r2, r3], ∃ j, j < M.ptrBits ∧ r.align = 2 ^ j := fun r hr =>
      ⟨k, hk, by rw [(hreq r hr).2, halign]⟩
    obtain ⟨hT1, ha1⟩ := hreq r1 (by simp)
    have hb1 : b1.m_data ≠ 0 := hok b1 (by simp)
    obtain ⟨_, _, _, _, _, hw1, _⟩ :=
      call_success M r1 k w w1 b1 hk (by rw [ha1, halign]) hw h1 hb1
    have hal1 := call_aligned M T k r1 w w1 b1 hk halign hsize hT1 ha1 hw h1 hb1
    have hnopad := aligned_alloc_all_no_padding M T k hk halign hsize [r2, r3] w1 w3 [b2, b3]
      hw1 hal1 (fun q hq => hreq q (List.mem_cons_of_mem _ hq)) h23
      (fun b hb => hok b (List.mem_cons_of_mem _ hb))
    obtain ⟨wf, hrel, hst, hn⟩ := move_out_first M r1 r2 r3 w w1 w3 b1 b2 b3 hw hal h1 h23 hok
      (fun b hb _ => hnopad b hb)
    exact ⟨wf, hrel, by rw [hst], by rw [hst], hn, rfl, rfl⟩
  · intro r1 r2 r3 w w1 w3 b1 b2 b3 hw hal h1 h23 hok hsafe
    obtain ⟨wf, hrel, hst, hn⟩ := move_out_first M r1 r2 r3 w w1 w3 b1 b2 b3 hw hal h1 h23 hok
      hsafe
    exact ⟨wf, hrel, by rw [hst], by rw [hst], hn, rfl, rfl⟩

/-- The `return` test: three buffers of `S` in a 4096-byte region, the first
moved out of the scope. -/
theorem move_leaves_source_empty_witness :
    ∃ wf, release_all lp64
        [⟨S, 1007, 1007, 5⟩, ⟨S, 1003, 1003, 4⟩,
          (manually_managed_dynamic_buffer.move_ctor ⟨S, 1000, 1000, 3⟩).2]
        ⟨⟨1012, 4084⟩, 12, []⟩ = Outcome.ret wf ∧
      wf.stack.remaining_bytes = (⟨⟨1003, 4093⟩, 3, []⟩ : World).stack.remaining_bytes ∧
      wf.stack.m_data = (⟨⟨1003, 4093⟩, 3, []⟩ : World).stack.m_data ∧
      wf.n_instances = (⟨⟨1003, 4093⟩, 3, []⟩ : World).n_instances ∧
      (manually_managed_dynamic_buffer.move_ctor ⟨S, 1000, 1000, 3⟩).1.data
        = (⟨S, 1000, 1000, 3⟩ : manually_managed_dynamic_buffer).data ∧
      (manually_managed_dynamic_buffer.move_ctor ⟨S, 1000, 1000, 3⟩).1.size
        = (⟨S, 1000, 1000, 3⟩ : manually_managed_dynamic_buffer).size :=
  (move_leaves_source_empty lp64).2.2.1 S 0 ⟨S, 3, 1, false⟩ ⟨S, 4, 1, false⟩
    ⟨S, 5, 1, false⟩ ⟨⟨1000, 4096⟩, 0, []⟩ ⟨⟨1003, 4093⟩, 3, []⟩ ⟨⟨1012, 4084⟩, 12, []⟩
    ⟨S, 1000, 1000, 3⟩ ⟨S, 1003, 1003, 4⟩ ⟨S, 1007, 1007, 5⟩
    (by decide) (by decide) (by decide) (by decide) (by decide) (by decide) (by decide)
    (by decide)

/-! ## Bytes taken by a manually-managed handle -/

theorem floor_push (M : Machine) (base n_bytes floor : Nat) (s : Sys) (T : ElemType)
    (len a : Nat) (fn : InitFn) (m : Bool) (b : manually_managed_dynamic_buffer) (w1 : World)
    (hreg : base + n_bytes < M.wordMod) (ha : a < M.wordMod) (hinv : Sys.Inv M base n_bytes s)
    (hfl : Sys.Floor M floor s)
    (hret : manually_managed_dynamic_buffer.ctor M T len a fn s.world = Outcome.ret (b, w1)) :
    Sys.Floor M floor ⟨w1, ⟨m, b⟩ :: s.handles⟩ := by
  have hsum := hinv.sum_eq
  obtain ⟨d, _, hst, hold, _, _, _⟩ :=
    ctor_in_region M T len a fn s.world w1 b ha (by omega) hret
  obtain ⟨hf1, hf2⟩ := hfl
  refine ⟨?_, ?_⟩
  · simp only [hst]; omega
  · intro h hh hm hl hlt
    rcases List.mem_cons.mp hh with rfl | hh
    · right
      simp only [hold]
      exact hf1
    · exact hf2 h hh hm hl hlt

theorem floor_step (M : Machine) (base n_bytes floor : Nat) (s s1 : Sys) (op : Op)
    (hreg : base + n_bytes < M.wordMod) (hop : op.words M) (hinv : Sys.Inv M base n_bytes s)
    (hfl : Sys.Floor M floor s) (hstep : s.step M op = Outcome.ret s1) :
    Sys.Floor M floor s1 := by
  cases op with
  | make_new T len align =>
    simp only [Sys.step, Sys.push, make_new] at hstep
    split at hstep
    · cases hstep
    · next b w heq =>
      cases hstep
      exact floor_push M base n_bytes floor s T len align _ true b w hreg hop.2 hinv hfl heq
  | make_new_for_overwrite T len align =>
    simp only [Sys.step, Sys.push, make_new_for_overwrite] at hstep
    split at hstep
    · cases hstep
    · next b w heq =>
      cases hstep
      exact floor_push M base n_bytes floor s T len align _ true b w hreg hop.2 hinv hfl heq
  | make_alloc T len align =>
    simp only [Sys.step, Sys.push, make_alloc] at hstep
    split at hstep
    · cases hstep
    · next b w heq =>
      cases hstep
      exact floor_push M base n_bytes floor s T len align _ false b w hreg hop.2 hinv hfl heq
  | end_of_scope i =>
    simp only [Sys.step] at hstep
    split at hstep
    · cases hstep
      exact hfl
    · next h hget =>
      obtain ⟨hf1, hf2⟩ := hfl
      have hsub : ∀ g ∈ s.handles.eraseIdx i, g ∈ s.handles := fun g hg =>
        List.mem_of_mem_eraseIdx hg
      by_cases hm : h.managed = true
      · rw [if_pos hm, dtor_eq] at hstep
        by_cases hlen : h.buf.m_len = 0
        · rw [if_pos hlen] at hstep
          cases hstep
          exact ⟨hf1, fun g hg => hf2 g (hsub g hg)⟩
        · rw [if_neg hlen] at hstep
          by_cases htop : s.world.stack.m_data = h.buf.top M
          · rw [if_neg (fun hne => hne htop)] at hstep
            cases hstep
            refine ⟨?_, fun g hg => hf2 g (hsub g hg)⟩
            simp only
            by_cases hlt : h.buf.m_old_pos < h.buf.top M
            · rcases hf2 h (List.getElem?_mem hget) hm hlen hlt with hb | ha
              · omega
              · exact ha
            · omega
          · rw [if_pos htop] at hstep
            cases hstep
      · rw [if_neg hm] at hstep
        simp only [manually_managed_dynamic_buffer.dtor] at hstep
        cases hstep
        exact ⟨hf1, fun g hg => hf2 g (hsub g hg)⟩
  | move i =>
    simp only [Sys.step] at hstep
    split at hstep
    · cases hstep
      exact hfl
    · next h hget =>
      cases hstep
      have hdest : (⟨h.managed, (manually_managed_dynamic_buffer.move_ctor h.buf).1⟩ : Handle)
          = h := rfl
      obtain ⟨hf1, hf2⟩ := hfl
      refine ⟨hf1, ?_⟩
      rw [hdest, list_set_same s.handles i h hget]
      intro g hg hm hl hlt
      rcases List.mem_cons.mp hg with rfl | hg
      · exact absurd rfl hl
      · exact hf2 g hg hm hl hlt

theorem floor_run (M : Machine) (base n_bytes floor : Nat) (hreg : base + n_bytes < M.wordMod) :
    ∀ (ops : List Op) (s s1 : Sys), (∀ op ∈ ops, op.words M) → Sys.Inv M base n_bytes s →
      Sys.Floor M floor s → Sys.run M ops s = Outcome.ret s1 → Sys.Floor M floor s1
  | [], s, s1, _, _, hfl, hrun => by
    simp only [Sys.run] at hrun
    cases hrun
    exact hfl
  | op :: ops, s, s1, hops, hinv, hfl, hrun => by
    simp only [Sys.run] at hrun
    split at hrun
    · cases hrun
    · next s2 heq =>
      have hop := hops op (List.mem_cons_self _ _)
      exact floor_run M base n_bytes floor hreg ops s2 s1
        (fun o ho => hops o (List.mem_cons_of_mem _ ho))
        (inv_step M base n_bytes s s2 op hreg hop hinv heq)
        (floor_step M base n_bytes floor s s2 op hreg hop hinv hfl heq) hrun

/-- After a `make_alloc` that advanced the cursor, the new cursor is a floor
of the state: the bytes it took lie below it for good. -/
theorem floor_after_make_alloc (M : Machine) (base n_bytes : Nat) (s0 s1 : Sys)
    (T : ElemType) (len align : Nat) (hreg : base + n_bytes < M.wordMod)
    (hop : (Op.make_alloc T len align).words M) (hinv : Sys.Inv M base n_bytes s0)
    (hstep : s0.step M (Op.make_alloc T len align) = Outcome.ret s1)
    (hadv : s1.world.stack.m_data ≠ s0.world.stack.m_data) :
    s0.world.stack.m_data < s1.world.stack.m_data ∧
    Sys.Floor M s1.world.stack.m_data s1 := by
  have hsum := hinv.sum_eq
  simp only [Sys.step, Sys.push, make_alloc] at hstep
  split at hstep
  · cases hstep
  · next b w heq =>
    cases hstep
    obtain ⟨d, _, hst, _, _, _, _⟩ :=
      ctor_in_region M T len align _ s0.world w b hop.2 (by omega) heq
    have hcur : w.stack.m_data = s0.world.stack.m_data + d := by rw [hst]
    have hadv2 : w.stack.m_data ≠ s0.world.stack.m_data := hadv
    have hd : 0 < d := by omega
    refine ⟨?_, ?_, ?_⟩
    · show s0.world.stack.m_data < w.stack.m_data
      omega
    · exact Nat.le_refl _
    · intro h hh hm hl hlt
      show h.buf.top M < w.stack.m_data ∨ w.stack.m_data ≤ h.buf.m_old_pos
      rcases List.mem_cons.mp hh with rfl | hh
      · cases hm
      · left
        have hdata : h.buf.m_data ≠ 0 := fun h0 => hl (hinv.null_empty h hh h0)
        have := hinv.below_cursor h hh ⟨hdata, hlt⟩
        omega

/-- The handle and the view a constructor call leaves do not depend on the
initialisation strategy: a second strategy returns the same handle and view
whenever it returns at all, which it does when it is the byte-array strategy,
when the array size does not overflow, or when the carve failed. -/
theorem ctor_same_carve (M : Machine) (T : ElemType) (n align : Nat) (fn fn2 : InitFn)
    (w w1 : World) (b : manually_managed_dynamic_buffer)
    (hret : manually_managed_dynamic_buffer.ctor M T n align fn w = Outcome.ret (b, w1)) :
    (∀ b2 w2, manually_managed_dynamic_buffer.ctor M T n align fn2 w = Outcome.ret (b2, w2) →
      b2 = b ∧ w2.stack = w1.stack) ∧
    (fn2 = InitFn.no_init_fn ∨ n * T.size < M.wordMod ∨ b.m_data = 0 →
      ∃ w2, manually_managed_dynamic_buffer.ctor M T n align fn2 w = Outcome.ret (b, w2) ∧
        w2.stack = w1.stack) := by
  unfold manually_managed_dynamic_buffer.ctor at hret ⊢
  cases hc : align_next M align ((n * T.size) % M.wordMod) w.stack.m_data
      w.stack.m_rem_bytes with
  | terminate f => rw [hc] at hret; cases hret
  | ret c =>
    rw [hc] at hret
    simp only [make_eq] at hret ⊢
    by_cases hrv : c.rv = 0
    · rw [if_neg (by simpa using hrv)] at hret ⊢
      cases hret
      refine ⟨fun b2 w2 h2 => ?_, fun _ => ⟨_, rfl, rfl⟩⟩
      cases h2
      exact ⟨rfl, rfl⟩
    · rw [if_pos hrv] at hret ⊢
      by_cases hov : fn ≠ InitFn.no_init_fn ∧ M.wordMod ≤ n * T.size
      · rw [if_pos hov] at hret
        cases hret
      rw [if_neg hov] at hret
      cases hret
      have hst : ∀ g : InitFn,
          (if g = InitFn.no_init_fn then ({ w with stack := ⟨c.ptr, c.space⟩ } : World)
            else construct_array T n { w with stack := ⟨c.ptr, c.space⟩ }).stack
            = ⟨c.ptr, c.space⟩ := fun g =>
        (make_frame g T n { w with stack := ⟨c.ptr, c.space⟩ }).1
      refine ⟨fun b2 w2 h2 => ?_, fun h => ?_⟩
      · by_cases hov2 : fn2 ≠ InitFn.no_init_fn ∧ M.wordMod ≤ n * T.size
        · rw [if_pos hov2] at h2
          cases h2
        · rw [if_neg hov2] at h2
          cases h2
          exact ⟨rfl, by rw [hst fn2, hst fn]⟩
      · have hov2 : ¬ (fn2 ≠ InitFn.no_init_fn ∧ M.wordMod ≤ n * T.size) := by
          rintro ⟨hne, hle⟩
          rcases h with h | h | h
          · exact hne h
          · omega
          · exact hrv h
        rw [if_neg hov2]
        exact ⟨_, rfl, by rw [hst fn2, hst fn]⟩

/-- C11: for every length `n`, `make_alloc` constructs nothing (live count
and destructor log unchanged) and, on success, reports `size() == n`; it
performs the carve of `make_new` and `make_new_for_overwrite` for the same
request: whenever one of these returns, `make_alloc` returns the same handle
and leaves the same view, and whenever `make_alloc` returns, they return that
handle and view too unless the carve succeeded and `n * sizeof(T)` overflows
`size_t` (then they do not return); the end of scope of a manually-managed
handle runs no destructor and leaves the view unchanged; and after a
`make_alloc` that took bytes of a region (one that does not wrap around the
address space), in every later state the cursor stays at or above the end of
those bytes and `remaining_bytes()` stays at or below its value right after
the reservation. -/
theorem manual_mode_neither_constructs_nor_reclaims (M : Machine) :
    (∀ (T : ElemType) (n align : Nat) (w w1 : World) (b : manually_managed_dynamic_buffer),
      make_alloc M T n align w = Outcome.ret (b, w1) →
      w1.n_instances = w.n_instances ∧ w1.dtor_log = w.dtor_log ∧
      (b.data ≠ 0 → b.size = n) ∧
      (∀ b2 w2, make_new M T n align w = Outcome.ret (b2, w2) →
        b2 = b ∧ w2.stack = w1.stack) ∧
      (∀ b2 w2, make_new_for_overwrite M T n align w = Outcome.ret (b2, w2) →
        b2 = b ∧ w2.stack = w1.stack) ∧
      (n * T.size < M.wordMod ∨ b.data = 0 →
        (∃ w2, make_new M T n align w = Outcome.ret (b, w2) ∧ w2.stack = w1.stack) ∧
        (∃ w2, make_new_for_overwrite M T n align w = Outcome.ret (b, w2) ∧
          w2.stack = w1.stack))) ∧
    (∀ (T : ElemType) (n align : Nat) (w w2 : World) (b : manually_managed_dynamic_buffer),
      (make_new M T n align w = Outcome.ret (b, w2) ∨
        make_new_for_overwrite M T n align w = Outcome.ret (b, w2)) →
      ∃ w1, make_alloc M T n align w = Outcome.ret (b, w1) ∧ w1.stack = w2.stack ∧
        w1.n_instances = w.n_instances ∧ w1.dtor_log = w.dtor_log) ∧
    (∀ (b : manually_managed_dynamic_buffer) (w : World),
      manually_managed_dynamic_buffer.dtor b w = Outcome.ret w) ∧
    (∀ (base n_bytes : Nat) (ops1 ops2 : List Op) (s0 s1 s2 : Sys) (T : ElemType)
      (len align : Nat),
      base + n_bytes < M.wordMod →
      (∀ op ∈ ops1, op.words M) → (Op.make_alloc T len align).words M →
      (∀ op ∈ ops2, op.words M) →
      Sys.run M ops1 (Sys.init base n_bytes) = Outcome.ret s0 →
      s0.step M (Op.make_alloc T len align) = Outcome.ret s1 →
      s1.world.stack.m_data ≠ s0.world.stack.m_data →
      Sys.run M ops2 s1 = Outcome.ret s2 →
      s1.world.stack.m_data ≤ s2.world.stack.m_data ∧
      s2.world.stack.remaining_bytes ≤ s1.world.stack.remaining_bytes ∧
      s1.world.stack.remaining_bytes < s0.world.stack.remaining_bytes) := by
  have hquiet : ∀ (T : ElemType) (n align : Nat) (w w1 : World)
      (b : manually_managed_dynamic_buffer),
      make_alloc M T n align w = Outcome.ret (b, w1) →
      w1.n_instances = w.n_instances ∧ w1.dtor_log = w.dtor_log ∧
      (b.data ≠ 0 → b.size = n) := by
    intro T n align w w1 b hret
    unfold make_alloc manually_managed_dynamic_buffer.ctor at hret
    cases hc : align_next M align ((n * T.size) % M.wordMod) w.stack.m_data
        w.stack.m_rem_bytes with
    | terminate f => rw [hc] at hret; cases hret
    | ret c =>
      rw [hc] at hret
      simp only [InitFn.make] at hret
      by_cases hrv : c.rv = 0
      · rw [if_neg (by simpa using hrv)] at hret
        cases hret
        exact ⟨rfl, rfl, fun h => absurd rfl h⟩
      · rw [if_pos hrv] at hret
        cases hret
        exact ⟨rfl, rfl, fun _ => rfl⟩
  refine ⟨?_, ?_, fun b w => rfl, ?_⟩
  · intro T n align w w1 b hret
    obtain ⟨h1, h2, h3⟩ := hquiet T n align w w1 b hret
    have hn := ctor_same_carve M T n align InitFn.no_init_fn InitFn.zero_init_fn w w1 b hret
    have hd := ctor_same_carve M T n align InitFn.no_init_fn InitFn.default_init_fn w w1 b hret
    exact ⟨h1, h2, h3, hn.1, hd.1, fun h => ⟨hn.2 (Or.inr h), hd.2 (Or.inr h)⟩⟩
  · intro T n align w w2 b hcall
    have hex : ∃ w1, make_alloc M T n align w = Outcome.ret (b, w1) ∧ w1.stack = w2.stack := by
      rcases hcall with h | h
      · exact (ctor_same_carve M T n align InitFn.zero_init_fn InitFn.no_init_fn w w2 b h).2
          (Or.inl rfl)
      · exact (ctor_same_carve M T n align InitFn.default_init_fn InitFn.no_init_fn w w2 b h).2
          (Or.inl rfl)
    obtain ⟨w1, hw1, hst⟩ := hex
    obtain ⟨h1, h2, _⟩ := hquiet T n align w w1 b hw1
    exact ⟨w1, hw1, hst, h1, h2⟩
  · intro base n_bytes ops1 ops2 s0 s1 s2 T len align hreg hops1 hop hops2 hrun1 hstep hadv hrun2
    have hinv0 := inv_run M base n_bytes hreg ops1 _ s0 hops1 (inv_init M base n_bytes) hrun1
    have hinv1 := inv_step M base n_bytes s0 s1 _ hreg hop hinv0 hstep
    have hinv2 := inv_run M base n_bytes hreg ops2 s1 s2 hops2 hinv1 hrun2
    obtain ⟨hlt, hfl⟩ :=
      floor_after_make_alloc M base n_bytes s0 s1 T len align hreg hop hinv0 hstep hadv
    obtain ⟨hf, _⟩ := floor_run M base n_bytes _ hreg ops2 s1 s2 hops2 hinv1 hfl hrun2
    have e0 := hinv0.sum_eq
    have e1 := hinv1.sum_eq
    have e2 := hinv2.sum_eq
    refine ⟨hf, ?_, ?_⟩
    · show s2.world.stack.m_rem_bytes ≤ s1.world.stack.m_rem_bytes
      omega
    · show s1.world.stack.m_rem_bytes < s0.world.stack.m_rem_bytes
      omega

theorem manual_mode_neither_constructs_nor_reclaims_witness :
    (1012 : Nat) ≤ 1012 ∧
    (⟨1012, 4084⟩ : dynamic_stack_view).remaining_bytes
      ≤ (⟨1012, 4084⟩ : dynamic_stack_view).remaining_bytes ∧
    (⟨1012, 4084⟩ : dynamic_stack_view).remaining_bytes
      < (⟨1003, 4093⟩ : dynamic_stack_view).remaining_bytes :=
  (manual_mode_neither_constructs_nor_reclaims lp64).2.2.2 1000 4096
    [Op.make_new S 3 1] [Op.end_of_scope 0, Op.make_new S 2 1, Op.end_of_scope 0]
    ⟨⟨⟨1003, 4093⟩, 3, []⟩, [⟨true, ⟨S, 1000, 1000, 3⟩⟩]⟩
    ⟨⟨⟨1012, 4084⟩, 3, []⟩, [⟨false, ⟨int, 1003, 1004, 2⟩⟩, ⟨true, ⟨S, 1000, 1000, 3⟩⟩]⟩
    ⟨⟨⟨1012, 4084⟩, 3, [0, 1]⟩, [⟨true, ⟨S, 1000, 1000, 3⟩⟩]⟩
    int 2 4 (by decide) (by decide) (by decide) (by decide) (by decide) (by decide)
    (by decide) (by decide)

/-- C19: in a view over a region that does not wrap around the address space,
if a scoped buffer `A` with `length != 0` that spans at least one byte is
alive and a later `make_alloc` from the same view takes at least one byte
(padding plus size), then in every state reached afterwards, whether or not
the manually-managed handle has gone out of scope, the cursor is strictly
above `A.data + A.length` and releasing `A` terminates the program. -/
theorem raw_reservation_pins_earlier_buffers (M : Machine) (base n_bytes : Nat)
    (ops1 ops2 : List Op) (s0 s1 s2 : Sys) (j : Nat) (A : Handle) (T : ElemType)
    (len align : Nat)
    (hreg : base + n_bytes < M.wordMod)
    (hops1 : ∀ op ∈ ops1, op.words M) (hop : (Op.make_alloc T len align).words M)
    (hops2 : ∀ op ∈ ops2, op.words M)
    (hrun1 : Sys.run M ops1 (Sys.init base n_bytes) = Outcome.ret s0)
    (hA : s0.handles[j]? = some A) (hlen : A.buf.m_len ≠ 0)
    (hbytes : A.buf.m_data < A.buf.top M)
    (hstep : s0.step M (Op.make_alloc T len align) = Outcome.ret s1)
    (hadv : s1.world.stack.m_data ≠ s0.world.stack.m_data)
    (hrun2 : Sys.run M ops2 s1 = Outcome.ret s2) :
    A.buf.top M < s2.world.stack.m_data ∧
    dynamic_buffer.dtor M A.buf s2.world = Outcome.terminate Fatal.lifo_check := by
  have hinv0 := inv_run M base n_bytes hreg ops1 _ s0 hops1 (inv_init M base n_bytes) hrun1
  have hinv1 := inv_step M base n_bytes s0 s1 _ hreg hop hinv0 hstep
  obtain ⟨hlt, hfl⟩ :=
    floor_after_make_alloc M base n_bytes s0 s1 T len align hreg hop hinv0 hstep hadv
  obtain ⟨hf, _⟩ := floor_run M base n_bytes _ hreg ops2 s1 s2 hops2 hinv1 hfl hrun2
  have hmem : A ∈ s0.handles := List.getElem?_mem hA
  have hdata : A.buf.m_data ≠ 0 := fun h0 => hlen (hinv0.null_empty A hmem h0)
  obtain ⟨_, hs2, _⟩ := hinv0.span A hmem hdata
  have hbelow := hinv0.below_cursor A hmem ⟨hdata, by omega⟩
  have hgt : A.buf.top M < s2.world.stack.m_data := by omega
  refine ⟨hgt, ?_⟩
  rw [dtor_eq, if_neg hlen, if_pos (by omega)]

theorem raw_reservation_pins_earlier_buffers_witness :
    (⟨S, 1000, 1000, 3⟩ : manually_managed_dynamic_buffer).top lp64 < 1012 ∧
    dynamic_buffer.dtor lp64 ⟨S, 1000, 1000, 3⟩ ⟨⟨1012, 4084⟩, 3, [0, 1]⟩
      = Outcome.terminate Fatal.lifo_check :=
  raw_reservation_pins_earlier_buffers lp64 1000 4096
    [Op.make_new S 3 1] [Op.end_of_scope 0, Op.make_new S 2 1, Op.end_of_scope 0]
    ⟨⟨⟨1003, 4093⟩, 3, []⟩, [⟨true, ⟨S, 1000, 1000, 3⟩⟩]⟩
    ⟨⟨⟨1012, 4084⟩, 3, []⟩, [⟨false, ⟨int, 1003, 1004, 2⟩⟩, ⟨true, ⟨S, 1000, 1000, 3⟩⟩]⟩
    ⟨⟨⟨1012, 4084⟩, 3, [0, 1]⟩, [⟨true, ⟨S, 1000, 1000, 3⟩⟩]⟩
    0 ⟨true, ⟨S, 1000, 1000, 3⟩⟩ int 2 4
    (by decide) (by decide) (by decide) (by decide) (by decide) (by decide) (by decide)
    (by decide) (by decide) (by decide) (by decide)

end DynStack
